import Mathlib

/-! # Basic topologies of the congestion-aware analytical network backend

A shallow embedding of `Bus.cpp`, `HyperCube.cpp`, `Mesh2D.cpp` and `KingMesh2D.cpp`
(namespace `NetworkAnalyticalCongestionAware`), followed by theorems about routing and
about the enumeration of connection policies.

Conventions of the embedding

* C++ `int` values are mathematical integers (`Int`).  The device count `npus_count + 1`
  of the bus is a sum of C `int`s (`int_add`), which leaves the range at
  `npus_count = INT_MAX`; every other intermediate value the embedded functions compute
  from in-range arguments is bounded by the device count (or by `2 * npus_count` for a
  flipped bit).
* `double` values (bandwidth, latency, link health) are rationals and their products are
  exact: rounding, underflow and overflow are not represented, and no theorem below states
  the value of such a product.
* `assert(c)` is a check that ends the call with `Fault.assertion` when `c` is false.
* `devices.at(i)` ends the call with `Fault.out_of_range` when `i` is not an index of
  the device table.  A device is represented by its identifier.
* `while` loops carry a fuel argument; `Fault.out_of_fuel` is an artefact of the model
  and the theorems show that it does not occur once the fuel is large enough.
* `for` loops whose bounds are not modified by the body run `hi - lo` iterations.
* `static_cast<int>(std::sqrt(n))` is the integer square root, `static_cast<int>(std::log2(n))`
  the floor and `std::ceil(std::log2(n))` the ceiling of the binary logarithm; on the
  range of a positive `int` the double-precision results truncate to these values.
-/

namespace NetworkAnalyticalCongestionAware

/-! ## Outcomes -/

/-- Reasons for which a call does not return a value. -/
inductive Fault where
  /-- An `assert` of the source was violated. -/
  | assertion
  /-- A checked container access `devices.at(i)` was out of range. -/
  | out_of_range
  /-- The loop budget of the model was used up. -/
  | out_of_fuel
  deriving DecidableEq, Repr

deriving instance DecidableEq for Except

/-- The check `assert(c)`. -/
def assert (c : Prop) [Decidable c] : Except Fault Unit :=
  if c then .ok () else .error Fault.assertion

/-! ## Types of `common/Type.h` -/

abbrev DeviceId := Int
abbrev Bandwidth := ℚ
abbrev Latency := ℚ

/-- A route is the sequence of devices visited, each device given by its identifier. -/
abbrev Route := List DeviceId

/-- The pair `ConnectionPolicy{src, dst}`. -/
structure ConnectionPolicy where
  src : Int
  dst : Int
  deriving DecidableEq, Repr

/-- One directed link recorded by `connect`. -/
structure Link where
  src : DeviceId
  dst : DeviceId
  bandwidth : Bandwidth
  latency : Latency
  deriving DecidableEq, Repr

/-! ## Loops -/

/-- Body of a counted loop: `n` iterations with index `i, i+1, ...`, threading the state
and stopping at the first fault. -/
def forLoopAux {σ : Type} (body : Int → σ → Except Fault σ) : Nat → Int → σ → Except Fault σ
  | 0, _, s => .ok s
  | n + 1, i, s =>
    match body i s with
    | .ok s' => forLoopAux body n (i + 1) s'
    | .error e => .error e

/-- The loop `for (int i = lo; i < hi; i++) body`. -/
def forLoop {σ : Type} (lo hi : Int) (body : Int → σ → Except Fault σ) (s : σ) :
    Except Fault σ :=
  forLoopAux body (hi - lo).toNat lo s

/-- Body of a counted loop whose body cannot fail. -/
def forEachAux {σ : Type} (body : Int → σ → σ) : Nat → Int → σ → σ
  | 0, _, s => s
  | n + 1, i, s => forEachAux body n (i + 1) (body i s)

/-- The loop `for (int i = lo; i < hi; i++) body` for a body that cannot fail. -/
def forEach {σ : Type} (lo hi : Int) (body : Int → σ → σ) (s : σ) : σ :=
  forEachAux body (hi - lo).toNat lo s

/-! ## The device and link registry (`BasicTopology`) -/

/-- State shared by every shape: the number of endpoints, the number of devices
(devices are `0 .. devices_count - 1`) and the links recorded so far. -/
structure BasicTopology where
  npus_count : Int
  devices_count : Int
  links : List Link
  deriving DecidableEq, Repr

/-- Modelled from the spec: the base-class constructor `BasicTopology(npus_count,
devices_count, ...)`, whose source file is not part of the sources at hand.  It creates the
devices `0 .. devices_count - 1` and no link. -/
def BasicTopology.init (npus_count devices_count : Int) : BasicTopology :=
  { npus_count := npus_count, devices_count := devices_count, links := [] }

/-- Modelled from the spec: the device table, a dense array indexed by identifier.
`devices.at(i)` is device `i` when `0 ≤ i < devices_count`. -/
def BasicTopology.devices_at (t : BasicTopology) (i : Int) : Except Fault DeviceId :=
  if 0 ≤ i ∧ i < t.devices_count then .ok i else .error Fault.out_of_range

/-- Modelled from the spec: `connect(a, b, bw, lat, bidirectional)` requires
`0 ≤ a, b < devices_count`, `bw > 0`, `lat ≥ 0`; it records a link `a → b` and, when
`bidirectional`, also `b → a` with the same parameters. -/
def BasicTopology.connect (t : BasicTopology) (a b : DeviceId) (bw : Bandwidth)
    (lat : Latency) (bidirectional : Bool) : Except Fault BasicTopology := do
  assert (0 ≤ a ∧ a < t.devices_count)
  assert (0 ≤ b ∧ b < t.devices_count)
  assert (bw > 0)
  assert (lat ≥ 0)
  let links := t.links ++ [Link.mk a b bw lat]
  let links := if bidirectional then links ++ [Link.mk b a bw lat] else links
  pure { t with links := links }

/-- The registry has `N` endpoints and `D` devices: what the base-class constructor
establishes and `connect` preserves. -/
def BasicTopology.HasCounts (N D : Int) (b : BasicTopology) : Prop :=
  b.npus_count = N ∧ b.devices_count = D

/-! ## Bus (`Bus.cpp`) -/

/-- A bus: the registry and the identifier of the switch. -/
structure Bus where
  base : BasicTopology
  bus_id : DeviceId
  deriving DecidableEq, Repr

/-- The sum `a + b` of two C `int`s.  Signed overflow is undefined in C++; it is modelled
as the 32-bit two's-complement wrap-around, so a sum beyond `INT_MAX` is not the
mathematical sum. -/
def int_add (a b : Int) : Int := (a + b + 2 ^ 31) % 2 ^ 32 - 2 ^ 31

/-- The constructor `Bus::Bus`.  The device count `npus_count + 1` of the member
initialiser is a sum of C `int`s. -/
def Bus.new (npus_count : Int) (bandwidth : Bandwidth) (latency : Latency) :
    Except Fault Bus := do
  let base := BasicTopology.init npus_count (int_add npus_count 1)
  assert (npus_count > 0)
  assert (bandwidth > 0)
  assert (latency ≥ 0)
  let bus_id := npus_count
  let base ← forLoop 0 npus_count
    (fun i b => b.connect i bus_id bandwidth latency true) base
  pure { base := base, bus_id := bus_id }

/-- The function `Bus::route`.  The unchecked accesses `devices[i]` are modelled like
`devices.at(i)`; after the two assertions the three indices are in range. -/
def Bus.route (t : Bus) (src dest : DeviceId) : Except Fault Route := do
  assert (0 ≤ src ∧ src < t.base.npus_count)
  assert (0 ≤ dest ∧ dest < t.base.npus_count)
  let route : Route := []
  let route := route ++ [← t.base.devices_at src]
  let route := route ++ [← t.base.devices_at t.bus_id]
  let route := route ++ [← t.base.devices_at dest]
  pure route

/-- The function `Bus::get_connection_policies`. -/
def Bus.get_connection_policies (t : Bus) : List ConnectionPolicy :=
  forEach 0 t.base.npus_count
    (fun i policies => (policies ++ [ConnectionPolicy.mk i t.bus_id])
      ++ [ConnectionPolicy.mk t.bus_id i]) []

/-! ## Numeric library functions -/

/-- The largest `j ≤ k` with `j * j ≤ n`, by downward search from `k`. -/
def isqrtAux : Nat → Nat → Nat
  | 0, _ => 0
  | k + 1, n => if (k + 1) * (k + 1) ≤ n then k + 1 else isqrtAux k n

/-- The value `static_cast<int>(std::sqrt(n))`: the integer square root of `n ≥ 0`. -/
def isqrt (n : Int) : Int := (isqrtAux n.toNat n.toNat : Int)

/-- Binary logarithm rounded down, by repeated halving (`fuel` bounds the halvings). -/
def floorLog2Aux : Nat → Nat → Nat
  | 0, _ => 0
  | fuel + 1, n => if n < 2 then 0 else floorLog2Aux fuel (n / 2) + 1

/-- The value `static_cast<int>(std::log2(n))` for `n ≥ 1`. -/
def floorLog2 (n : Int) : Int := (floorLog2Aux n.toNat n.toNat : Int)

/-- The value `std::ceil(std::log2(n))` for `n ≥ 1`. -/
def ceilLog2 (n : Int) : Int := if n ≤ 1 then 0 else floorLog2 (n - 1) + 1

/-- Number of trailing zero bits among the lowest `width` bits of `n`. -/
def ctzAux : Nat → Nat → Nat
  | 0, _ => 0
  | width + 1, n => if n % 2 = 1 then 0 else ctzAux width (n / 2) + 1

/-- The builtin `__builtin_ctz(x)`: the argument is converted to a 32-bit unsigned value,
the result is the index of its lowest set bit (the C result is undefined for 0). -/
def builtin_ctz (x : Int) : Int := (ctzAux 32 (x % 2 ^ 32).toNat : Int)

/-- The expression `1 << d` for a non-negative shift count. -/
def shl1 (d : Int) : Int := 2 ^ d.toNat

/-! ## HyperCube (`HyperCube.cpp`) -/

/-- An entry `(a, b, health)` of the faulty-link list. -/
abbrev FaultyLink := Int × Int × ℚ

/-- A hypercube: the registry and the members set by the constructor. -/
structure HyperCube where
  base : BasicTopology
  bidirectional : Bool
  faulty_links : List FaultyLink
  non_recursive_topo : Int
  deriving DecidableEq, Repr

/-- The scan of `HyperCube::fault_derate` over a faulty-link list. -/
def fault_derate_scan : List FaultyLink → Int → Int → ℚ
  | [], _, _ => 1
  | link :: rest, src, dst =>
    let a := link.1
    let b := link.2.1
    let health := link.2.2
    if (a = src ∧ b = dst) ∨ (a = dst ∧ b = src) then health
    else fault_derate_scan rest src dst

/-- The function `HyperCube::fault_derate`. -/
def HyperCube.fault_derate (t : HyperCube) (src dst : Int) : ℚ :=
  fault_derate_scan t.faulty_links src dst

/-- Body of the inner loop of `HyperCube::HyperCube`: endpoint `u`, bit position `d`. -/
def HyperCube.connectBit (npus_count : Int) (bandwidth : Bandwidth) (latency : Latency)
    (bidirectional : Bool) (faulty_links : List FaultyLink) (u d : Int)
    (b : BasicTopology) : Except Fault BasicTopology :=
  let scale_factor : ℚ := 2
  let v := Int.xor u (shl1 d)
  if v < npus_count then
    let derate := fault_derate_scan faulty_links u v
    let bw := if derate = 0 then bandwidth * scale_factor
      else bandwidth * derate * scale_factor
    b.connect u v bw latency bidirectional
  else pure b

/-- The constructor `HyperCube::HyperCube` (the diagnostic print is not modelled). -/
def HyperCube.new (npus_count : Int) (bandwidth : Bandwidth) (latency : Latency)
    (bidirectional : Bool) (is_multi_dim : Bool) (non_recursive_topo : Int)
    (faulty_links : List FaultyLink) : Except Fault HyperCube := do
  let base := BasicTopology.init npus_count npus_count
  assert (npus_count > 0)
  assert (bandwidth > 0)
  assert (latency ≥ 0)
  let base ←
    if !is_multi_dim then
      let num_bits := ceilLog2 npus_count
      forLoop 0 npus_count (fun u b =>
        forLoop 0 num_bits (fun d b =>
          HyperCube.connectBit npus_count bandwidth latency bidirectional faulty_links u d b)
          b) base
    else pure base
  pure { base := base, bidirectional := bidirectional, faulty_links := faulty_links,
         non_recursive_topo := non_recursive_topo }

/-- The `while (current != dest)` loop of `HyperCube::route`. -/
def HyperCube.routeLoop (t : HyperCube) (dest : DeviceId) :
    Nat → DeviceId → Route → Except Fault Route
  | 0, current, route =>
    if current ≠ dest then .error Fault.out_of_fuel else .ok route
  | fuel + 1, current, route =>
    if current ≠ dest then do
      let diff := Int.xor current dest
      let bit_to_flip := builtin_ctz diff
      let next := Int.xor current (shl1 bit_to_flip)
      assert (0 ≤ next ∧ next < t.base.npus_count)
      let device ← t.base.devices_at next
      HyperCube.routeLoop t dest fuel next (route ++ [device])
    else .ok route

/-- The function `HyperCube::route`. -/
def HyperCube.route (t : HyperCube) (fuel : Nat) (src dest : DeviceId) :
    Except Fault Route := do
  assert (0 ≤ src ∧ src < t.base.npus_count)
  assert (0 ≤ dest ∧ dest < t.base.npus_count)
  let route : Route := []
  let current := src
  let route := route ++ [← t.base.devices_at current]
  HyperCube.routeLoop t dest fuel current route

/-- The function `HyperCube::get_connection_policies`. -/
def HyperCube.get_connection_policies (t : HyperCube) : List ConnectionPolicy :=
  let dims := floorLog2 t.base.npus_count
  forEach 0 t.base.npus_count (fun i policies =>
    forEach 0 dims (fun d policies =>
      let neighbor := Int.xor i (shl1 d)
      let policies := policies ++ [ConnectionPolicy.mk i neighbor]
      if t.bidirectional then policies ++ [ConnectionPolicy.mk neighbor i] else policies)
      policies) []

/-! ## Mesh2D (`Mesh2D.cpp`) -/

/-- A 2D mesh: the registry and the `bidirectional` member. -/
structure Mesh2D where
  base : BasicTopology
  bidirectional : Bool
  deriving DecidableEq, Repr

/-- The 1D fallback of the mesh constructors: `connect(i, i + 1)` for `i < npus_count - 1`. -/
def connectChain (npus_count : Int) (bandwidth : Bandwidth) (latency : Latency)
    (bidirectional : Bool) (base : BasicTopology) : Except Fault BasicTopology :=
  forLoop 0 (npus_count - 1) (fun i b =>
    b.connect i (i + 1) bandwidth latency bidirectional) base

/-- Body of the inner loop of `Mesh2D::Mesh2D`: the cell in row `row`, column `col`. -/
def Mesh2D.connectCell (dim : Int) (bandwidth : Bandwidth) (latency : Latency)
    (bidirectional : Bool) (row col : Int) (b : BasicTopology) :
    Except Fault BasicTopology := do
  let current := row * dim + col
  let b ←
    if col + 1 < dim then
      let right := row * dim + (col + 1)
      b.connect current right bandwidth latency bidirectional
    else pure b
  if row + 1 < dim then
    let down := (row + 1) * dim + col
    b.connect current down bandwidth latency bidirectional
  else pure b

/-- The constructor `Mesh2D::Mesh2D`. -/
def Mesh2D.new (npus_count : Int) (bandwidth : Bandwidth) (latency : Latency)
    (bidirectional : Bool) (is_multi_dim : Bool) : Except Fault Mesh2D := do
  let base := BasicTopology.init npus_count npus_count
  assert (npus_count > 0)
  assert (bandwidth > 0)
  assert (latency ≥ 0)
  let base ←
    if !is_multi_dim then do
      let dim := isqrt npus_count
      assert (dim * dim = npus_count)
      forLoop 0 dim (fun row b =>
        forLoop 0 dim (fun col b =>
          Mesh2D.connectCell dim bandwidth latency bidirectional row col b) b) base
    else
      connectChain npus_count bandwidth latency bidirectional base
  pure { base := base, bidirectional := bidirectional }

/-- The loop `while (cur_x != dest_x)` of `Mesh2D::route`; returns `cur_x` and the route. -/
def Mesh2D.routeX (t : Mesh2D) (dim cur_y dest_x step_x : Int) :
    Nat → Int → Route → Except Fault (Int × Route)
  | 0, cur_x, route =>
    if cur_x ≠ dest_x then .error Fault.out_of_fuel else .ok (cur_x, route)
  | fuel + 1, cur_x, route =>
    if cur_x ≠ dest_x then do
      let cur_x := cur_x + step_x
      let idx := cur_y * dim + cur_x
      let device ← t.base.devices_at idx
      Mesh2D.routeX t dim cur_y dest_x step_x fuel cur_x (route ++ [device])
    else .ok (cur_x, route)

/-- The loop `while (cur_y != dest_y)` of `Mesh2D::route`; returns `cur_y` and the route. -/
def Mesh2D.routeY (t : Mesh2D) (dim cur_x dest_y step_y : Int) :
    Nat → Int → Route → Except Fault (Int × Route)
  | 0, cur_y, route =>
    if cur_y ≠ dest_y then .error Fault.out_of_fuel else .ok (cur_y, route)
  | fuel + 1, cur_y, route =>
    if cur_y ≠ dest_y then do
      let cur_y := cur_y + step_y
      let idx := cur_y * dim + cur_x
      let device ← t.base.devices_at idx
      Mesh2D.routeY t dim cur_x dest_y step_y fuel cur_y (route ++ [device])
    else .ok (cur_y, route)

/-- The function `Mesh2D::route`.  `fuel` bounds the iterations of each loop. -/
def Mesh2D.route (t : Mesh2D) (fuel : Nat) (src dest : DeviceId) : Except Fault Route := do
  assert (0 ≤ src ∧ src < t.base.npus_count)
  assert (0 ≤ dest ∧ dest < t.base.npus_count)
  let route : Route := []
  let dim := isqrt t.base.npus_count
  assert (dim * dim = t.base.npus_count)
  let src_x := Int.tmod src dim
  let src_y := Int.tdiv src dim
  let dest_x := Int.tmod dest dim
  let dest_y := Int.tdiv dest dim
  let dx := dest_x - src_x
  let dy := dest_y - src_y
  let step_x : Int := if dx = 0 then 0 else (if dx > 0 then 1 else -1)
  let step_y : Int := if dy = 0 then 0 else (if dy > 0 then 1 else -1)
  let cur_x := src_x
  let cur_y := src_y
  let route := route ++ [← t.base.devices_at src]
  let (cur_x, route) ← Mesh2D.routeX t dim cur_y dest_x step_x fuel cur_x route
  let (_, route) ← Mesh2D.routeY t dim cur_x dest_y step_y fuel cur_y route
  pure route

/-- The right/down pass of `Mesh2D::get_connection_policies`. -/
def Mesh2D.rightDownPass (dim : Int) (policies : List ConnectionPolicy) :
    List ConnectionPolicy :=
  forEach 0 dim (fun row policies =>
    forEach 0 dim (fun col policies =>
      let current := row * dim + col
      let policies :=
        if col + 1 < dim then
          let right := row * dim + (col + 1)
          policies ++ [ConnectionPolicy.mk current right]
        else policies
      if row + 1 < dim then
        let down := (row + 1) * dim + col
        policies ++ [ConnectionPolicy.mk current down]
      else policies) policies) policies

/-- The left/up pass of `Mesh2D::get_connection_policies`. -/
def Mesh2D.leftUpPass (dim : Int) (policies : List ConnectionPolicy) :
    List ConnectionPolicy :=
  forEach 0 dim (fun row policies =>
    forEach 0 dim (fun col policies =>
      let current := row * dim + col
      let policies :=
        if col - 1 ≥ 0 then
          let left := row * dim + (col - 1)
          policies ++ [ConnectionPolicy.mk current left]
        else policies
      if row - 1 ≥ 0 then
        let up := (row - 1) * dim + col
        policies ++ [ConnectionPolicy.mk current up]
      else policies) policies) policies

/-- The function `Mesh2D::get_connection_policies`. -/
def Mesh2D.get_connection_policies (t : Mesh2D) : Except Fault (List ConnectionPolicy) := do
  let policies : List ConnectionPolicy := []
  let dim := isqrt t.base.npus_count
  assert (dim * dim = t.base.npus_count)
  let policies := Mesh2D.rightDownPass dim policies
  let policies := if t.bidirectional then Mesh2D.leftUpPass dim policies else policies
  pure policies

/-! ## KingMesh2D (`KingMesh2D.cpp`) -/

/-- A king mesh: the registry and the `bidirectional` member. -/
structure KingMesh2D where
  base : BasicTopology
  bidirectional : Bool
  deriving DecidableEq, Repr

/-- Body of the inner loop of `KingMesh2D::KingMesh2D`: the cell in row `row`, column `col`. -/
def KingMesh2D.connectCell (dim : Int) (bandwidth : Bandwidth) (latency : Latency)
    (bidirectional : Bool) (row col : Int) (b : BasicTopology) :
    Except Fault BasicTopology := do
  let current := row * dim + col
  let b ←
    if col + 1 < dim then
      let right := row * dim + (col + 1)
      b.connect current right bandwidth latency bidirectional
    else pure b
  if row + 1 < dim then do
    let down := (row + 1) * dim + col
    let b ← b.connect current down bandwidth latency bidirectional
    let b ←
      if col + 1 < dim then
        let diag_right := (row + 1) * dim + (col + 1)
        b.connect current diag_right bandwidth latency bidirectional
      else pure b
    if col > 0 then
      let diag_left := (row + 1) * dim + (col - 1)
      b.connect current diag_left bandwidth latency bidirectional
    else pure b
  else pure b

/-- The constructor `KingMesh2D::KingMesh2D`. -/
def KingMesh2D.new (npus_count : Int) (bandwidth : Bandwidth) (latency : Latency)
    (bidirectional : Bool) (is_multi_dim : Bool) : Except Fault KingMesh2D := do
  let base := BasicTopology.init npus_count npus_count
  assert (npus_count > 0)
  assert (bandwidth > 0)
  assert (latency ≥ 0)
  let base ←
    if !is_multi_dim then do
      let dim := isqrt npus_count
      assert (dim * dim = npus_count)
      forLoop 0 dim (fun row b =>
        forLoop 0 dim (fun col b =>
          KingMesh2D.connectCell dim bandwidth latency bidirectional row col b) b) base
    else
      connectChain npus_count bandwidth latency bidirectional base
  pure { base := base, bidirectional := bidirectional }

/-- One iteration of the loop of `KingMesh2D::route`: the new `(cur_x, cur_y)`. -/
def KingMesh2D.routeStep (dim dest_x dest_y cur_x cur_y : Int) : Int × Int :=
  let step_x : Int := if cur_x < dest_x then 1 else (if cur_x > dest_x then -1 else 0)
  let step_y : Int := if cur_y < dest_y then 1 else (if cur_y > dest_y then -1 else 0)
  let cur_x := cur_x + step_x
  let cur_y := cur_y + step_y
  let cur_x := if cur_x < 0 then 0 else (if cur_x ≥ dim then dim - 1 else cur_x)
  let cur_y := if cur_y < 0 then 0 else (if cur_y ≥ dim then dim - 1 else cur_y)
  (cur_x, cur_y)

/-- The loop `while (cur_x != dest_x || cur_y != dest_y)` of `KingMesh2D::route`. -/
def KingMesh2D.routeLoop (t : KingMesh2D) (dim dest_x dest_y : Int) :
    Nat → Int → Int → Route → Except Fault Route
  | 0, cur_x, cur_y, route =>
    if cur_x ≠ dest_x ∨ cur_y ≠ dest_y then .error Fault.out_of_fuel else .ok route
  | fuel + 1, cur_x, cur_y, route =>
    if cur_x ≠ dest_x ∨ cur_y ≠ dest_y then do
      let (cur_x, cur_y) := KingMesh2D.routeStep dim dest_x dest_y cur_x cur_y
      let idx := cur_y * dim + cur_x
      let device ← t.base.devices_at idx
      KingMesh2D.routeLoop t dim dest_x dest_y fuel cur_x cur_y (route ++ [device])
    else .ok route

/-- The function `KingMesh2D::route`.  `fuel` bounds the iterations of the loop. -/
def KingMesh2D.route (t : KingMesh2D) (fuel : Nat) (src dest : DeviceId) :
    Except Fault Route := do
  assert (0 ≤ src ∧ src < t.base.npus_count)
  assert (0 ≤ dest ∧ dest < t.base.npus_count)
  let route : Route := []
  let dim := isqrt t.base.npus_count
  assert (dim * dim = t.base.npus_count)
  let src_x := Int.tmod src dim
  let src_y := Int.tdiv src dim
  let dest_x := Int.tmod dest dim
  let dest_y := Int.tdiv dest dim
  let cur_x := src_x
  let cur_y := src_y
  let route := route ++ [← t.base.devices_at src]
  KingMesh2D.routeLoop t dim dest_x dest_y fuel cur_x cur_y route

/-- The 8-neighbourhood enumeration of `KingMesh2D::get_connection_policies`. -/
def KingMesh2D.neighbourPass (dim : Int) (policies : List ConnectionPolicy) :
    List ConnectionPolicy :=
  forEach 0 dim (fun row policies =>
    forEach 0 dim (fun col policies =>
      let current := row * dim + col
      forEach (-1) 2 (fun dy policies =>
        forEach (-1) 2 (fun dx policies =>
          if dx = 0 ∧ dy = 0 then policies
          else
            let new_row := row + dy
            let new_col := col + dx
            if new_row ≥ 0 ∧ new_row < dim ∧ new_col ≥ 0 ∧ new_col < dim then
              let neighbor := new_row * dim + new_col
              policies ++ [ConnectionPolicy.mk current neighbor]
            else policies) policies) policies) policies) policies

/-- The function `KingMesh2D::get_connection_policies`. -/
def KingMesh2D.get_connection_policies (t : KingMesh2D) :
    Except Fault (List ConnectionPolicy) := do
  let policies : List ConnectionPolicy := []
  let dim := isqrt t.base.npus_count
  assert (dim * dim = t.base.npus_count)
  let policies := KingMesh2D.neighbourPass dim policies
  let policies :=
    if t.bidirectional then
      let reverse_policies := policies.foldl
        (fun reverse_policies p => reverse_policies ++ [ConnectionPolicy.mk p.dst p.src]) []
      policies ++ reverse_policies
    else policies
  pure policies

/-! ## Reference paths, written from the description of the routing algorithms -/

/-- The dimension-order path of the description of Mesh2D: from `src`, `|dx|` cells along
row `src_y` one column at a time toward `dest_x`, then `|dy|` cells along column `dest_x`
one row at a time toward `dest_y`, where `x = id mod d` and `y = id div d`. -/
def xFirstPath (d : Int) (src dest : Int) : List Int :=
  let src_x := src % d
  let src_y := src / d
  let dest_x := dest % d
  let dest_y := dest / d
  (List.range ((dest_x - src_x).natAbs + 1)).map
      (fun k : Nat => src_y * d + (src_x + Int.sign (dest_x - src_x) * (k : Int)))
    ++ (List.range (dest_y - src_y).natAbs).map
      (fun k : Nat => (src_y + Int.sign (dest_y - src_y) * ((k : Int) + 1)) * d + dest_x)

/-- The policy with source and destination exchanged. -/
def ConnectionPolicy.reversed (p : ConnectionPolicy) : ConnectionPolicy :=
  ConnectionPolicy.mk p.dst p.src

/-- The pairs a cell contributes to the right/down pass: toward its right neighbour and
toward its down neighbour, when they exist. -/
def Mesh2D.rdCell (dim row col : Int) : List ConnectionPolicy :=
  (if col + 1 < dim then [ConnectionPolicy.mk (row * dim + col) (row * dim + (col + 1))]
    else []) ++
  (if row + 1 < dim then [ConnectionPolicy.mk (row * dim + col) ((row + 1) * dim + col)]
    else [])

/-- The pairs a cell contributes to the left/up pass: toward its left neighbour and toward
its up neighbour, when they exist. -/
def Mesh2D.luCell (dim row col : Int) : List ConnectionPolicy :=
  (if col - 1 ≥ 0 then [ConnectionPolicy.mk (row * dim + col) (row * dim + (col - 1))]
    else []) ++
  (if row - 1 ≥ 0 then [ConnectionPolicy.mk (row * dim + col) ((row - 1) * dim + col)]
    else [])

/-- A pair from a cell of the `d × d` grid to its right neighbour. -/
def Mesh2D.IsRightPair (d : Int) (p : ConnectionPolicy) : Prop :=
  ∃ row col : Int, 0 ≤ row ∧ row < d ∧ 0 ≤ col ∧ col + 1 < d ∧
    p = ConnectionPolicy.mk (row * d + col) (row * d + (col + 1))

/-- A pair from a cell of the `d × d` grid to its down neighbour. -/
def Mesh2D.IsDownPair (d : Int) (p : ConnectionPolicy) : Prop :=
  ∃ row col : Int, 0 ≤ row ∧ row + 1 < d ∧ 0 ≤ col ∧ col < d ∧
    p = ConnectionPolicy.mk (row * d + col) ((row + 1) * d + col)

/-- The largest value of a C `int`. -/
def INT_MAX : Int := 2 ^ 31 - 1

/-- The positions of the set bits of a non-negative 32-bit value, lowest first. -/
def setBitPositions (x : Int) : List Nat :=
  (List.range 32).filter (fun i => x.toNat.testBit i)

/-- The number of set bits of a non-negative 32-bit value. -/
def popcount (x : Int) : Nat := (setBitPositions x).length

/-- Two identifiers differ in exactly one bit. -/
def differInOneBit (a b : Int) : Prop := ∃ k : Nat, Int.xor a b = 2 ^ k

/-- The bit-fixing path of the description of HyperCube: starting at `src`, the `k`-th hop
flips the `k`-th lowest set bit of `src XOR dest`. -/
def bitFixPath (src dest : Int) : List Int :=
  (setBitPositions (Int.xor src dest)).scanl (fun c b => Int.xor c (2 ^ b)) src

/-! ## Link lists of the constructors and reference enumerations -/

/-- The links one call `connect(a, b, bw, lat, bidirectional)` records. -/
def linksOf (a b : DeviceId) (bw : Bandwidth) (lat : Latency) (bidirectional : Bool) :
    List Link :=
  if bidirectional then [Link.mk a b bw lat, Link.mk b a bw lat] else [Link.mk a b bw lat]

/-- The registry after recording further links. -/
def BasicTopology.addLinks (b : BasicTopology) (links : List Link) : BasicTopology :=
  { b with links := b.links ++ links }

/-- The links the cell body of the mesh constructor records. -/
def Mesh2D.cellLinks (dim : Int) (bw : Bandwidth) (lat : Latency) (bidirectional : Bool)
    (row col : Int) : List Link :=
  (if col + 1 < dim then
      linksOf (row * dim + col) (row * dim + (col + 1)) bw lat bidirectional else []) ++
  (if row + 1 < dim then
      linksOf (row * dim + col) ((row + 1) * dim + col) bw lat bidirectional else [])

/-- The links the cell body of the king-mesh constructor records. -/
def KingMesh2D.cellLinks (dim : Int) (bw : Bandwidth) (lat : Latency) (bidirectional : Bool)
    (row col : Int) : List Link :=
  (if col + 1 < dim then
      linksOf (row * dim + col) (row * dim + (col + 1)) bw lat bidirectional else []) ++
  ((if row + 1 < dim then
      linksOf (row * dim + col) ((row + 1) * dim + col) bw lat bidirectional else []) ++
  ((if row + 1 < dim ∧ col + 1 < dim then
      linksOf (row * dim + col) ((row + 1) * dim + (col + 1)) bw lat bidirectional else []) ++
  (if row + 1 < dim ∧ col > 0 then
      linksOf (row * dim + col) ((row + 1) * dim + (col - 1)) bw lat bidirectional else [])))

/-- The bandwidth the hypercube constructor gives the link between `u` and `v`. -/
def HyperCube.linkBandwidth (bandwidth : Bandwidth) (faulty_links : List FaultyLink)
    (u v : Int) : Bandwidth :=
  if fault_derate_scan faulty_links u v = 0 then bandwidth * 2
  else bandwidth * fault_derate_scan faulty_links u v * 2

/-- The links the inner loop body of the hypercube constructor records. -/
def HyperCube.bitLinks (npus_count : Int) (bw : Bandwidth) (lat : Latency)
    (bidirectional : Bool) (faulty_links : List FaultyLink) (u d : Int) : List Link :=
  if Int.xor u (shl1 d) < npus_count then
    linksOf u (Int.xor u (shl1 d))
      (HyperCube.linkBandwidth bw faulty_links u (Int.xor u (shl1 d))) lat bidirectional
  else []

/-- The grid of cells in row-major order, each contributing the list `cell row col`. -/
def gridFlatMap {α : Type} (d : Nat) (cell : Int → Int → List α) : List α :=
  (List.range d).flatMap (fun row : Nat =>
    (List.range d).flatMap (fun col : Nat => cell row col))

/-- The test of `HyperCube::fault_derate`: the entry joins `a` and `b` in either order. -/
def FaultyLink.joins (a b : Int) (link : FaultyLink) : Bool :=
  decide ((link.1 = a ∧ link.2.1 = b) ∨ (link.1 = b ∧ link.2.1 = a))

/-- The directed pair of a link. -/
def Link.toPolicy (l : Link) : ConnectionPolicy := ConnectionPolicy.mk l.src l.dst

/-- The pair a king-mesh cell contributes for the offset `(dy, dx)`. -/
def KingMesh2D.nbrPair (dim row col dy dx : Int) : List ConnectionPolicy :=
  if dx = 0 ∧ dy = 0 then []
  else if row + dy ≥ 0 ∧ row + dy < dim ∧ col + dx ≥ 0 ∧ col + dx < dim then
    [ConnectionPolicy.mk (row * dim + col) ((row + dy) * dim + (col + dx))]
  else []

/-- The pairs a king-mesh cell contributes: its neighbours for `dy = -1, 0, 1` and, for each
`dy`, `dx = -1, 0, 1`. -/
def KingMesh2D.kingCell (dim row col : Int) : List ConnectionPolicy :=
  (List.range 3).flatMap (fun j : Nat => (List.range 3).flatMap (fun i : Nat =>
    KingMesh2D.nbrPair dim row col (-1 + (j : Int)) (-1 + (i : Int))))

/-- An ordered pair of cells of the `d × d` grid at Chebyshev distance 1. -/
def KingMesh2D.IsKingPair (d : Int) (p : ConnectionPolicy) : Prop :=
  ∃ r1 c1 r2 c2 : Int, (0 ≤ r1 ∧ r1 < d) ∧ (0 ≤ c1 ∧ c1 < d) ∧ (0 ≤ r2 ∧ r2 < d) ∧
    (0 ≤ c2 ∧ c2 < d) ∧ max |r2 - r1| |c2 - c1| = 1 ∧
    p = ConnectionPolicy.mk (r1 * d + c1) (r2 * d + c2)

/-- Whether a coordinate lies in `[0, dim)`, as a number. -/
def KingMesh2D.inGrid (dim x : Int) : Nat := if 0 ≤ x ∧ x < dim then 1 else 0

/-- The number of coordinates among `x - 1`, `x`, `x + 1` that lie in `[0, dim)`. -/
def KingMesh2D.span (dim x : Int) : Nat :=
  KingMesh2D.inGrid dim (x + -1) + KingMesh2D.inGrid dim (x + 0) + KingMesh2D.inGrid dim (x + 1)

/-! ## The alternative wiring and the steps of the king-mesh routing loop -/

/-- The alternative wiring kept as a comment at the end of the constructors:
`for (policy : get_connection_policies()) connect(policy.src, policy.dst, bandwidth,
latency, false)`. -/
def connectPolicies (bandwidth : Bandwidth) (latency : Latency) :
    List ConnectionPolicy → BasicTopology → Except Fault BasicTopology
  | [], b => .ok b
  | policy :: policies, b =>
    match b.connect policy.src policy.dst bandwidth latency false with
    | .ok b' => connectPolicies bandwidth latency policies b'
    | .error e => .error e

/-- The link a unidirectional `connect` records for a pair. -/
def ConnectionPolicy.toLink (bw : Bandwidth) (lat : Latency) (p : ConnectionPolicy) : Link :=
  Link.mk p.src p.dst bw lat

/-- The coordinates after `cur_x += step_x; cur_y += step_y` in the loop of
`KingMesh2D::route`, before the clamp. -/
def KingMesh2D.rawStep (dest_x dest_y cur_x cur_y : Int) : Int × Int :=
  let step_x : Int := if cur_x < dest_x then 1 else (if cur_x > dest_x then -1 else 0)
  let step_y : Int := if cur_y < dest_y then 1 else (if cur_y > dest_y then -1 else 0)
  (cur_x + step_x, cur_y + step_y)

/-- The clamp of `KingMesh2D::route`: `if (x < 0) x = 0; else if (x >= dim) x = dim - 1`. -/
def KingMesh2D.clamp (dim x : Int) : Int :=
  if x < 0 then 0 else (if x ≥ dim then dim - 1 else x)

/-- The successive values of `(cur_x, cur_y)` at the end of each iteration of the loop of
`KingMesh2D::route`. -/
def KingMesh2D.routeTrace (dim dest_x dest_y : Int) : Nat → Int → Int → List (Int × Int)
  | 0, _, _ => []
  | fuel + 1, cur_x, cur_y =>
    if cur_x ≠ dest_x ∨ cur_y ≠ dest_y then
      KingMesh2D.routeStep dim dest_x dest_y cur_x cur_y ::
        KingMesh2D.routeTrace dim dest_x dest_y fuel
          (KingMesh2D.routeStep dim dest_x dest_y cur_x cur_y).1
          (KingMesh2D.routeStep dim dest_x dest_y cur_x cur_y).2
    else []

/-- The Chebyshev distance between two cells `(x, y)`. -/
def chebyshev (a b : Int × Int) : Nat := max (b.1 - a.1).natAbs (b.2 - a.2).natAbs

/-! # Theorems -/

/-! ## Outcomes and loops -/

@[simp] theorem assert_of_true {c : Prop} [Decidable c] (h : c) : assert c = .ok () := by
  simp [assert, h]

@[simp] theorem assert_of_false {c : Prop} [Decidable c] (h : ¬ c) :
    assert c = .error Fault.assertion := by
  simp [assert, h]

@[simp] theorem ok_bind {α β : Type} (a : α) (f : α → Except Fault β) :
    (Except.ok a >>= f) = f a := rfl

@[simp] theorem error_bind {α β : Type} (e : Fault) (f : α → Except Fault β) :
    ((Except.error e : Except Fault α) >>= f) = .error e := rfl

@[simp] theorem pure_eq_ok {α : Type} (a : α) : (pure a : Except Fault α) = .ok a := rfl

/-- A counted loop succeeds and keeps an invariant when every iteration does. -/
theorem forLoopAux_ok {σ : Type} (P : σ → Prop) (body : Int → σ → Except Fault σ) :
    ∀ (n : Nat) (lo : Int) (s : σ), P s →
      (∀ i s, lo ≤ i → i < lo + n → P s → ∃ s', body i s = .ok s' ∧ P s') →
      ∃ s', forLoopAux body n lo s = .ok s' ∧ P s' := by
  intro n
  induction n with
  | zero => intro lo s hs _; exact ⟨s, rfl, hs⟩
  | succ n ih =>
    intro lo s hs hbody
    obtain ⟨s1, h1, hP1⟩ := hbody lo s le_rfl (by push_cast; omega) hs
    obtain ⟨s2, h2, hP2⟩ := ih (lo + 1) s1 hP1 (fun i s hi1 hi2 hP =>
      hbody i s (by omega) (by push_cast; omega) hP)
    exact ⟨s2, by simp [forLoopAux, h1, h2], hP2⟩

/-- The `for` loop succeeds and keeps an invariant when every iteration does. -/
theorem forLoop_ok {σ : Type} (P : σ → Prop) (body : Int → σ → Except Fault σ)
    (lo hi : Int) (s : σ) (hs : P s)
    (hbody : ∀ i s, lo ≤ i → i < hi → P s → ∃ s', body i s = .ok s' ∧ P s') :
    ∃ s', forLoop lo hi body s = .ok s' ∧ P s' := by
  unfold forLoop
  exact forLoopAux_ok P body _ lo s hs (fun i s h1 h2 hP => hbody i s h1 (by omega) hP)

/-- A loop whose body appends `f i` to the accumulator appends the `f i` in order. -/
theorem forEachAux_append {α : Type} (body : Int → List α → List α) (f : Int → List α)
    (hbody : ∀ i acc, body i acc = acc ++ f i) :
    ∀ (n : Nat) (lo : Int) (acc : List α),
      forEachAux body n lo acc = acc ++ (List.range n).flatMap (fun k => f (lo + (k : Int))) := by
  intro n
  induction n with
  | zero => intro lo acc; simp [forEachAux]
  | succ n ih =>
    intro lo acc
    rw [forEachAux, ih, hbody, List.range_succ_eq_map]
    simp [List.flatMap_cons, List.flatMap_map, Function.comp_def, add_assoc, add_comm (1 : Int)]

/-- The loop `for (i = 0; i < n; i++) acc += f i` for a natural bound. -/
theorem forEach_append {α : Type} (body : Int → List α → List α) (f : Int → List α)
    (hbody : ∀ i acc, body i acc = acc ++ f i) (n : Nat) (acc : List α) :
    forEach 0 (n : Int) body acc = acc ++ (List.range n).flatMap (fun k => f (k : Int)) := by
  unfold forEach
  rw [forEachAux_append body f hbody]
  simp

/-- Length of a `flatMap` whose pieces all have the same length. -/
theorem length_flatMap_const {α β : Type} (f : α → List β) (c : Nat) :
    ∀ (l : List α), (∀ a ∈ l, (f a).length = c) → (l.flatMap f).length = l.length * c := by
  intro l
  induction l with
  | nil => intro _; simp
  | cons a l ih =>
    intro h
    rw [List.flatMap_cons, List.length_append, ih (fun x hx => h x (List.mem_cons_of_mem _ hx)),
      h a (List.mem_cons_self _ _), List.length_cons]
    ring

/-! ## The registry -/

/-- When its preconditions hold, `connect` records the link and, if asked, its mirror. -/
theorem BasicTopology.connect_eq (b : BasicTopology) (x y : Int) (bw lat : ℚ) (bidir : Bool)
    (hx : 0 ≤ x ∧ x < b.devices_count) (hy : 0 ≤ y ∧ y < b.devices_count)
    (hbw : 0 < bw) (hlat : 0 ≤ lat) :
    b.connect x y bw lat bidir = .ok { b with links :=
      if bidir then (b.links ++ [Link.mk x y bw lat]) ++ [Link.mk y x bw lat]
      else b.links ++ [Link.mk x y bw lat] } := by
  simp only [BasicTopology.connect]
  rw [assert_of_true hx, assert_of_true hy, assert_of_true (by exact hbw),
    assert_of_true (by exact hlat)]
  rfl

theorem BasicTopology.connect_ok {N D : Int} (b : BasicTopology) (hb : b.HasCounts N D)
    (x y : Int) (bw lat : ℚ) (bidir : Bool)
    (hx : 0 ≤ x ∧ x < D) (hy : 0 ≤ y ∧ y < D) (hbw : 0 < bw) (hlat : 0 ≤ lat) :
    ∃ b', b.connect x y bw lat bidir = .ok b' ∧ b'.HasCounts N D := by
  obtain ⟨h1, h2⟩ := hb
  exact ⟨_, b.connect_eq x y bw lat bidir (by rw [h2]; exact hx) (by rw [h2]; exact hy)
    hbw hlat, h1, h2⟩

theorem BasicTopology.devices_at_ok (b : BasicTopology) (i : Int)
    (h : 0 ≤ i ∧ i < b.devices_count) : b.devices_at i = .ok i := by
  simp [BasicTopology.devices_at, h]

/-! ## Bus -/

/-- Below `INT_MAX` the sum `n + 1` of C `int`s is the mathematical sum. -/
theorem int_add_one (N : Int) (hN : 0 < N) (hmax : N < INT_MAX) : int_add N 1 = N + 1 := by
  unfold INT_MAX at hmax
  unfold int_add
  omega

/-- Construction of a bus succeeds for valid parameters when `npus_count + 1` does not
overflow; the switch is device `N`. -/
theorem Bus_new_ok (N : Int) (bw lat : ℚ) (hN : 0 < N) (hmax : N < INT_MAX) (hbw : 0 < bw)
    (hlat : 0 ≤ lat) :
    ∃ t, Bus.new N bw lat = .ok t ∧ t.base.HasCounts N (N + 1) ∧ t.bus_id = N := by
  obtain ⟨b, hb, hP⟩ := forLoop_ok (BasicTopology.HasCounts N (N + 1))
    (fun i b => b.connect i N bw lat true) 0 N (BasicTopology.init N (N + 1)) ⟨rfl, rfl⟩
    (fun i s h1 h2 hs => BasicTopology.connect_ok s hs i N bw lat true
      ⟨h1, by omega⟩ ⟨by omega, by omega⟩ hbw hlat)
  refine ⟨⟨b, N⟩, ?_, hP, rfl⟩
  simp only [Bus.new]
  rw [int_add_one N hN hmax, assert_of_true (by exact hN), assert_of_true (by exact hbw),
    assert_of_true (by exact hlat)]
  simp [hb]

/-- At `npus_count = INT_MAX` the device count `npus_count + 1` overflows and no bus is
built: the first `connect` finds no device. -/
theorem Bus_new_INT_MAX (bw lat : ℚ) (hbw : 0 < bw) (hlat : 0 ≤ lat) :
    Bus.new INT_MAX bw lat = .error Fault.assertion := by
  have h1 : int_add INT_MAX 1 = -2 ^ 31 := by decide
  have h2 : (INT_MAX - 0).toNat = 2147483646 + 1 := by decide
  simp only [Bus.new]
  rw [h1, assert_of_true (by decide), assert_of_true (by exact hbw),
    assert_of_true (by exact hlat)]
  simp only [ok_bind, forLoop]
  rw [h2, forLoopAux]
  simp [BasicTopology.connect, BasicTopology.init, assert]

/-- C1: for a bus with `N ≥ 1` endpoints (`N < INT_MAX`, so that the device count `N + 1`
is a C `int`) and distinct endpoints `src`, `dest` in `[0, N)`, `route(src, dest)` is the
three-element sequence `[src, hub, dest]`, where the hub is the device with identifier
`N`. -/
theorem Bus_route_src_hub_dest (N : Int) (bw lat : ℚ) (hN : 1 ≤ N) (hmax : N < INT_MAX)
    (hbw : 0 < bw) (hlat : 0 ≤ lat) (src dest : Int) (hsrc : 0 ≤ src ∧ src < N)
    (hdest : 0 ≤ dest ∧ dest < N) (_hne : src ≠ dest) :
    ∃ t, Bus.new N bw lat = .ok t ∧ t.bus_id = N ∧ t.route src dest = .ok [src, N, dest] := by
  obtain ⟨t, ht, ⟨hn, hd⟩, hid⟩ := Bus_new_ok N bw lat (by omega) hmax hbw hlat
  refine ⟨t, ht, hid, ?_⟩
  simp only [Bus.route]
  rw [assert_of_true (by rw [hn]; exact hsrc), assert_of_true (by rw [hn]; exact hdest),
    t.base.devices_at_ok src (by rw [hd]; omega),
    t.base.devices_at_ok t.bus_id (by rw [hd, hid]; omega),
    t.base.devices_at_ok dest (by rw [hd]; omega), hid]
  rfl

/-- Witness of C1 at the bus with four endpoints, routing from 1 to 3. -/
theorem Bus_route_src_hub_dest_witness :
    ∃ t, Bus.new 4 5 2 = .ok t ∧ t.bus_id = 4 ∧ t.route 1 3 = .ok [1, 4, 3] :=
  Bus_route_src_hub_dest 4 5 2 (by decide) (by decide) (by decide) (by decide) 1 3
    (by decide) (by decide) (by decide)

/-- The policies of a bus in closed form. -/
theorem Bus_get_connection_policies_eq (t : Bus) (n : Nat) (hn : t.base.npus_count = n) :
    t.get_connection_policies = (List.range n).flatMap (fun i =>
      [ConnectionPolicy.mk (i : Int) t.bus_id, ConnectionPolicy.mk t.bus_id (i : Int)]) := by
  unfold Bus.get_connection_policies
  rw [hn, forEach_append _ (fun i =>
    [ConnectionPolicy.mk i t.bus_id, ConnectionPolicy.mk t.bus_id i]) (by intro i acc; simp)]
  simp

/-- C8: for a bus with `N` endpoints (`1 ≤ N < INT_MAX`, so that the device count `N + 1`
is a C `int`), `get_connection_policies` returns `2 N` entries: for `i = 0 .. N-1` in order,
the pair `(i, hub)` immediately followed by `(hub, i)`, with `hub = N`; the bus with 4
endpoints (bandwidth 5, latency 2) returns exactly 8 entries. -/
theorem Bus_policies_two_per_endpoint :
    (∀ (n : Nat) (bw lat : ℚ), 1 ≤ n → (n : Int) < INT_MAX → 0 < bw → 0 ≤ lat →
      ∃ t, Bus.new (n : Int) bw lat = .ok t ∧
        t.get_connection_policies = (List.range n).flatMap (fun i =>
          [ConnectionPolicy.mk (i : Int) (n : Int), ConnectionPolicy.mk (n : Int) (i : Int)]) ∧
        t.get_connection_policies.length = 2 * n) ∧
    (∃ t, Bus.new 4 5 2 = .ok t ∧ t.get_connection_policies.length = 8) := by
  have key : ∀ (n : Nat) (bw lat : ℚ), 1 ≤ n → (n : Int) < INT_MAX → 0 < bw → 0 ≤ lat →
      ∃ t, Bus.new (n : Int) bw lat = .ok t ∧
        t.get_connection_policies = (List.range n).flatMap (fun i =>
          [ConnectionPolicy.mk (i : Int) (n : Int), ConnectionPolicy.mk (n : Int) (i : Int)]) ∧
        t.get_connection_policies.length = 2 * n := by
    intro n bw lat hn hmax hbw hlat
    obtain ⟨t, ht, ⟨hc, _⟩, hid⟩ := Bus_new_ok (n : Int) bw lat (by omega) hmax hbw hlat
    have h := Bus_get_connection_policies_eq t n hc
    rw [hid] at h
    refine ⟨t, ht, h, ?_⟩
    rw [h, length_flatMap_const (fun i : Nat =>
      [ConnectionPolicy.mk (i : Int) (n : Int), ConnectionPolicy.mk (n : Int) (i : Int)]) 2 _
      (fun _ _ => rfl), List.length_range, mul_comm]
  refine ⟨key, ?_⟩
  obtain ⟨t, ht, _, hl⟩ := key 4 5 2 (by decide) (by decide) (by decide) (by decide)
  exact ⟨t, ht, hl⟩

/-! ## Grids -/

theorem isqrtAux_sq (d : Nat) : ∀ k, d ≤ k → isqrtAux k (d * d) = d := by
  intro k
  induction k with
  | zero => intro h; have : d = 0 := by omega
            subst this; rfl
  | succ k ih =>
    intro h
    rw [isqrtAux]
    by_cases hk : k + 1 = d
    · subst hk; simp
    · have hlt : d < k + 1 := by omega
      have : ¬ (k + 1) * (k + 1) ≤ d * d := by
        intro hle
        have := Nat.mul_self_lt_mul_self hlt
        omega
      rw [if_neg this]
      exact ih (by omega)

/-- The downward search computes the integer square root of the library. -/
theorem isqrtAux_eq_sqrt (n : Nat) : ∀ k, Nat.sqrt n ≤ k → isqrtAux k n = Nat.sqrt n := by
  intro k
  induction k with
  | zero => intro h; simp [isqrtAux]; omega
  | succ k ih =>
    intro h
    rw [isqrtAux]
    split_ifs with hle
    · have := Nat.le_sqrt.mpr hle
      omega
    · apply ih
      have : Nat.sqrt n < k + 1 := Nat.sqrt_lt.mpr (by omega)
      omega

/-- The value `isqrt n` is the integer square root of `n`. -/
theorem isqrt_eq_sqrt (n : Int) : isqrt n = (Nat.sqrt n.toNat : Int) := by
  unfold isqrt
  rw [isqrtAux_eq_sqrt _ _ (Nat.sqrt_le_self _)]

/-- The repeated halving computes the binary logarithm of the library, rounded down. -/
theorem floorLog2Aux_eq_log : ∀ fuel n, n ≤ fuel → floorLog2Aux fuel n = Nat.log 2 n := by
  intro fuel
  induction fuel with
  | zero =>
    intro n h
    have : n = 0 := by omega
    subst this; simp [floorLog2Aux]
  | succ f ih =>
    intro n h
    rw [floorLog2Aux]
    split_ifs with hlt
    · exact (Nat.log_of_lt hlt).symm
    · rw [ih (n / 2) (by omega)]
      exact (Nat.log_of_one_lt_of_le (by decide) (by omega)).symm

/-- The integer square root of `d * d` is `d`. -/
theorem isqrt_sq (d : Nat) : isqrt ((d : Int) * (d : Int)) = (d : Int) := by
  unfold isqrt
  have h : ((d : Int) * (d : Int)).toNat = d * d := by
    rw [← Int.natCast_mul]; exact Int.toNat_natCast _
  rw [h, isqrtAux_sq d (d * d) (Nat.le_mul_self d)]

/-- Row-major indices of grid cells are device identifiers. -/
theorem grid_index_bounds (dim row col : Int) (hr : 0 ≤ row ∧ row < dim)
    (hc : 0 ≤ col ∧ col < dim) : 0 ≤ row * dim + col ∧ row * dim + col < dim * dim := by
  obtain ⟨hr0, hr1⟩ := hr
  obtain ⟨hc0, hc1⟩ := hc
  have hd : 0 ≤ dim := by omega
  have h1 : 0 ≤ row * dim := mul_nonneg hr0 hd
  have h2 : (row + 1) * dim ≤ dim * dim := mul_le_mul_of_nonneg_right (by omega) hd
  constructor
  · omega
  · have : (row + 1) * dim = row * dim + dim := by ring
    omega

/-- Coordinates of a cell of a `d × d` grid, in the truncating arithmetic of the code. -/
theorem grid_coords (d : Nat) (v : Int) (hv : 0 ≤ v ∧ v < (d : Int) * (d : Int)) :
    Int.tmod v d = v % (d : Int) ∧ Int.tdiv v d = v / (d : Int) ∧
    (0 ≤ v % (d : Int) ∧ v % (d : Int) < d) ∧ (0 ≤ v / (d : Int) ∧ v / (d : Int) < d) ∧
    v = v / (d : Int) * d + v % (d : Int) := by
  obtain ⟨h0, h1⟩ := hv
  have hd : (0 : Int) < d := by
    rcases Nat.eq_zero_or_pos d with h | h
    · subst h; simp at h1; omega
    · exact_mod_cast h
  refine ⟨Int.tmod_eq_emod h0 hd.le, Int.tdiv_eq_ediv h0 hd.le,
    ⟨Int.emod_nonneg _ hd.ne', Int.emod_lt_of_pos _ hd⟩,
    ⟨Int.ediv_nonneg h0 hd.le, Int.ediv_lt_of_lt_mul hd h1⟩, ?_⟩
  have := Int.ediv_add_emod v d
  rw [mul_comm] at this
  exact this.symm

/-- A step that is skipped keeps the invariant; used for the guarded `connect` calls. -/
theorem guarded_connect_ok {N D : Int} (c : Prop) [Decidable c] (b : BasicTopology)
    (hb : b.HasCounts N D) (x y : Int) (bw lat : ℚ) (bidir : Bool)
    (hx : c → 0 ≤ x ∧ x < D) (hy : c → 0 ≤ y ∧ y < D) (hbw : 0 < bw) (hlat : 0 ≤ lat) :
    ∃ b', (if c then b.connect x y bw lat bidir else pure b) = .ok b' ∧ b'.HasCounts N D := by
  by_cases h : c
  · rw [if_pos h]; exact b.connect_ok hb x y bw lat bidir (hx h) (hy h) hbw hlat
  · rw [if_neg h]; exact ⟨b, rfl, hb⟩

theorem connectChain_ok (N : Int) (bw lat : ℚ) (bidir : Bool) (hbw : 0 < bw)
    (hlat : 0 ≤ lat) (b : BasicTopology) (hb : b.HasCounts N N) :
    ∃ b', connectChain N bw lat bidir b = .ok b' ∧ b'.HasCounts N N :=
  forLoop_ok (BasicTopology.HasCounts N N) _ 0 (N - 1) b hb
    (fun i s h1 h2 hs => BasicTopology.connect_ok s hs i (i + 1) bw lat bidir
      ⟨h1, by omega⟩ ⟨by omega, by omega⟩ hbw hlat)

theorem Mesh2D_connectCell_ok (dim : Int) (bw lat : ℚ) (bidir : Bool) (hbw : 0 < bw)
    (hlat : 0 ≤ lat) (row col : Int) (hr : 0 ≤ row ∧ row < dim) (hc : 0 ≤ col ∧ col < dim)
    (b : BasicTopology) (hb : b.HasCounts (dim * dim) (dim * dim)) :
    ∃ b', Mesh2D.connectCell dim bw lat bidir row col b = .ok b' ∧
      b'.HasCounts (dim * dim) (dim * dim) := by
  have hcur := grid_index_bounds dim row col hr hc
  obtain ⟨b1, h1, hb1⟩ := guarded_connect_ok (col + 1 < dim) b hb (row * dim + col)
    (row * dim + (col + 1)) bw lat bidir (fun _ => hcur)
    (fun h => grid_index_bounds dim row (col + 1) hr ⟨by omega, h⟩) hbw hlat
  obtain ⟨b2, h2, hb2⟩ := guarded_connect_ok (row + 1 < dim) b1 hb1 (row * dim + col)
    ((row + 1) * dim + col) bw lat bidir (fun _ => hcur)
    (fun h => grid_index_bounds dim (row + 1) col ⟨by omega, h⟩ hc) hbw hlat
  refine ⟨b2, ?_, hb2⟩
  simp only [Mesh2D.connectCell]
  by_cases c1 : col + 1 < dim
  · rw [if_pos c1] at h1 ⊢
    rw [h1]; exact h2
  · rw [if_neg c1] at h1 ⊢
    rw [h1]; exact h2

/-- Construction of a mesh succeeds for valid parameters when the grid is square or the
instance is one dimension of a composite topology. -/
theorem Mesh2D_new_ok (N : Int) (bw lat : ℚ) (bidir multi : Bool) (hN : 0 < N)
    (hbw : 0 < bw) (hlat : 0 ≤ lat) (hsq : multi = true ∨ isqrt N * isqrt N = N) :
    ∃ t, Mesh2D.new N bw lat bidir multi = .ok t ∧ t.base.HasCounts N N ∧
      t.bidirectional = bidir := by
  have hinit : (BasicTopology.init N N).HasCounts N N := ⟨rfl, rfl⟩
  cases multi with
  | true =>
    obtain ⟨b, hb, hP⟩ := connectChain_ok N bw lat bidir hbw hlat _ hinit
    refine ⟨⟨b, bidir⟩, ?_, hP, rfl⟩
    simp only [Mesh2D.new]
    rw [assert_of_true (by exact hN), assert_of_true (by exact hbw),
      assert_of_true (by exact hlat)]
    simp [hb]
  | false =>
    have hsq' : isqrt N * isqrt N = N := by simpa using hsq
    have hinit' : (BasicTopology.init N N).HasCounts (isqrt N * isqrt N)
        (isqrt N * isqrt N) := by rw [hsq']; exact hinit
    obtain ⟨b, hb, hP⟩ := forLoop_ok
      (BasicTopology.HasCounts (isqrt N * isqrt N) (isqrt N * isqrt N))
      (fun row b => forLoop 0 (isqrt N) (fun col b =>
        Mesh2D.connectCell (isqrt N) bw lat bidir row col b) b) 0 (isqrt N) _ hinit'
      (fun row s hr0 hr1 hs => forLoop_ok _ _ 0 (isqrt N) s hs
        (fun col s hc0 hc1 hs =>
          Mesh2D_connectCell_ok (isqrt N) bw lat bidir hbw hlat row col ⟨hr0, hr1⟩
            ⟨hc0, hc1⟩ s hs))
    rw [hsq'] at hP
    refine ⟨⟨b, bidir⟩, ?_, hP, rfl⟩
    simp only [Mesh2D.new]
    rw [assert_of_true (by exact hN), assert_of_true (by exact hbw),
      assert_of_true (by exact hlat)]
    simp [hb, hsq']

/-! ## Mesh2D routing -/

/-- The X loop of `Mesh2D::route` makes `k` steps of size `s`, appending the visited cells. -/
theorem Mesh2D.routeX_eq (t : Mesh2D) (dim cur_y dest_x s : Int) :
    ∀ (k fuel : Nat) (cur_x : Int) (route : Route), k ≤ fuel → (k = 0 ∨ s ≠ 0) →
      dest_x = cur_x + s * (k : Int) →
      (∀ j : Nat, j < k → 0 ≤ cur_y * dim + (cur_x + s * ((j : Int) + 1)) ∧
        cur_y * dim + (cur_x + s * ((j : Int) + 1)) < t.base.devices_count) →
      Mesh2D.routeX t dim cur_y dest_x s fuel cur_x route = .ok (dest_x,
        route ++ (List.range k).map (fun j : Nat => cur_y * dim + (cur_x + s * ((j : Int) + 1)))) := by
  intro k
  induction k with
  | zero =>
    intro fuel cur_x route _ _ hdest _
    have : cur_x = dest_x := by simp [hdest]
    subst this
    cases fuel <;> simp [Mesh2D.routeX]
  | succ k ih =>
    intro fuel cur_x route hfuel hs hdest hrange
    obtain ⟨f, rfl⟩ : ∃ f, fuel = f + 1 := ⟨fuel - 1, by omega⟩
    have hs' : s ≠ 0 := by
      rcases hs with h | h
      · omega
      · exact h
    have hne : cur_x ≠ dest_x := by
      intro h
      rw [hdest] at h
      have h2 : s * ((k + 1 : Nat) : Int) = 0 := by linarith
      rcases mul_eq_zero.mp h2 with h3 | h3
      · exact hs' h3
      · have : ((k + 1 : Nat) : Int) ≠ 0 := by exact_mod_cast Nat.succ_ne_zero k
        exact this h3
    have h0 := hrange 0 (by omega)
    simp only [Nat.cast_zero, zero_add, mul_one] at h0
    rw [Mesh2D.routeX, if_pos hne]
    dsimp only
    rw [t.base.devices_at_ok _ h0, ok_bind,
      ih f (cur_x + s) (route ++ [cur_y * dim + (cur_x + s)]) (by omega) (Or.inr hs')
        (by rw [hdest]; push_cast; ring)
        (fun j hj => by
          have := hrange (j + 1) (by omega)
          push_cast at this
          have e : cur_x + s + s * ((j : Int) + 1) = cur_x + s * ((j : Int) + 1 + 1) := by ring
          rw [e]; exact this)]
    congr 1
    rw [List.range_succ_eq_map, List.map_cons, List.map_map, List.append_assoc]
    simp only [List.singleton_append, Nat.cast_zero, zero_add, mul_one, Prod.mk.injEq, true_and,
      List.append_cancel_left_eq, List.cons.injEq]
    apply List.map_congr_left
    intro j _
    simp only [Function.comp_apply, Nat.succ_eq_add_one, Nat.cast_add, Nat.cast_one]
    ring

/-- The Y loop of `Mesh2D::route` makes `k` steps of size `s`, appending the visited cells. -/
theorem Mesh2D.routeY_eq (t : Mesh2D) (dim cur_x dest_y s : Int) :
    ∀ (k fuel : Nat) (cur_y : Int) (route : Route), k ≤ fuel → (k = 0 ∨ s ≠ 0) →
      dest_y = cur_y + s * (k : Int) →
      (∀ j : Nat, j < k → 0 ≤ (cur_y + s * ((j : Int) + 1)) * dim + cur_x ∧
        (cur_y + s * ((j : Int) + 1)) * dim + cur_x < t.base.devices_count) →
      Mesh2D.routeY t dim cur_x dest_y s fuel cur_y route = .ok (dest_y,
        route ++ (List.range k).map (fun j : Nat => (cur_y + s * ((j : Int) + 1)) * dim + cur_x)) := by
  intro k
  induction k with
  | zero =>
    intro fuel cur_y route _ _ hdest _
    have : cur_y = dest_y := by simp [hdest]
    subst this
    cases fuel <;> simp [Mesh2D.routeY]
  | succ k ih =>
    intro fuel cur_y route hfuel hs hdest hrange
    obtain ⟨f, rfl⟩ : ∃ f, fuel = f + 1 := ⟨fuel - 1, by omega⟩
    have hs' : s ≠ 0 := by
      rcases hs with h | h
      · omega
      · exact h
    have hne : cur_y ≠ dest_y := by
      intro h
      rw [hdest] at h
      have h2 : s * ((k + 1 : Nat) : Int) = 0 := by linarith
      rcases mul_eq_zero.mp h2 with h3 | h3
      · exact hs' h3
      · have : ((k + 1 : Nat) : Int) ≠ 0 := by exact_mod_cast Nat.succ_ne_zero k
        exact this h3
    have h0 := hrange 0 (by omega)
    simp only [Nat.cast_zero, zero_add, mul_one] at h0
    rw [Mesh2D.routeY, if_pos hne]
    dsimp only
    rw [t.base.devices_at_ok _ h0, ok_bind,
      ih f (cur_y + s) (route ++ [(cur_y + s) * dim + cur_x]) (by omega) (Or.inr hs')
        (by rw [hdest]; push_cast; ring)
        (fun j hj => by
          have := hrange (j + 1) (by omega)
          push_cast at this
          have e : cur_y + s + s * ((j : Int) + 1) = cur_y + s * ((j : Int) + 1 + 1) := by ring
          rw [e]; exact this)]
    congr 1
    rw [List.range_succ_eq_map, List.map_cons, List.map_map, List.append_assoc]
    simp only [List.singleton_append, Nat.cast_zero, zero_add, mul_one, Prod.mk.injEq, true_and,
      List.append_cancel_left_eq, List.cons.injEq]
    apply List.map_congr_left
    intro j _
    simp only [Function.comp_apply, Nat.succ_eq_add_one, Nat.cast_add, Nat.cast_one]
    ring

theorem step_eq_sign (a : Int) :
    (if a = 0 then (0 : Int) else (if a > 0 then 1 else -1)) = Int.sign a := by
  rcases lt_trichotomy a 0 with h | h | h
  · rw [if_neg (by omega), if_neg (by omega), Int.sign_eq_neg_one_of_neg h]
  · subst h; rfl
  · rw [if_neg (by omega), if_pos h, Int.sign_eq_one_of_pos h]

/-- Cells strictly after `a` on the way to `b` stay between the two. -/
theorem between_of_sign (a b : Int) (j : Nat) (hj : j < (b - a).natAbs) :
    (a ≤ a + Int.sign (b - a) * ((j : Int) + 1) ∧ a + Int.sign (b - a) * ((j : Int) + 1) ≤ b) ∨
    (b ≤ a + Int.sign (b - a) * ((j : Int) + 1) ∧ a + Int.sign (b - a) * ((j : Int) + 1) ≤ a) := by
  rcases lt_trichotomy (b - a) 0 with h | h | h
  · rw [Int.sign_eq_neg_one_of_neg h]; right; omega
  · rw [h] at hj; simp at hj
  · rw [Int.sign_eq_one_of_pos h]; left; omega

theorem natAbs_zero_or_sign_ne (a : Int) : a.natAbs = 0 ∨ Int.sign a ≠ 0 := by
  rcases eq_or_ne a 0 with h | h
  · left; simp [h]
  · right; simpa [Int.sign_eq_zero_iff_zero] using h

/-- The route of `Mesh2D::route` on a `d × d` grid is the dimension-order path. -/
theorem Mesh2D_route_eq (t : Mesh2D) (d : Nat)
    (ht : t.base.HasCounts ((d : Int) * d) ((d : Int) * d)) (src dest : Int)
    (hsrc : 0 ≤ src ∧ src < (d : Int) * d) (hdest : 0 ≤ dest ∧ dest < (d : Int) * d)
    (fuel : Nat) (hfuel : d ≤ fuel) :
    t.route fuel src dest = .ok (xFirstPath d src dest) := by
  obtain ⟨hn, hdc⟩ := ht
  obtain ⟨e1, e2, hsx, hsy, hs⟩ := grid_coords d src hsrc
  obtain ⟨e3, e4, htx, hty, _⟩ := grid_coords d dest hdest
  have hX := Mesh2D.routeX_eq t d (src / d) (dest % d) (Int.sign (dest % d - src % d))
    (dest % d - src % d).natAbs fuel (src % d) [src] (by omega) (natAbs_zero_or_sign_ne _)
    (by rw [Int.sign_mul_natAbs]; ring)
    (fun j hj => by
      rw [hdc]
      apply grid_index_bounds d _ _ hsy
      rcases between_of_sign (src % d) (dest % d) j hj with h | h <;> omega)
  have hY := Mesh2D.routeY_eq t d (dest % d) (dest / d) (Int.sign (dest / d - src / d))
    (dest / d - src / d).natAbs fuel (src / d)
    ([src] ++ (List.range (dest % d - src % d).natAbs).map (fun j : Nat =>
      src / d * d + (src % d + Int.sign (dest % d - src % d) * ((j : Int) + 1))))
    (by omega) (natAbs_zero_or_sign_ne _)
    (by rw [Int.sign_mul_natAbs]; ring)
    (fun j hj => by
      rw [hdc]
      apply grid_index_bounds d _ _ _ htx
      rcases between_of_sign (src / d) (dest / d) j hj with h | h <;> omega)
  simp only [Mesh2D.route]
  rw [hn, assert_of_true hsrc, assert_of_true hdest, isqrt_sq, assert_of_true rfl,
    t.base.devices_at_ok src (by rw [hdc]; exact hsrc)]
  simp only [ok_bind, e1, e2, e3, e4, step_eq_sign, List.nil_append]
  rw [hX]
  simp only [ok_bind]
  rw [hY]
  simp only [ok_bind, pure_eq_ok, xFirstPath]
  congr 1
  rw [List.range_succ_eq_map, List.map_cons, List.map_map]
  simp only [Nat.cast_zero, mul_zero, add_zero, List.cons_append, List.nil_append,
    List.append_assoc, List.singleton_append]
  rw [← hs]
  rfl

theorem xFirstPath_length (d src dest : Int) :
    ((xFirstPath d src dest).length : Int) =
      |dest % d - src % d| + |dest / d - src / d| + 1 := by
  simp only [xFirstPath, List.length_append, List.length_map, List.length_range,
    Int.abs_eq_natAbs]
  push_cast
  ring

theorem xFirstPath_head (d : Nat) (src dest : Int) (hsrc : 0 ≤ src ∧ src < (d : Int) * d) :
    (xFirstPath d src dest).head? = some src := by
  obtain ⟨_, _, _, _, hs⟩ := grid_coords d src hsrc
  simp only [xFirstPath, List.range_succ_eq_map, List.map_cons, List.cons_append,
    List.head?_cons, Nat.cast_zero, mul_zero, add_zero]
  rw [← hs]

theorem xFirstPath_getLast (d : Nat) (src dest : Int)
    (hdest : 0 ≤ dest ∧ dest < (d : Int) * d) :
    (xFirstPath d src dest).getLast? = some dest := by
  obtain ⟨_, _, _, _, hd⟩ := grid_coords d dest hdest
  have hx : src % (d : Int) + (dest % (d : Int) - src % (d : Int)).sign *
      ((dest % (d : Int) - src % (d : Int)).natAbs : Int) = dest % (d : Int) := by
    rw [Int.sign_mul_natAbs]; ring
  simp only [xFirstPath]
  rcases Nat.eq_zero_or_pos (dest / (d : Int) - src / (d : Int)).natAbs with h0 | hpos
  · have hy : src / (d : Int) = dest / (d : Int) := by
      have := Int.natAbs_eq_zero.mp h0
      omega
    rw [h0, List.range_zero, List.map_nil, List.append_nil, List.range_succ, List.map_append,
      List.map_singleton, List.getLast?_concat, hx, hy, ← hd]
  · obtain ⟨m, hm⟩ : ∃ m, (dest / (d : Int) - src / (d : Int)).natAbs = m + 1 :=
      ⟨_, (Nat.succ_pred_eq_of_pos hpos).symm⟩
    have hy : src / (d : Int) + (dest / (d : Int) - src / (d : Int)).sign * ((m : Int) + 1) =
        dest / (d : Int) := by
      have := Int.sign_mul_natAbs (dest / (d : Int) - src / (d : Int))
      rw [hm] at this
      push_cast at this
      rw [this]; ring
    rw [hm, List.range_succ (n := m), List.map_append, List.map_singleton, ← List.append_assoc,
      List.getLast?_concat, hy, ← hd]

/-- C2: on a `d × d` Mesh2D (`npus_count = d * d`) and for all `src`, `dest` in
`[0, npus_count)`, `route(src, dest)` returns a route that starts with `src`, ends with
`dest` and has `|dest_x - src_x| + |dest_y - src_y| + 1` devices, where `x = id mod d` and
`y = id div d`; and `route(src, src) = [src]`. -/
theorem Mesh2D_route_manhattan_length (d : Nat) (bw lat : ℚ) (bidir multi : Bool)
    (hbw : 0 < bw) (hlat : 0 ≤ lat) (src dest : Int)
    (hsrc : 0 ≤ src ∧ src < (d : Int) * d) (hdest : 0 ≤ dest ∧ dest < (d : Int) * d)
    (fuel : Nat) (hfuel : d ≤ fuel) :
    ∃ t r, Mesh2D.new ((d : Int) * d) bw lat bidir multi = .ok t ∧
      t.route fuel src dest = .ok r ∧
      r.head? = some src ∧ r.getLast? = some dest ∧
      (r.length : Int) = |dest % d - src % d| + |dest / d - src / d| + 1 ∧
      t.route fuel src src = .ok [src] := by
  obtain ⟨t, ht, hc, _⟩ := Mesh2D_new_ok ((d : Int) * d) bw lat bidir multi (by omega) hbw hlat
    (Or.inr (by rw [isqrt_sq]))
  refine ⟨t, _, ht, Mesh2D_route_eq t d hc src dest hsrc hdest fuel hfuel,
    xFirstPath_head d src dest hsrc, xFirstPath_getLast d src dest hdest,
    xFirstPath_length d src dest, ?_⟩
  rw [Mesh2D_route_eq t d hc src src hsrc hsrc fuel hfuel]
  obtain ⟨_, _, _, _, hs⟩ := grid_coords d src hsrc
  simp only [xFirstPath, sub_self, Int.natAbs_zero, zero_add, List.map_nil, List.range_zero,
    List.append_nil, Int.sign_zero, zero_mul, add_zero]
  rw [← hs]
  rfl

/-- Witness of C2 on the 3 × 3 grid, from corner 0 to corner 8. -/
theorem Mesh2D_route_manhattan_length_witness :
    ∃ t r, Mesh2D.new ((3 : Nat) * (3 : Nat)) 10 1 true false = .ok t ∧
      t.route 3 0 8 = .ok r ∧
      r.head? = some 0 ∧ r.getLast? = some 8 ∧
      (r.length : Int) = |8 % ((3 : Nat) : Int) - 0 % ((3 : Nat) : Int)|
        + |8 / ((3 : Nat) : Int) - 0 / ((3 : Nat) : Int)| + 1 ∧
      t.route 3 0 0 = .ok [0] :=
  Mesh2D_route_manhattan_length 3 10 1 true false (by decide) (by decide) 0 8
    (by decide) (by decide) 3 (by decide)

/-- C3: on a `d × d` Mesh2D the route is X-first: it equals the dimension-order path
`xFirstPath`, whose first `|dx|` hops move one column at a time toward `dest_x` in row
`src_y` and whose remaining `|dy|` hops move one row at a time toward `dest_y` in column
`dest_x`; on the 3 × 3 grid `route(0, 8) = [0, 1, 2, 5, 8]`. -/
theorem Mesh2D_route_x_first :
    (∀ (d : Nat) (bw lat : ℚ) (bidir multi : Bool) (src dest : Int) (fuel : Nat),
      0 < bw → 0 ≤ lat → (0 ≤ src ∧ src < (d : Int) * d) →
      (0 ≤ dest ∧ dest < (d : Int) * d) → d ≤ fuel →
      ∃ t, Mesh2D.new ((d : Int) * d) bw lat bidir multi = .ok t ∧
        t.route fuel src dest = .ok (xFirstPath d src dest)) ∧
    (∀ fuel : Nat, 3 ≤ fuel →
      ∃ t, Mesh2D.new 9 10 1 true false = .ok t ∧ t.route fuel 0 8 = .ok [0, 1, 2, 5, 8]) := by
  have key : ∀ (d : Nat) (bw lat : ℚ) (bidir multi : Bool) (src dest : Int) (fuel : Nat),
      0 < bw → 0 ≤ lat → (0 ≤ src ∧ src < (d : Int) * d) →
      (0 ≤ dest ∧ dest < (d : Int) * d) → d ≤ fuel →
      ∃ t, Mesh2D.new ((d : Int) * d) bw lat bidir multi = .ok t ∧
        t.route fuel src dest = .ok (xFirstPath d src dest) := by
    intro d bw lat bidir multi src dest fuel hbw hlat hsrc hdest hfuel
    obtain ⟨t, ht, hc, _⟩ := Mesh2D_new_ok ((d : Int) * d) bw lat bidir multi (by omega) hbw
      hlat (Or.inr (by rw [isqrt_sq]))
    exact ⟨t, ht, Mesh2D_route_eq t d hc src dest hsrc hdest fuel hfuel⟩
  refine ⟨key, ?_⟩
  intro fuel hfuel
  obtain ⟨t, ht, hr⟩ := key 3 10 1 true false 0 8 fuel (by decide) (by decide) (by decide)
    (by decide) hfuel
  refine ⟨t, ht, ?_⟩
  rw [hr]
  decide

/-- Witness of C3 on the 4 × 4 grid, from cell 14 to cell 1. -/
theorem Mesh2D_route_x_first_witness :
    ∃ t, Mesh2D.new (((4 : Nat) : Int) * (4 : Nat)) 1 0 false false = .ok t ∧
      t.route 4 14 1 = .ok (xFirstPath (4 : Nat) 14 1) :=
  Mesh2D_route_x_first.1 4 1 0 false false 14 1 4 (by decide) (by decide) (by decide)
    (by decide) (by decide)

/-! ## KingMesh2D -/

/-- The cell body of the king-mesh constructor is a sequence of four guarded `connect`
calls: right, down, down-right, down-left. -/
theorem KingMesh2D.connectCell_eq (dim : Int) (bw lat : ℚ) (bidir : Bool) (row col : Int)
    (b : BasicTopology) :
    KingMesh2D.connectCell dim bw lat bidir row col b =
      ((if col + 1 < dim then
          b.connect (row * dim + col) (row * dim + (col + 1)) bw lat bidir
        else pure b) >>= fun b =>
      (if row + 1 < dim then
          b.connect (row * dim + col) ((row + 1) * dim + col) bw lat bidir
        else pure b) >>= fun b =>
      (if row + 1 < dim ∧ col + 1 < dim then
          b.connect (row * dim + col) ((row + 1) * dim + (col + 1)) bw lat bidir
        else pure b) >>= fun b =>
      (if row + 1 < dim ∧ col > 0 then
          b.connect (row * dim + col) ((row + 1) * dim + (col - 1)) bw lat bidir
        else pure b)) := by
  simp only [KingMesh2D.connectCell]
  by_cases c1 : col + 1 < dim <;> by_cases c2 : row + 1 < dim <;> by_cases c3 : col > 0 <;>
    simp [c1, c2, c3]

theorem KingMesh2D_connectCell_ok (dim : Int) (bw lat : ℚ) (bidir : Bool) (hbw : 0 < bw)
    (hlat : 0 ≤ lat) (row col : Int) (hr : 0 ≤ row ∧ row < dim) (hc : 0 ≤ col ∧ col < dim)
    (b : BasicTopology) (hb : b.HasCounts (dim * dim) (dim * dim)) :
    ∃ b', KingMesh2D.connectCell dim bw lat bidir row col b = .ok b' ∧
      b'.HasCounts (dim * dim) (dim * dim) := by
  have hcur := grid_index_bounds dim row col hr hc
  obtain ⟨b1, h1, hb1⟩ := guarded_connect_ok (col + 1 < dim) b hb (row * dim + col)
    (row * dim + (col + 1)) bw lat bidir (fun _ => hcur)
    (fun h => grid_index_bounds dim row (col + 1) hr ⟨by omega, h⟩) hbw hlat
  obtain ⟨b2, h2, hb2⟩ := guarded_connect_ok (row + 1 < dim) b1 hb1 (row * dim + col)
    ((row + 1) * dim + col) bw lat bidir (fun _ => hcur)
    (fun h => grid_index_bounds dim (row + 1) col ⟨by omega, h⟩ hc) hbw hlat
  obtain ⟨b3, h3, hb3⟩ := guarded_connect_ok (row + 1 < dim ∧ col + 1 < dim) b2 hb2
    (row * dim + col) ((row + 1) * dim + (col + 1)) bw lat bidir (fun _ => hcur)
    (fun h => grid_index_bounds dim (row + 1) (col + 1) ⟨by omega, h.1⟩ ⟨by omega, h.2⟩)
    hbw hlat
  obtain ⟨b4, h4, hb4⟩ := guarded_connect_ok (row + 1 < dim ∧ col > 0) b3 hb3
    (row * dim + col) ((row + 1) * dim + (col - 1)) bw lat bidir (fun _ => hcur)
    (fun h => grid_index_bounds dim (row + 1) (col - 1) ⟨by omega, h.1⟩ ⟨by omega, by omega⟩)
    hbw hlat
  refine ⟨b4, ?_, hb4⟩
  rw [KingMesh2D.connectCell_eq, h1, ok_bind, h2, ok_bind, h3, ok_bind, h4]

/-- Construction of a king mesh succeeds for valid parameters when the grid is square or
the instance is one dimension of a composite topology. -/
theorem KingMesh2D_new_ok (N : Int) (bw lat : ℚ) (bidir multi : Bool) (hN : 0 < N)
    (hbw : 0 < bw) (hlat : 0 ≤ lat) (hsq : multi = true ∨ isqrt N * isqrt N = N) :
    ∃ t, KingMesh2D.new N bw lat bidir multi = .ok t ∧ t.base.HasCounts N N ∧
      t.bidirectional = bidir := by
  have hinit : (BasicTopology.init N N).HasCounts N N := ⟨rfl, rfl⟩
  cases multi with
  | true =>
    obtain ⟨b, hb, hP⟩ := connectChain_ok N bw lat bidir hbw hlat _ hinit
    refine ⟨⟨b, bidir⟩, ?_, hP, rfl⟩
    simp only [KingMesh2D.new]
    rw [assert_of_true (by exact hN), assert_of_true (by exact hbw),
      assert_of_true (by exact hlat)]
    simp [hb]
  | false =>
    have hsq' : isqrt N * isqrt N = N := by simpa using hsq
    have hinit' : (BasicTopology.init N N).HasCounts (isqrt N * isqrt N)
        (isqrt N * isqrt N) := by rw [hsq']; exact hinit
    obtain ⟨b, hb, hP⟩ := forLoop_ok
      (BasicTopology.HasCounts (isqrt N * isqrt N) (isqrt N * isqrt N))
      (fun row b => forLoop 0 (isqrt N) (fun col b =>
        KingMesh2D.connectCell (isqrt N) bw lat bidir row col b) b) 0 (isqrt N) _ hinit'
      (fun row s hr0 hr1 hs => forLoop_ok _ _ 0 (isqrt N) s hs
        (fun col s hc0 hc1 hs =>
          KingMesh2D_connectCell_ok (isqrt N) bw lat bidir hbw hlat row col ⟨hr0, hr1⟩
            ⟨hc0, hc1⟩ s hs))
    rw [hsq'] at hP
    refine ⟨⟨b, bidir⟩, ?_, hP, rfl⟩
    simp only [KingMesh2D.new]
    rw [assert_of_true (by exact hN), assert_of_true (by exact hbw),
      assert_of_true (by exact hlat)]
    simp [hb, hsq']

/-- One iteration of the king-mesh routing loop from a cell of the grid toward a cell of
the grid: both coordinates move one step toward the destination, the clamp is idle. -/
theorem KingMesh2D.routeStep_spec (d tx ty cx cy : Int) (htx : 0 ≤ tx ∧ tx < d)
    (hty : 0 ≤ ty ∧ ty < d) (hcx : 0 ≤ cx ∧ cx < d) (hcy : 0 ≤ cy ∧ cy < d) :
    (KingMesh2D.routeStep d tx ty cx cy).1 = cx + Int.sign (tx - cx) ∧
    (KingMesh2D.routeStep d tx ty cx cy).2 = cy + Int.sign (ty - cy) ∧
    (0 ≤ cx + Int.sign (tx - cx) ∧ cx + Int.sign (tx - cx) < d) ∧
    (0 ≤ cy + Int.sign (ty - cy) ∧ cy + Int.sign (ty - cy) < d) ∧
    (tx - (cx + Int.sign (tx - cx))).natAbs = (tx - cx).natAbs - 1 ∧
    (ty - (cy + Int.sign (ty - cy))).natAbs = (ty - cy).natAbs - 1 := by
  have sx : Int.sign (tx - cx) = if cx < tx then 1 else (if cx > tx then -1 else 0) := by
    rcases lt_trichotomy cx tx with h | h | h
    · rw [if_pos h, Int.sign_eq_one_of_pos (by omega)]
    · subst h; simp
    · rw [if_neg (by omega), if_pos h, Int.sign_eq_neg_one_of_neg (by omega)]
  have sy : Int.sign (ty - cy) = if cy < ty then 1 else (if cy > ty then -1 else 0) := by
    rcases lt_trichotomy cy ty with h | h | h
    · rw [if_pos h, Int.sign_eq_one_of_pos (by omega)]
    · subst h; simp
    · rw [if_neg (by omega), if_pos h, Int.sign_eq_neg_one_of_neg (by omega)]
  rw [sx, sy]
  simp only [KingMesh2D.routeStep]
  refine ⟨?_, ?_, ?_, ?_, ?_, ?_⟩ <;> split_ifs <;> omega

/-- The loop of `KingMesh2D::route` runs for as many iterations as the larger of the two
coordinate distances and ends at the destination. -/
theorem KingMesh2D.routeLoop_spec (t : KingMesh2D) (d tx ty : Int)
    (hdc : t.base.devices_count = d * d) (htx : 0 ≤ tx ∧ tx < d) (hty : 0 ≤ ty ∧ ty < d) :
    ∀ (n fuel : Nat) (cx cy : Int) (route : Route), n ≤ fuel →
      (0 ≤ cx ∧ cx < d) → (0 ≤ cy ∧ cy < d) →
      max (tx - cx).natAbs (ty - cy).natAbs = n →
      ∃ l, KingMesh2D.routeLoop t d tx ty fuel cx cy route = .ok (route ++ l) ∧
        l.length = n ∧ (n ≠ 0 → l.getLast? = some (ty * d + tx)) := by
  intro n
  induction n with
  | zero =>
    intro fuel cx cy route _ _ _ hmax
    have h1 : cx = tx := by omega
    have h2 : cy = ty := by omega
    subst h1 h2
    refine ⟨[], ?_, rfl, fun h => absurd rfl h⟩
    cases fuel <;> simp [KingMesh2D.routeLoop]
  | succ n ih =>
    intro fuel cx cy route hfuel hcx hcy hmax
    obtain ⟨f, rfl⟩ : ∃ f, fuel = f + 1 := ⟨fuel - 1, by omega⟩
    have hne : cx ≠ tx ∨ cy ≠ ty := by omega
    obtain ⟨e1, e2, hx', hy', ax, ay⟩ := KingMesh2D.routeStep_spec d tx ty cx cy htx hty hcx hcy
    have hidx := grid_index_bounds d _ _ hy' hx'
    obtain ⟨l, hl, hlen, hlast⟩ := ih f (cx + Int.sign (tx - cx)) (cy + Int.sign (ty - cy))
      (route ++ [(cy + Int.sign (ty - cy)) * d + (cx + Int.sign (tx - cx))]) (by omega) hx' hy'
      (by omega)
    refine ⟨((cy + Int.sign (ty - cy)) * d + (cx + Int.sign (tx - cx))) :: l, ?_, ?_, ?_⟩
    · rw [KingMesh2D.routeLoop, if_pos hne]
      have hstep : KingMesh2D.routeStep d tx ty cx cy =
          (cx + Int.sign (tx - cx), cy + Int.sign (ty - cy)) := Prod.ext e1 e2
      rw [hstep]
      dsimp only
      rw [t.base.devices_at_ok _ (by rw [hdc]; exact hidx), ok_bind, hl]
      simp
    · simp [hlen]
    · intro _
      rcases Nat.eq_zero_or_pos n with h0 | hpos
      · subst h0
        have : l = [] := List.length_eq_zero.mp hlen
        subst this
        have h1 : cx + Int.sign (tx - cx) = tx := by omega
        have h2 : cy + Int.sign (ty - cy) = ty := by omega
        rw [h1, h2]; rfl
      · rw [List.getLast?_cons, hlast (by omega)]; rfl

/-- The route of `KingMesh2D::route` on a `d × d` grid: source first, destination last,
one hop per unit of the larger coordinate distance. -/
theorem KingMesh2D.route_spec (t : KingMesh2D) (d : Nat)
    (ht : t.base.HasCounts ((d : Int) * d) ((d : Int) * d)) (src dest : Int)
    (hsrc : 0 ≤ src ∧ src < (d : Int) * d) (hdest : 0 ≤ dest ∧ dest < (d : Int) * d)
    (fuel : Nat) (hfuel : d ≤ fuel) :
    ∃ r, t.route fuel src dest = .ok r ∧ r.head? = some src ∧ r.getLast? = some dest ∧
      r.length = max (dest % (d : Int) - src % (d : Int)).natAbs
        (dest / (d : Int) - src / (d : Int)).natAbs + 1 := by
  obtain ⟨hn, hdc⟩ := ht
  obtain ⟨e1, e2, hsx, hsy, hs⟩ := grid_coords d src hsrc
  obtain ⟨e3, e4, htx, hty, hd⟩ := grid_coords d dest hdest
  obtain ⟨l, hl, hlen, hlast⟩ := KingMesh2D.routeLoop_spec t d (dest % d) (dest / d) hdc htx hty
    _ fuel (src % d) (src / d) [src] (by omega) hsx hsy rfl
  refine ⟨[src] ++ l, ?_, rfl, ?_, ?_⟩
  · simp only [KingMesh2D.route]
    rw [hn, assert_of_true hsrc, assert_of_true hdest, isqrt_sq, assert_of_true rfl,
      t.base.devices_at_ok src (by rw [hdc]; exact hsrc)]
    simp only [ok_bind, e1, e2, e3, e4, List.nil_append]
    exact hl
  · rcases Nat.eq_zero_or_pos (max (dest % (d : Int) - src % (d : Int)).natAbs
      (dest / (d : Int) - src / (d : Int)).natAbs) with h0 | hpos
    · have : l = [] := List.length_eq_zero.mp (hlen.trans h0)
      subst this
      have h1 : dest % (d : Int) = src % (d : Int) := by omega
      have h2 : dest / (d : Int) = src / (d : Int) := by omega
      have : src = dest := by rw [hs, hd, h1, h2]
      subst this
      rfl
    · rw [List.getLast?_append_of_ne_nil _ (by
        intro h; rw [h] at hlen; simp at hlen; omega), hlast (by omega), ← hd]
  · rw [List.length_append, hlen, List.length_singleton, add_comm]

/-- C4: on a `d × d` KingMesh2D (`npus_count = d * d`) and for all `src`, `dest` in
`[0, npus_count)`, `route(src, dest)` returns a route that starts with `src`, ends with
`dest` and has `max(|dest_x - src_x|, |dest_y - src_y|) + 1` devices. -/
theorem KingMesh2D_route_chebyshev_length (d : Nat) (bw lat : ℚ) (bidir multi : Bool)
    (hbw : 0 < bw) (hlat : 0 ≤ lat) (src dest : Int)
    (hsrc : 0 ≤ src ∧ src < (d : Int) * d) (hdest : 0 ≤ dest ∧ dest < (d : Int) * d)
    (fuel : Nat) (hfuel : d ≤ fuel) :
    ∃ t r, KingMesh2D.new ((d : Int) * d) bw lat bidir multi = .ok t ∧
      t.route fuel src dest = .ok r ∧
      r.head? = some src ∧ r.getLast? = some dest ∧
      (r.length : Int) = max |dest % d - src % d| |dest / d - src / d| + 1 := by
  obtain ⟨t, ht, hc, _⟩ := KingMesh2D_new_ok ((d : Int) * d) bw lat bidir multi (by omega) hbw
    hlat (Or.inr (by rw [isqrt_sq]))
  obtain ⟨r, hr, hhead, hlast, hlen⟩ := KingMesh2D.route_spec t d hc src dest hsrc hdest fuel
    hfuel
  refine ⟨t, r, ht, hr, hhead, hlast, ?_⟩
  rw [hlen, Int.abs_eq_natAbs, Int.abs_eq_natAbs]
  push_cast
  rfl

/-- Witness of C4 on the 3 × 3 grid, from cell 2 to cell 6. -/
theorem KingMesh2D_route_chebyshev_length_witness :
    ∃ t r, KingMesh2D.new (((3 : Nat) : Int) * (3 : Nat)) 10 1 true false = .ok t ∧
      t.route 3 2 6 = .ok r ∧
      r.head? = some 2 ∧ r.getLast? = some 6 ∧
      (r.length : Int) = max |6 % ((3 : Nat) : Int) - 2 % ((3 : Nat) : Int)|
        |6 / ((3 : Nat) : Int) - 2 / ((3 : Nat) : Int)| + 1 :=
  KingMesh2D_route_chebyshev_length 3 10 1 true false (by decide) (by decide) 2 6
    (by decide) (by decide) 3 (by decide)

/-! ## HyperCube: construction -/

theorem fault_derate_scan_nonneg (u v : Int) :
    ∀ (fl : List FaultyLink), (∀ l ∈ fl, 0 ≤ l.2.2) → 0 ≤ fault_derate_scan fl u v := by
  intro fl
  induction fl with
  | nil => intro _; simp [fault_derate_scan]
  | cons l fl ih =>
    intro h
    simp only [fault_derate_scan]
    split_ifs
    · exact h l (List.mem_cons_self _ _)
    · exact ih (fun x hx => h x (List.mem_cons_of_mem _ hx))

/-- Flipping a bit of a non-negative integer is the flip of the natural number. -/
theorem xor_shl1_natCast (u : Nat) (d : Int) :
    Int.xor (u : Int) (shl1 d) = ((u ^^^ 2 ^ d.toNat : Nat) : Int) := by
  have : shl1 d = ((2 ^ d.toNat : Nat) : Int) := by simp [shl1]
  rw [this]
  rfl

theorem HyperCube.connectBit_ok (N : Int) (bw lat : ℚ) (bidir : Bool)
    (fl : List FaultyLink) (hbw : 0 < bw) (hlat : 0 ≤ lat) (hfl : ∀ l ∈ fl, 0 ≤ l.2.2)
    (u d : Int) (hu : 0 ≤ u ∧ u < N) (b : BasicTopology) (hb : b.HasCounts N N) :
    ∃ b', HyperCube.connectBit N bw lat bidir fl u d b = .ok b' ∧ b'.HasCounts N N := by
  obtain ⟨un, rfl⟩ := Int.eq_ofNat_of_zero_le hu.1
  simp only [HyperCube.connectBit]
  split_ifs with hv h0
  · exact b.connect_ok hb _ _ _ lat bidir hu
      ⟨by rw [xor_shl1_natCast]; exact Int.natCast_nonneg _, hv⟩ (by positivity) hlat
  · have hpos : 0 < fault_derate_scan fl (un : Int) (Int.xor (un : Int) (shl1 d)) :=
      lt_of_le_of_ne (fault_derate_scan_nonneg _ _ fl hfl) (Ne.symm h0)
    exact b.connect_ok hb _ _ _ lat bidir hu
      ⟨by rw [xor_shl1_natCast]; exact Int.natCast_nonneg _, hv⟩ (by positivity) hlat
  · exact ⟨b, rfl, hb⟩

/-- Construction of a hypercube succeeds for valid parameters and non-negative health
factors, for every number of endpoints. -/
theorem HyperCube_new_ok (N : Int) (bw lat : ℚ) (bidir multi : Bool) (nr : Int)
    (fl : List FaultyLink) (hN : 0 < N) (hbw : 0 < bw) (hlat : 0 ≤ lat)
    (hfl : ∀ l ∈ fl, 0 ≤ l.2.2) :
    ∃ t, HyperCube.new N bw lat bidir multi nr fl = .ok t ∧ t.base.HasCounts N N ∧
      t.bidirectional = bidir ∧ t.faulty_links = fl := by
  have hinit : (BasicTopology.init N N).HasCounts N N := ⟨rfl, rfl⟩
  cases multi with
  | true =>
    refine ⟨⟨BasicTopology.init N N, bidir, fl, nr⟩, ?_, hinit, rfl, rfl⟩
    simp only [HyperCube.new]
    rw [assert_of_true (by exact hN), assert_of_true (by exact hbw),
      assert_of_true (by exact hlat)]
    rfl
  | false =>
    obtain ⟨b, hb, hP⟩ := forLoop_ok (BasicTopology.HasCounts N N)
      (fun u b => forLoop 0 (ceilLog2 N) (fun d b =>
        HyperCube.connectBit N bw lat bidir fl u d b) b) 0 N _ hinit
      (fun u s hu0 hu1 hs => forLoop_ok _ _ 0 (ceilLog2 N) s hs
        (fun d s _ _ hs =>
          HyperCube.connectBit_ok N bw lat bidir fl hbw hlat hfl u d ⟨hu0, hu1⟩ s hs))
    refine ⟨⟨b, bidir, fl, nr⟩, ?_, hP, rfl, rfl⟩
    simp only [HyperCube.new]
    rw [assert_of_true (by exact hN), assert_of_true (by exact hbw),
      assert_of_true (by exact hlat)]
    simp [hb]

/-! ## HyperCube: bits -/

/-- The count of trailing zeros of a non-zero `w`-bit value is the position of its lowest
set bit. -/
theorem ctzAux_spec : ∀ (w x : Nat), 0 < x → x < 2 ^ w →
    ctzAux w x < w ∧ x.testBit (ctzAux w x) = true ∧
      ∀ i, i < ctzAux w x → x.testBit i = false := by
  intro w
  induction w with
  | zero => intro x h0 h1; simp at h1; omega
  | succ w ih =>
    intro x h0 h1
    rw [ctzAux]
    by_cases hodd : x % 2 = 1
    · rw [if_pos hodd]
      refine ⟨by omega, by simp [Nat.testBit_zero, hodd], fun i hi => by omega⟩
    · rw [if_neg hodd]
      have h2 : 0 < x / 2 := by omega
      have h3 : x / 2 < 2 ^ w := by rw [pow_succ] at h1; omega
      obtain ⟨a, b, c⟩ := ih (x / 2) h2 h3
      refine ⟨by omega, by rw [← Nat.succ_eq_add_one, Nat.testBit_succ]; exact b, ?_⟩
      intro i hi
      cases i with
      | zero => simp [Nat.testBit_zero, hodd]
      | succ j => rw [Nat.testBit_succ]; exact c j (by omega)

/-- Clearing the lowest set bit removes the head of the list of set-bit positions. -/
theorem filter_testBit_clear_lowest (x b n : Nat) (hb : b < n) (hbit : x.testBit b = true)
    (hlow : ∀ i, i < b → x.testBit i = false) :
    (List.range n).filter (fun i => x.testBit i) =
      b :: (List.range n).filter (fun i => (x ^^^ 2 ^ b).testBit i) := by
  obtain ⟨m, rfl⟩ : ∃ m, n = (b + 1) + m := ⟨n - (b + 1), by omega⟩
  have hq : ∀ i, i ≠ b → (x ^^^ 2 ^ b).testBit i = x.testBit i := by
    intro i hi
    rw [Nat.testBit_xor, Nat.testBit_two_pow_of_ne (Ne.symm hi), Bool.xor_false]
  have hqb : (x ^^^ 2 ^ b).testBit b = false := by
    rw [Nat.testBit_xor, Nat.testBit_two_pow_self, hbit]; rfl
  have e1 : (List.range b).filter (fun i => x.testBit i) = [] :=
    List.filter_eq_nil_iff.mpr (fun i hi => by simp [hlow i (List.mem_range.mp hi)])
  have e2 : (List.range b).filter (fun i => (x ^^^ 2 ^ b).testBit i) = [] :=
    List.filter_eq_nil_iff.mpr (fun i hi => by
      have hi' := List.mem_range.mp hi
      simp [hq i (by omega), hlow i hi'])
  have e3 : (List.map (fun j => b + 1 + j) (List.range m)).filter (fun i => x.testBit i) =
      (List.map (fun j => b + 1 + j) (List.range m)).filter
        (fun i => (x ^^^ 2 ^ b).testBit i) := by
    apply List.filter_congr
    intro i hi
    obtain ⟨j, _, rfl⟩ := List.mem_map.mp hi
    exact (hq _ (by omega)).symm
  rw [List.range_add, List.filter_append, List.filter_append, List.range_succ,
    List.filter_append, List.filter_append, e1, e2, e3]
  simp [hbit, hqb]

theorem setBitPositions_natCast (x : Nat) :
    setBitPositions (x : Int) = (List.range 32).filter (fun i => x.testBit i) := by
  simp [setBitPositions]

/-- A 32-bit value without set bits is zero. -/
theorem eq_zero_of_setBitPositions_nil (x : Nat) (hx : x < 2 ^ 32)
    (h : setBitPositions (x : Int) = []) : x = 0 := by
  by_contra hne
  obtain ⟨hlt, hbit, _⟩ := ctzAux_spec 32 x (Nat.pos_of_ne_zero hne) hx
  rw [setBitPositions_natCast] at h
  have := List.filter_eq_nil_iff.mp h (ctzAux 32 x) (List.mem_range.mpr hlt)
  exact this hbit

/-- The set-bit positions of a non-zero 32-bit value: the lowest one, then those of the
value with that bit cleared. -/
theorem setBitPositions_cons (x : Nat) (hx : x < 2 ^ 32) (hne : x ≠ 0) :
    setBitPositions (x : Int) =
      ctzAux 32 x :: setBitPositions ((x ^^^ 2 ^ ctzAux 32 x : Nat) : Int) := by
  obtain ⟨hlt, hbit, hlow⟩ := ctzAux_spec 32 x (Nat.pos_of_ne_zero hne) hx
  rw [setBitPositions_natCast, setBitPositions_natCast]
  exact filter_testBit_clear_lowest x _ 32 hlt hbit hlow

/-- The builtin applied to a non-negative 32-bit value. -/
theorem builtin_ctz_natCast (x : Nat) (hx : x < 2 ^ 32) :
    builtin_ctz (x : Int) = (ctzAux 32 x : Int) := by
  unfold builtin_ctz
  have : ((x : Int) % 2 ^ 32).toNat = x := by
    have h : (x : Int) % 2 ^ 32 = x := Int.emod_eq_of_lt (by omega) (by exact_mod_cast hx)
    rw [h]; exact Int.toNat_natCast x
  rw [this]

theorem xor_two_pow_lt (c b : Nat) (hc : c < 2 ^ 32) (hb : b < 32) : c ^^^ 2 ^ b < 2 ^ 32 :=
  Nat.xor_lt_two_pow hc (Nat.pow_lt_pow_right (by decide) hb)

/-- The difference to the destination after one bit-fixing hop. -/
theorem xor_after_hop (c t b : Nat) : (c ^^^ 2 ^ b) ^^^ t = (c ^^^ t) ^^^ 2 ^ b := by
  rw [Nat.xor_assoc, Nat.xor_comm (2 ^ b) t, ← Nat.xor_assoc]

/-- Unfolding of the bit-fixing path at a node different from the destination. -/
theorem bitFixPath_cons (c t : Nat) (hc : c < 2 ^ 32) (ht : t < 2 ^ 32) (hne : c ≠ t) :
    bitFixPath (c : Int) (t : Int) =
      (c : Int) :: bitFixPath ((c ^^^ 2 ^ ctzAux 32 (c ^^^ t) : Nat) : Int) (t : Int) := by
  have hx : c ^^^ t < 2 ^ 32 := Nat.xor_lt_two_pow hc ht
  have hx0 : c ^^^ t ≠ 0 := by
    intro h
    exact hne (Nat.xor_eq_zero.mp h)
  have e1 : Int.xor (c : Int) (t : Int) = ((c ^^^ t : Nat) : Int) := rfl
  have e2 : Int.xor ((c ^^^ 2 ^ ctzAux 32 (c ^^^ t) : Nat) : Int) (t : Int) =
      (((c ^^^ t) ^^^ 2 ^ ctzAux 32 (c ^^^ t) : Nat) : Int) := by
    rw [← xor_after_hop]; rfl
  have e3 : Int.xor (c : Int) (2 ^ ctzAux 32 (c ^^^ t)) =
      ((c ^^^ 2 ^ ctzAux 32 (c ^^^ t) : Nat) : Int) := by
    have : (2 : Int) ^ ctzAux 32 (c ^^^ t) = ((2 ^ ctzAux 32 (c ^^^ t) : Nat) : Int) := by
      push_cast; rfl
    rw [this]; rfl
  unfold bitFixPath
  rw [e1, e2, setBitPositions_cons _ hx hx0, List.scanl_cons, e3]
  rfl

theorem bitFixPath_self (t : Nat) : bitFixPath (t : Int) (t : Int) = [(t : Int)] := by
  have e1 : Int.xor (t : Int) (t : Int) = ((t ^^^ t : Nat) : Int) := rfl
  unfold bitFixPath
  rw [e1, Nat.xor_self]
  rfl

/-- Induction along the bit-fixing hops toward a destination `t`. -/
theorem bitFix_induction (t : Nat) (ht : t < 2 ^ 32) (P : Nat → Prop) (h0 : P t)
    (hstep : ∀ c, c < 2 ^ 32 → c ≠ t → ctzAux 32 (c ^^^ t) < 32 →
      P (c ^^^ 2 ^ ctzAux 32 (c ^^^ t)) → P c) :
    ∀ c, c < 2 ^ 32 → P c := by
  have main : ∀ (n c : Nat), c < 2 ^ 32 → popcount ((c ^^^ t : Nat) : Int) = n → P c := by
    intro n
    induction n with
    | zero =>
      intro c hc hn
      have := eq_zero_of_setBitPositions_nil _ (Nat.xor_lt_two_pow hc ht)
        (List.length_eq_zero.mp hn)
      rw [Nat.xor_eq_zero.mp this]
      exact h0
    | succ n ih =>
      intro c hc hn
      have hne : c ≠ t := by
        intro h
        subst h
        rw [Nat.xor_self] at hn
        have : popcount ((0 : Nat) : Int) = 0 := by decide
        omega
      have hx := Nat.xor_lt_two_pow hc ht
      have hx0 : c ^^^ t ≠ 0 := fun h => hne (Nat.xor_eq_zero.mp h)
      obtain ⟨hlt, _, _⟩ := ctzAux_spec 32 _ (Nat.pos_of_ne_zero hx0) hx
      refine hstep c hc hne hlt (ih _ (xor_two_pow_lt c _ hc hlt) ?_)
      rw [xor_after_hop]
      unfold popcount at hn ⊢
      rw [setBitPositions_cons _ hx hx0, List.length_cons] at hn
      omega
  intro c hc
  exact main _ c hc rfl

/-! ## HyperCube: routing -/

theorem bitFixPath_eq_cons_tail (a b : Int) :
    bitFixPath a b = a :: (bitFixPath a b).tail := by
  unfold bitFixPath
  cases setBitPositions (Int.xor a b) <;> rfl

theorem bitFixPath_head (a b : Int) : (bitFixPath a b).head? = some a := by
  rw [bitFixPath_eq_cons_tail]; rfl

theorem bitFixPath_length (a b : Int) :
    (bitFixPath a b).length = popcount (Int.xor a b) + 1 := by
  unfold bitFixPath popcount
  exact List.length_scanl _ _

theorem bitFixPath_getLast (c t : Nat) (hc : c < 2 ^ 32) (ht : t < 2 ^ 32) :
    (bitFixPath (c : Int) (t : Int)).getLast? = some (t : Int) := by
  refine bitFix_induction t ht (fun c => (bitFixPath (c : Int) (t : Int)).getLast? = some (t : Int))
    ?_ ?_ c hc
  · beta_reduce
    rw [bitFixPath_self]; rfl
  · intro c hc hne _ ih
    beta_reduce at ih ⊢
    rw [bitFixPath_cons c t hc ht hne, List.getLast?_cons, ih]
    rfl

theorem bitFixPath_chain (c t : Nat) (hc : c < 2 ^ 32) (ht : t < 2 ^ 32) :
    (bitFixPath (c : Int) (t : Int)).Chain' differInOneBit := by
  refine bitFix_induction t ht (fun c => (bitFixPath (c : Int) (t : Int)).Chain' differInOneBit)
    ?_ ?_ c hc
  · beta_reduce
    rw [bitFixPath_self]; exact List.chain'_singleton _
  · intro c hc hne _ ih
    beta_reduce at ih ⊢
    rw [bitFixPath_cons c t hc ht hne]
    rw [bitFixPath_eq_cons_tail] at ih ⊢
    refine List.chain'_cons.mpr ⟨⟨ctzAux 32 (c ^^^ t), ?_⟩, ih⟩
    have : Int.xor (c : Int) ((c ^^^ 2 ^ ctzAux 32 (c ^^^ t) : Nat) : Int) =
        ((c ^^^ (c ^^^ 2 ^ ctzAux 32 (c ^^^ t)) : Nat) : Int) := rfl
    rw [this, Nat.xor_cancel_left]
    push_cast
    rfl

/-- On a cube whose size is a power of two the bit-fixing path stays among the endpoints. -/
theorem bitFixPath_lt_two_pow (k : Nat) (c t : Nat) (hc32 : c < 2 ^ 32) (ht32 : t < 2 ^ 32)
    (hc : c < 2 ^ k) (ht : t < 2 ^ k) :
    ∀ v ∈ bitFixPath (c : Int) (t : Int), v < ((2 ^ k : Nat) : Int) := by
  refine bitFix_induction t ht32 (fun c => c < 2 ^ k →
    ∀ v ∈ bitFixPath (c : Int) (t : Int), v < ((2 ^ k : Nat) : Int)) ?_ ?_ c hc32 hc
  · intro _ v hv
    rw [bitFixPath_self, List.mem_singleton] at hv
    rw [hv]; exact_mod_cast ht
  · intro c hc32 hne _ ih hck v hv
    beta_reduce at ih hv
    have hx := Nat.xor_lt_two_pow hc32 ht32
    have hx0 : c ^^^ t ≠ 0 := fun h => hne (Nat.xor_eq_zero.mp h)
    obtain ⟨_, hbit, _⟩ := ctzAux_spec 32 _ (Nat.pos_of_ne_zero hx0) hx
    have hb : ctzAux 32 (c ^^^ t) < k := by
      by_contra hge
      have h1 : c ^^^ t < 2 ^ ctzAux 32 (c ^^^ t) :=
        lt_of_lt_of_le (Nat.xor_lt_two_pow hck ht) (Nat.pow_le_pow_right (by decide) (by omega))
      rw [Nat.testBit_lt_two_pow h1] at hbit
      exact Bool.noConfusion hbit
    rw [bitFixPath_cons c t hc32 ht32 hne, List.mem_cons] at hv
    rcases hv with hv | hv
    · rw [hv]; exact_mod_cast hck
    · exact ih (Nat.xor_lt_two_pow hck (Nat.pow_lt_pow_right (by decide) hb)) v hv

theorem popcount_step (c t : Nat) (hc : c < 2 ^ 32) (ht : t < 2 ^ 32) (hne : c ≠ t) :
    popcount ((c ^^^ t : Nat) : Int) =
      popcount (((c ^^^ 2 ^ ctzAux 32 (c ^^^ t)) ^^^ t : Nat) : Int) + 1 := by
  have hx := Nat.xor_lt_two_pow hc ht
  have hx0 : c ^^^ t ≠ 0 := fun h => hne (Nat.xor_eq_zero.mp h)
  unfold popcount
  rw [setBitPositions_cons _ hx hx0, List.length_cons, xor_after_hop]

/-- The loop of `HyperCube::route` follows the bit-fixing path and returns it, unless a hop
fails the range check `next < npus_count`. -/
theorem HyperCube.routeLoop_eq (h : HyperCube) (N : Int) (hh : h.base.HasCounts N N)
    (t : Nat) (ht : t < 2 ^ 32) :
    ∀ c, c < 2 ^ 32 → ∀ (fuel : Nat) (route : Route),
      popcount ((c ^^^ t : Nat) : Int) ≤ fuel →
      HyperCube.routeLoop h (t : Int) fuel (c : Int) route =
        if ∀ v ∈ (bitFixPath (c : Int) (t : Int)).tail, v < N then
          .ok (route ++ (bitFixPath (c : Int) (t : Int)).tail)
        else .error Fault.assertion := by
  obtain ⟨hn, hdc⟩ := hh
  refine bitFix_induction t ht (fun c => ∀ (fuel : Nat) (route : Route),
      popcount ((c ^^^ t : Nat) : Int) ≤ fuel →
      HyperCube.routeLoop h (t : Int) fuel (c : Int) route =
        if ∀ v ∈ (bitFixPath (c : Int) (t : Int)).tail, v < N then
          .ok (route ++ (bitFixPath (c : Int) (t : Int)).tail)
        else .error Fault.assertion) ?_ ?_
  · intro fuel route _
    rw [bitFixPath_self]
    cases fuel <;> simp [HyperCube.routeLoop]
  · intro c hc hne hb ih fuel route hfuel
    beta_reduce at ih
    rw [popcount_step c t hc ht hne] at hfuel
    obtain ⟨f, rfl⟩ : ∃ f, fuel = f + 1 := ⟨fuel - 1, by omega⟩
    have hne' : (c : Int) ≠ (t : Int) := by exact_mod_cast hne
    have e1 : Int.xor (c : Int) (t : Int) = ((c ^^^ t : Nat) : Int) := rfl
    have e2 : Int.xor (c : Int) (shl1 (ctzAux 32 (c ^^^ t) : Int)) =
        ((c ^^^ 2 ^ ctzAux 32 (c ^^^ t) : Nat) : Int) := by
      rw [xor_shl1_natCast, Int.toNat_natCast]
    rw [HyperCube.routeLoop, if_pos hne']
    dsimp only
    rw [e1, builtin_ctz_natCast _ (Nat.xor_lt_two_pow hc ht), e2, hn,
      bitFixPath_cons c t hc ht hne, List.tail_cons, bitFixPath_eq_cons_tail]
    by_cases hv : ((c ^^^ 2 ^ ctzAux 32 (c ^^^ t) : Nat) : Int) < N
    · rw [assert_of_true ⟨Int.natCast_nonneg _, hv⟩, ok_bind,
        h.base.devices_at_ok _ (by rw [hdc]; exact ⟨Int.natCast_nonneg _, hv⟩), ok_bind,
        ih f _ (by omega)]
      by_cases hall : ∀ v ∈ (bitFixPath ((c ^^^ 2 ^ ctzAux 32 (c ^^^ t) : Nat) : Int)
          (t : Int)).tail, v < N
      · rw [if_pos hall, if_pos (by
          intro v hv'
          rcases List.mem_cons.mp hv' with h1 | h1
          · rw [h1]; exact hv
          · exact hall v h1)]
        simp
      · rw [if_neg hall, if_neg (fun hc' => hall (fun v hv' =>
          hc' v (List.mem_cons_of_mem _ hv')))]
    · rw [assert_of_false (fun hc' => hv hc'.2), error_bind,
        if_neg (fun hc' => hv (hc' _ (List.mem_cons_self _ _)))]

/-- The function `HyperCube::route` returns the bit-fixing path, unless a hop fails the
range check `next < npus_count`, in which case the call ends at the violated assertion. -/
theorem HyperCube_route_eq (h : HyperCube) (N : Int) (hh : h.base.HasCounts N N)
    (hN : N ≤ INT_MAX) (src dest : Int) (hsrc : 0 ≤ src ∧ src < N)
    (hdest : 0 ≤ dest ∧ dest < N) (fuel : Nat) (hfuel : popcount (Int.xor src dest) ≤ fuel) :
    h.route fuel src dest =
      if ∀ v ∈ bitFixPath src dest, v < N then .ok (bitFixPath src dest)
      else .error Fault.assertion := by
  obtain ⟨c, rfl⟩ := Int.eq_ofNat_of_zero_le hsrc.1
  obtain ⟨t, rfl⟩ := Int.eq_ofNat_of_zero_le hdest.1
  have hM : N ≤ 2 ^ 31 - 1 := hN
  have hc : c < 2 ^ 32 := by have := hsrc.2; omega
  have ht : t < 2 ^ 32 := by have := hdest.2; omega
  simp only [HyperCube.route]
  rw [hh.1, assert_of_true hsrc, assert_of_true hdest,
    h.base.devices_at_ok _ (by rw [hh.2]; exact hsrc)]
  simp only [ok_bind, List.nil_append]
  rw [HyperCube.routeLoop_eq h N hh t ht c hc fuel _ hfuel]
  have hiff : (∀ v ∈ bitFixPath (c : Int) (t : Int), v < N) ↔
      (∀ v ∈ (bitFixPath (c : Int) (t : Int)).tail, v < N) := by
    constructor
    · intro hall v hv
      exact hall v (List.mem_of_mem_tail hv)
    · intro hall v hv
      rw [bitFixPath_eq_cons_tail] at hv
      rcases List.mem_cons.mp hv with h1 | h1
      · rw [h1]; exact hsrc.2
      · exact hall v h1
  by_cases hall : ∀ v ∈ bitFixPath (c : Int) (t : Int), v < N
  · rw [if_pos hall, if_pos (hiff.mp hall)]
    congr 1
    exact (bitFixPath_eq_cons_tail _ _).symm
  · rw [if_neg hall, if_neg (fun hc' => hall (hiff.mpr hc'))]

/-- A bit-fixing hop from below the destination does not pass the destination. -/
theorem bitFix_hop_le (c t : Nat) (hc : c < 2 ^ 32) (ht : t < 2 ^ 32) (hlt : c < t) :
    c ^^^ 2 ^ ctzAux 32 (c ^^^ t) ≤ t := by
  have hx := Nat.xor_lt_two_pow hc ht
  have hx0 : c ^^^ t ≠ 0 := fun h => (Nat.ne_of_lt hlt) (Nat.xor_eq_zero.mp h)
  obtain ⟨_, hbit, hlow⟩ := ctzAux_spec 32 _ (Nat.pos_of_ne_zero hx0) hx
  obtain ⟨p, hp, hpmax⟩ := Nat.exists_most_significant_bit hx0
  have hbp : ctzAux 32 (c ^^^ t) ≤ p := by
    by_contra h
    rw [hlow p (by omega)] at hp
    exact Bool.noConfusion hp
  have habove : ∀ j, p < j → c.testBit j = t.testBit j := by
    intro j hj
    have := hpmax j hj
    rw [Nat.testBit_xor] at this
    cases h1 : c.testBit j <;> cases h2 : t.testBit j <;> simp_all
  have hcp : c.testBit p = false ∧ t.testBit p = true := by
    rw [Nat.testBit_xor] at hp
    cases h1 : c.testBit p <;> cases h2 : t.testBit p <;> simp_all
    have := Nat.lt_of_testBit p h2 h1 (fun j hj => (habove j hj).symm)
    omega
  rcases Nat.eq_or_lt_of_le hbp with heq | hltp
  · have hx2 : c ^^^ t = 2 ^ p := by
      apply Nat.eq_of_testBit_eq
      intro i
      rw [Nat.testBit_two_pow]
      rcases Nat.lt_trichotomy i p with h | h | h
      · rw [hlow i (by omega)]; simp; omega
      · rw [h, hp]; simp
      · rw [hpmax i h]; simp; omega
    rw [heq, ← hx2, Nat.xor_cancel_left]
  · apply Nat.le_of_lt
    apply Nat.lt_of_testBit p
    · rw [Nat.testBit_xor, hcp.1, Nat.testBit_two_pow_of_ne (by omega)]; rfl
    · exact hcp.2
    · intro j hj
      rw [Nat.testBit_xor, Nat.testBit_two_pow_of_ne (by omega), Bool.xor_false]
      exact habove j hj

/-- From a source not above the destination the bit-fixing path stays at or below the
destination. -/
theorem bitFixPath_le (c t : Nat) (hc : c < 2 ^ 32) (ht : t < 2 ^ 32) (hle : c ≤ t) :
    ∀ v ∈ bitFixPath (c : Int) (t : Int), v ≤ (t : Int) := by
  refine bitFix_induction t ht (fun c => c ≤ t →
    ∀ v ∈ bitFixPath (c : Int) (t : Int), v ≤ (t : Int)) ?_ ?_ c hc hle
  · intro _ v hv
    rw [bitFixPath_self, List.mem_singleton] at hv
    rw [hv]
  · intro c hc32 hne hb ih hct v hv
    beta_reduce at ih
    rw [bitFixPath_cons c t hc32 ht hne, List.mem_cons] at hv
    rcases hv with hv | hv
    · rw [hv]; exact_mod_cast hct
    · exact ih (bitFix_hop_le c t hc32 ht (lt_of_le_of_ne hct hne)) v hv

/-- On a cube with `2 ^ k` endpoints `HyperCube::route` returns the bit-fixing path. -/
theorem HyperCube.route_two_pow (h : HyperCube) (k : Nat)
    (hh : h.base.HasCounts ((2 : Int) ^ k) ((2 : Int) ^ k)) (hN : (2 : Int) ^ k ≤ INT_MAX)
    (src dest : Int) (hsrc : 0 ≤ src ∧ src < (2 : Int) ^ k)
    (hdest : 0 ≤ dest ∧ dest < (2 : Int) ^ k) (fuel : Nat)
    (hfuel : popcount (Int.xor src dest) ≤ fuel) :
    h.route fuel src dest = .ok (bitFixPath src dest) := by
  rw [HyperCube_route_eq h _ hh hN src dest hsrc hdest fuel hfuel]
  obtain ⟨c, rfl⟩ := Int.eq_ofNat_of_zero_le hsrc.1
  obtain ⟨t, rfl⟩ := Int.eq_ofNat_of_zero_le hdest.1
  have hM : (2 : Int) ^ k ≤ 2 ^ 31 - 1 := hN
  have hck : c < 2 ^ k := by exact_mod_cast hsrc.2
  have htk : t < 2 ^ k := by exact_mod_cast hdest.2
  have hc : c < 2 ^ 32 := by have := hsrc.2; omega
  have ht : t < 2 ^ 32 := by have := hdest.2; omega
  rw [if_pos]
  intro v hv
  have := bitFixPath_lt_two_pow k c t hc ht hck htk v hv
  exact_mod_cast this

/-- In the bit-fixing path, hop `k + 1` flips the bit whose position is entry `k` of the
increasing list of set-bit positions of `src XOR dest`. -/
theorem bitFixPath_hop (src dest : Int) (k : Nat)
    (hk : k < (setBitPositions (Int.xor src dest)).length) (a : Int)
    (h : (bitFixPath src dest)[k]? = some a) :
    (bitFixPath src dest)[k + 1]? =
      some (Int.xor a (2 ^ (setBitPositions (Int.xor src dest))[k])) := by
  unfold bitFixPath at h ⊢
  have h1 : k < ((setBitPositions (Int.xor src dest)).scanl
      (fun c b => Int.xor c (2 ^ b)) src).length := by rw [List.length_scanl]; omega
  have h2 : k + 1 < ((setBitPositions (Int.xor src dest)).scanl
      (fun c b => Int.xor c (2 ^ b)) src).length := by rw [List.length_scanl]; omega
  rw [List.getElem?_eq_getElem h1] at h
  rw [List.getElem?_eq_getElem h2, List.getElem_succ_scanl]
  simp only [Option.some.injEq] at h
  rw [h]

/-- C7 (the code at the failing input): on the hypercube with 3 endpoints the call
`route(2, 1)` ends at the violated range check of the first hop, `next = 3`. -/
theorem HyperCube_route_irregular_aborts :
    ∃ t, HyperCube.new 3 1 0 true false 1 [] = .ok t ∧
      ∀ fuel : Nat, t.route (fuel + 1) 2 1 = .error Fault.assertion := by
  obtain ⟨t, ht, ⟨hn, hd⟩, _, _⟩ := HyperCube_new_ok 3 1 0 true false 1 [] (by decide)
    (by decide) (by decide) (by simp)
  refine ⟨t, ht, fun fuel => ?_⟩
  simp only [HyperCube.route]
  rw [hn, assert_of_true (by decide), assert_of_true (by decide),
    t.base.devices_at_ok _ (by rw [hd]; decide)]
  simp only [ok_bind, List.nil_append]
  rw [HyperCube.routeLoop, if_pos (by decide)]
  dsimp only
  rw [hn, assert_of_false (by decide)]
  rfl

/-! ## HyperCube: connection policies -/

theorem floorLog2Aux_two_pow : ∀ (k fuel : Nat), k ≤ fuel → floorLog2Aux fuel (2 ^ k) = k := by
  intro k
  induction k with
  | zero => intro fuel _; cases fuel <;> simp [floorLog2Aux]
  | succ k ih =>
    intro fuel hf
    obtain ⟨f, rfl⟩ : ∃ f, fuel = f + 1 := ⟨fuel - 1, by omega⟩
    have h2 : ¬ 2 ^ (k + 1) < 2 := by
      have := Nat.one_le_two_pow (n := k)
      rw [pow_succ]; omega
    have h3 : 2 ^ (k + 1) / 2 = 2 ^ k := by rw [pow_succ]; omega
    rw [floorLog2Aux, if_neg h2, h3, ih f (by omega)]

/-- The number of dimensions computed for a cube with `2 ^ k` endpoints is `k`. -/
theorem floorLog2_two_pow (k : Nat) : floorLog2 ((2 : Int) ^ k) = (k : Int) := by
  unfold floorLog2
  have : ((2 : Int) ^ k).toNat = 2 ^ k := by
    have h : (2 : Int) ^ k = ((2 ^ k : Nat) : Int) := by push_cast; rfl
    rw [h]; exact Int.toNat_natCast _
  rw [this, floorLog2Aux_two_pow k _ (Nat.lt_two_pow k).le]

/-- The policies of a hypercube in closed form, for any number `n` of endpoints and the
number `m` of dimensions the function computes. -/
theorem HyperCube_get_connection_policies_eq (t : HyperCube) (n m : Nat)
    (hn : t.base.npus_count = n) (hm : floorLog2 t.base.npus_count = m) :
    t.get_connection_policies = (List.range n).flatMap (fun i : Nat =>
      (List.range m).flatMap (fun d : Nat =>
        ConnectionPolicy.mk (i : Int) (Int.xor (i : Int) (2 ^ d)) ::
          (if t.bidirectional = true then [ConnectionPolicy.mk (Int.xor (i : Int) (2 ^ d)) (i : Int)]
           else []))) := by
  unfold HyperCube.get_connection_policies
  simp only [hm]
  rw [hn]
  have inner : ∀ (i : Int) (acc : List ConnectionPolicy),
      forEach 0 (m : Int) (fun d policies =>
        if t.bidirectional = true then
          (policies ++ [ConnectionPolicy.mk i (Int.xor i (shl1 d))]) ++
            [ConnectionPolicy.mk (Int.xor i (shl1 d)) i]
        else policies ++ [ConnectionPolicy.mk i (Int.xor i (shl1 d))]) acc =
      acc ++ (List.range m).flatMap (fun d : Nat =>
        ConnectionPolicy.mk i (Int.xor i (2 ^ d)) ::
          (if t.bidirectional = true then [ConnectionPolicy.mk (Int.xor i (2 ^ d)) i]
           else [])) := by
    intro i acc
    rw [forEach_append _ (fun d => ConnectionPolicy.mk i (Int.xor i (shl1 d)) ::
      (if t.bidirectional = true then [ConnectionPolicy.mk (Int.xor i (shl1 d)) i] else []))
      (by intro d acc; split_ifs <;> simp)]
    simp [shl1]
  rw [forEach_append _ (fun i => (List.range m).flatMap (fun d : Nat =>
        ConnectionPolicy.mk i (Int.xor i (2 ^ d)) ::
          (if t.bidirectional = true then [ConnectionPolicy.mk (Int.xor i (2 ^ d)) i]
           else []))) (fun i acc => inner i acc)]
  simp

theorem xor_natCast_two_pow (i d : Nat) :
    Int.xor (i : Int) (2 ^ d) = ((i ^^^ 2 ^ d : Nat) : Int) := by
  have : (2 : Int) ^ d = ((2 ^ d : Nat) : Int) := by push_cast; rfl
  rw [this]; rfl

/-- Endpoints of a cube with `2 ^ k` endpoints that differ in one bit differ in a bit
below `k`. -/
theorem one_bit_lt (k a b j : Nat) (ha : a < 2 ^ k) (hb : b < 2 ^ k) (h : a ^^^ b = 2 ^ j) :
    j < k ∧ b = a ^^^ 2 ^ j := by
  constructor
  · have h1 := Nat.xor_lt_two_pow ha hb
    rw [h] at h1
    exact (Nat.pow_lt_pow_iff_right (by decide)).mp h1
  · rw [← h, Nat.xor_cancel_left]

/-- The right/down pass in closed form: cells in row-major order, each contributing its
right pair and then its down pair. -/
theorem Mesh2D.rightDownPass_eq (d : Nat) (acc : List ConnectionPolicy) :
    Mesh2D.rightDownPass (d : Int) acc = acc ++ (List.range d).flatMap (fun row : Nat =>
      (List.range d).flatMap (fun col : Nat => Mesh2D.rdCell d row col)) := by
  unfold Mesh2D.rightDownPass
  have inner : ∀ (row : Int) (acc : List ConnectionPolicy),
      forEach 0 (d : Int) (fun col policies =>
        if row + 1 < (d : Int) then
          (if col + 1 < (d : Int) then
            policies ++ [ConnectionPolicy.mk (row * d + col) (row * d + (col + 1))]
          else policies) ++ [ConnectionPolicy.mk (row * d + col) ((row + 1) * d + col)]
        else
          (if col + 1 < (d : Int) then
            policies ++ [ConnectionPolicy.mk (row * d + col) (row * d + (col + 1))]
          else policies)) acc =
      acc ++ (List.range d).flatMap (fun col : Nat => Mesh2D.rdCell d row col) := by
    intro row acc
    rw [forEach_append _ (fun col => Mesh2D.rdCell d row col)
      (by
        intro col acc
        by_cases h1 : col + 1 < (d : Int) <;> by_cases h2 : row + 1 < (d : Int) <;>
          simp only [Mesh2D.rdCell, h1, h2, if_true, if_false, List.append_nil,
            List.nil_append, List.append_assoc, List.singleton_append])]
  rw [forEach_append _ (fun row => (List.range d).flatMap (fun col : Nat =>
    Mesh2D.rdCell d row col)) (fun row acc => inner row acc)]

/-- The left/up pass in closed form: cells in row-major order, each contributing its left
pair and then its up pair. -/
theorem Mesh2D.leftUpPass_eq (d : Nat) (acc : List ConnectionPolicy) :
    Mesh2D.leftUpPass (d : Int) acc = acc ++ (List.range d).flatMap (fun row : Nat =>
      (List.range d).flatMap (fun col : Nat => Mesh2D.luCell d row col)) := by
  unfold Mesh2D.leftUpPass
  have inner : ∀ (row : Int) (acc : List ConnectionPolicy),
      forEach 0 (d : Int) (fun col policies =>
        if row - 1 ≥ 0 then
          (if col - 1 ≥ 0 then
            policies ++ [ConnectionPolicy.mk (row * d + col) (row * d + (col - 1))]
          else policies) ++ [ConnectionPolicy.mk (row * d + col) ((row - 1) * d + col)]
        else
          (if col - 1 ≥ 0 then
            policies ++ [ConnectionPolicy.mk (row * d + col) (row * d + (col - 1))]
          else policies)) acc =
      acc ++ (List.range d).flatMap (fun col : Nat => Mesh2D.luCell d row col) := by
    intro row acc
    rw [forEach_append _ (fun col => Mesh2D.luCell d row col)
      (by
        intro col acc
        by_cases h1 : col - 1 ≥ 0 <;> by_cases h2 : row - 1 ≥ 0 <;>
          simp only [Mesh2D.luCell, h1, h2, if_true, if_false, List.append_nil,
            List.nil_append, List.append_assoc, List.singleton_append])]
  rw [forEach_append _ (fun row => (List.range d).flatMap (fun col : Nat =>
    Mesh2D.luCell d row col)) (fun row acc => inner row acc)]

/-- A `flatMap` over a duplicate-free list has no duplicate when the pieces have none and
pieces of distinct elements share no element. -/
theorem nodup_flatMap_of_disjoint {α β : Type} (f : α → List β) :
    ∀ (l : List α), l.Nodup → (∀ a ∈ l, (f a).Nodup) →
      (∀ a ∈ l, ∀ b ∈ l, a ≠ b → ∀ x, x ∈ f a → x ∈ f b → False) →
      (l.flatMap f).Nodup := by
  intro l
  induction l with
  | nil => intro _ _ _; simp
  | cons a l ih =>
    intro hl hf hdis
    rw [List.flatMap_cons, List.nodup_append]
    rw [List.nodup_cons] at hl
    refine ⟨hf a (List.mem_cons_self _ _), ih hl.2
      (fun b hb => hf b (List.mem_cons_of_mem _ hb))
      (fun b hb c hc => hdis b (List.mem_cons_of_mem _ hb) c (List.mem_cons_of_mem _ hc)), ?_⟩
    rw [List.disjoint_left]
    intro x hx hx'
    obtain ⟨b, hb, hxb⟩ := List.mem_flatMap.mp hx'
    exact hdis a (List.mem_cons_self _ _) b (List.mem_cons_of_mem _ hb)
      (fun h => hl.1 (h ▸ hb)) x hx hxb

/-- Row-major indexing orders cells by row first. -/
theorem row_major_lt (d r1 r2 c1 c2 : Int) (h : r1 < r2) (hc1 : c1 < d) (hc2 : 0 ≤ c2)
    (hd : 0 ≤ d) : r1 * d + c1 < r2 * d + c2 := by
  have h1 : (r1 + 1) * d ≤ r2 * d := mul_le_mul_of_nonneg_right (by omega) hd
  have h2 : (r1 + 1) * d = r1 * d + d := by ring
  omega

/-- Row-major indexing is injective on the cells of the grid. -/
theorem row_major_inj (d r1 r2 c1 c2 : Int) (hc1 : 0 ≤ c1 ∧ c1 < d) (hc2 : 0 ≤ c2 ∧ c2 < d)
    (h : r1 * d + c1 = r2 * d + c2) : r1 = r2 ∧ c1 = c2 := by
  have hd : 0 ≤ d := by omega
  rcases lt_trichotomy r1 r2 with hlt | heq | hgt
  · have := row_major_lt d r1 r2 c1 c2 hlt hc1.2 hc2.1 hd; omega
  · subst heq; exact ⟨rfl, by omega⟩
  · have := row_major_lt d r2 r1 c2 c1 hgt hc2.2 hc1.1 hd; omega

theorem Mesh2D.mem_rdCell (d row col : Int) (p : ConnectionPolicy) :
    p ∈ Mesh2D.rdCell d row col ↔
      (col + 1 < d ∧ p = ConnectionPolicy.mk (row * d + col) (row * d + (col + 1))) ∨
      (row + 1 < d ∧ p = ConnectionPolicy.mk (row * d + col) ((row + 1) * d + col)) := by
  by_cases h1 : col + 1 < d <;> by_cases h2 : row + 1 < d <;>
    simp [Mesh2D.rdCell, h1, h2]

theorem Mesh2D.mem_luCell (d row col : Int) (p : ConnectionPolicy) :
    p ∈ Mesh2D.luCell d row col ↔
      (col - 1 ≥ 0 ∧ p = ConnectionPolicy.mk (row * d + col) (row * d + (col - 1))) ∨
      (row - 1 ≥ 0 ∧ p = ConnectionPolicy.mk (row * d + col) ((row - 1) * d + col)) := by
  by_cases h1 : col - 1 ≥ 0 <;> by_cases h2 : row - 1 ≥ 0 <;>
    simp [Mesh2D.luCell, h1, h2]

theorem Mesh2D.rdCell_src (d row col : Int) (p : ConnectionPolicy)
    (h : p ∈ Mesh2D.rdCell d row col) : p.src = row * d + col := by
  rcases (Mesh2D.mem_rdCell d row col p).mp h with ⟨_, rfl⟩ | ⟨_, rfl⟩ <;> rfl

theorem Mesh2D.luCell_src (d row col : Int) (p : ConnectionPolicy)
    (h : p ∈ Mesh2D.luCell d row col) : p.src = row * d + col := by
  rcases (Mesh2D.mem_luCell d row col p).mp h with ⟨_, rfl⟩ | ⟨_, rfl⟩ <;> rfl

theorem Mesh2D.rdCell_nodup (d row col : Int) (hc : 0 ≤ col) :
    (Mesh2D.rdCell d row col).Nodup := by
  by_cases h1 : col + 1 < d <;> by_cases h2 : row + 1 < d <;>
    simp only [Mesh2D.rdCell, h1, h2, if_true, if_false, List.append_nil, List.nil_append,
      List.singleton_append, List.nodup_cons, List.nodup_nil, List.not_mem_nil,
      not_false_eq_true, and_self, List.mem_singleton, ConnectionPolicy.mk.injEq, true_and,
      and_true]
  intro h
  have : (row + 1) * d = row * d + d := by ring
  omega

theorem Mesh2D.luCell_nodup (d row col : Int) (hc : col < d) :
    (Mesh2D.luCell d row col).Nodup := by
  by_cases h1 : col - 1 ≥ 0 <;> by_cases h2 : row - 1 ≥ 0 <;>
    simp only [Mesh2D.luCell, h1, h2, if_true, if_false, List.append_nil, List.nil_append,
      List.singleton_append, List.nodup_cons, List.nodup_nil, List.not_mem_nil,
      not_false_eq_true, and_self, List.mem_singleton, ConnectionPolicy.mk.injEq, true_and,
      and_true]
  intro h
  have : (row - 1) * d = row * d - d := by ring
  omega

/-- A grid enumeration has no duplicate when the cell lists have none and every pair of a
cell list has the cell as its source. -/
theorem grid_flatMap_nodup (d : Nat) (cell : Int → Int → List ConnectionPolicy)
    (hsrc : ∀ (row col : Int) (p : ConnectionPolicy), p ∈ cell row col →
      p.src = row * d + col)
    (hnd : ∀ (row col : Int), 0 ≤ col → col < d → (cell row col).Nodup) :
    ((List.range d).flatMap (fun row : Nat =>
      (List.range d).flatMap (fun col : Nat => cell row col))).Nodup := by
  apply nodup_flatMap_of_disjoint _ _ (List.nodup_range d)
  · intro row _
    apply nodup_flatMap_of_disjoint _ _ (List.nodup_range d)
    · intro col hcol
      exact hnd row col (Int.natCast_nonneg _) (by exact_mod_cast List.mem_range.mp hcol)
    · intro c1 h1 c2 h2 hne x hx1 hx2
      have e1 := hsrc _ _ x hx1
      have e2 := hsrc _ _ x hx2
      have := List.mem_range.mp h1
      have := List.mem_range.mp h2
      have := (row_major_inj d row row c1 c2 ⟨by omega, by omega⟩ ⟨by omega, by omega⟩
        (e1.symm.trans e2)).2
      exact hne (by exact_mod_cast this)
  · intro r1 _ r2 _ hne x hx1 hx2
    obtain ⟨c1, h1, hx1⟩ := List.mem_flatMap.mp hx1
    obtain ⟨c2, h2, hx2⟩ := List.mem_flatMap.mp hx2
    have e1 := hsrc _ _ x hx1
    have e2 := hsrc _ _ x hx2
    have := List.mem_range.mp h1
    have := List.mem_range.mp h2
    have := (row_major_inj d r1 r2 c1 c2 ⟨by omega, by omega⟩ ⟨by omega, by omega⟩
      (e1.symm.trans e2)).1
    exact hne (by exact_mod_cast this)

theorem Mesh2D.rightDownPass_nodup (d : Nat) : (Mesh2D.rightDownPass (d : Int) []).Nodup := by
  rw [Mesh2D.rightDownPass_eq, List.nil_append]
  exact grid_flatMap_nodup d (Mesh2D.rdCell d) (Mesh2D.rdCell_src d)
    (fun row col h _ => Mesh2D.rdCell_nodup d row col h)

theorem Mesh2D.leftUpPass_nodup (d : Nat) : (Mesh2D.leftUpPass (d : Int) []).Nodup := by
  rw [Mesh2D.leftUpPass_eq, List.nil_append]
  exact grid_flatMap_nodup d (Mesh2D.luCell d) (Mesh2D.luCell_src d)
    (fun row col _ h => Mesh2D.luCell_nodup d row col h)

/-- The right/down pass consists of the right pairs and the down pairs of the grid. -/
theorem Mesh2D.mem_rightDownPass (d : Nat) (p : ConnectionPolicy) :
    p ∈ Mesh2D.rightDownPass (d : Int) [] ↔ Mesh2D.IsRightPair d p ∨ Mesh2D.IsDownPair d p := by
  rw [Mesh2D.rightDownPass_eq, List.nil_append]
  simp only [List.mem_flatMap, List.mem_range, Mesh2D.mem_rdCell]
  constructor
  · rintro ⟨row, hrow, col, hcol, h | h⟩
    · exact Or.inl ⟨row, col, by omega, by omega, by omega, h.1, h.2⟩
    · exact Or.inr ⟨row, col, by omega, h.1, by omega, by omega, h.2⟩
  · rintro (⟨row, col, h1, h2, h3, h4, rfl⟩ | ⟨row, col, h1, h2, h3, h4, rfl⟩)
    · obtain ⟨r, rfl⟩ := Int.eq_ofNat_of_zero_le h1
      obtain ⟨c, rfl⟩ := Int.eq_ofNat_of_zero_le h3
      exact ⟨r, by omega, c, by omega, Or.inl ⟨h4, rfl⟩⟩
    · obtain ⟨r, rfl⟩ := Int.eq_ofNat_of_zero_le h1
      obtain ⟨c, rfl⟩ := Int.eq_ofNat_of_zero_le h3
      exact ⟨r, by omega, c, by omega, Or.inr ⟨h2, rfl⟩⟩

/-- The left/up pass consists of the reversed right pairs and the reversed down pairs. -/
theorem Mesh2D.mem_leftUpPass (d : Nat) (p : ConnectionPolicy) :
    p ∈ Mesh2D.leftUpPass (d : Int) [] ↔
      Mesh2D.IsRightPair d p.reversed ∨ Mesh2D.IsDownPair d p.reversed := by
  rw [Mesh2D.leftUpPass_eq, List.nil_append]
  simp only [List.mem_flatMap, List.mem_range, Mesh2D.mem_luCell]
  constructor
  · rintro ⟨row, hrow, col, hcol, ⟨h, rfl⟩ | ⟨h, rfl⟩⟩
    · refine Or.inl ⟨row, (col : Int) - 1, by omega, by omega, by omega, by omega, ?_⟩
      simp [ConnectionPolicy.reversed]
    · refine Or.inr ⟨(row : Int) - 1, col, by omega, by omega, by omega, by omega, ?_⟩
      simp [ConnectionPolicy.reversed]
  · rintro (⟨row, col, h1, h2, h3, h4, h⟩ | ⟨row, col, h1, h2, h3, h4, h⟩)
    · obtain ⟨r, rfl⟩ := Int.eq_ofNat_of_zero_le h1
      obtain ⟨c, rfl⟩ := Int.eq_ofNat_of_zero_le h3
      refine ⟨r, by omega, c + 1, by omega, Or.inl ⟨by push_cast; omega, ?_⟩⟩
      have h5 : p = (p.reversed).reversed := rfl
      rw [h5, h]
      simp [ConnectionPolicy.reversed]
    · obtain ⟨r, rfl⟩ := Int.eq_ofNat_of_zero_le h1
      obtain ⟨c, rfl⟩ := Int.eq_ofNat_of_zero_le h3
      refine ⟨r + 1, by omega, c, by omega, Or.inr ⟨by push_cast; omega, ?_⟩⟩
      have h5 : p = (p.reversed).reversed := rfl
      rw [h5, h]
      simp [ConnectionPolicy.reversed]

theorem ConnectionPolicy.reversed_injective :
    Function.Injective ConnectionPolicy.reversed := by
  intro a b h
  have : a.reversed.reversed = b.reversed.reversed := by rw [h]
  exact this

/-- The left/up pass is a rearrangement of the reversed right/down pass. -/
theorem Mesh2D.leftUpPass_perm (d : Nat) :
    (Mesh2D.leftUpPass (d : Int) []).Perm
      ((Mesh2D.rightDownPass (d : Int) []).map ConnectionPolicy.reversed) := by
  rw [List.perm_ext_iff_of_nodup (Mesh2D.leftUpPass_nodup d)
    ((Mesh2D.rightDownPass_nodup d).map ConnectionPolicy.reversed_injective)]
  intro p
  rw [Mesh2D.mem_leftUpPass, List.mem_map]
  constructor
  · intro h
    exact ⟨p.reversed, (Mesh2D.mem_rightDownPass d _).mpr h, rfl⟩
  · rintro ⟨q, hq, rfl⟩
    exact (Mesh2D.mem_rightDownPass d _).mp hq

/-- Pairs of the right/down pass point to a larger identifier. -/
theorem Mesh2D.rightDown_src_lt_dst (d : Nat) (p : ConnectionPolicy)
    (h : p ∈ Mesh2D.rightDownPass (d : Int) []) : p.src < p.dst := by
  rcases (Mesh2D.mem_rightDownPass d p).mp h with ⟨row, col, _, _, _, _, rfl⟩ |
    ⟨row, col, _, _, _, _, rfl⟩
  · show row * (d : Int) + col < row * d + (col + 1)
    omega
  · show row * (d : Int) + col < (row + 1) * d + col
    have : (row + 1) * (d : Int) = row * d + d := by ring
    omega

/-- Number of pairs contributed by the first `n` cells of a row. -/
theorem Mesh2D.rdRow_length (e : Nat) (row : Nat) : ∀ n, n ≤ e + 1 →
    ((List.range n).flatMap (fun col : Nat =>
      Mesh2D.rdCell ((e + 1 : Nat) : Int) row col)).length =
      min n e + (if row < e then n else 0) := by
  intro n
  induction n with
  | zero => intro _; simp
  | succ n ih =>
    intro hn
    rw [List.range_succ, List.flatMap_append, List.length_append, ih (by omega)]
    have hcell : (Mesh2D.rdCell ((e + 1 : Nat) : Int) row n).length =
        (if n < e then 1 else 0) + (if row < e then 1 else 0) := by
      by_cases h1 : n < e <;> by_cases h2 : row < e <;>
        simp [Mesh2D.rdCell, h1, h2]
    simp only [List.flatMap_cons, List.flatMap_nil, List.append_nil, hcell]
    by_cases h1 : n < e <;> by_cases h2 : row < e <;> simp [h1, h2] <;> omega

/-- Number of pairs contributed by the first `n` rows. -/
theorem Mesh2D.rdRows_length (e : Nat) : ∀ n, n ≤ e + 1 →
    ((List.range n).flatMap (fun row : Nat => (List.range (e + 1)).flatMap (fun col : Nat =>
      Mesh2D.rdCell ((e + 1 : Nat) : Int) row col))).length =
      n * e + min n e * (e + 1) := by
  intro n
  induction n with
  | zero => intro _; simp
  | succ n ih =>
    intro hn
    rw [List.range_succ, List.flatMap_append, List.length_append, ih (by omega)]
    simp only [List.flatMap_cons, List.flatMap_nil, List.append_nil,
      Mesh2D.rdRow_length e n (e + 1) le_rfl]
    have m1 : min (e + 1) e = e := by omega
    by_cases h1 : n < e
    · have m2 : min n e = n := by omega
      have m3 : min (n + 1) e = n + 1 := by omega
      rw [if_pos h1, m1, m2, m3]
      ring
    · have m2 : min n e = e := by omega
      have m3 : min (n + 1) e = e := by omega
      have m4 : n = e := by omega
      rw [if_neg h1, m1, m2, m3, m4]
      ring

/-- The right/down pass has `2 d (d - 1)` pairs. -/
theorem Mesh2D.rightDownPass_length (d : Nat) (hd : 1 ≤ d) :
    (Mesh2D.rightDownPass (d : Int) []).length = 2 * d * (d - 1) := by
  obtain ⟨e, rfl⟩ : ∃ e, d = e + 1 := ⟨d - 1, by omega⟩
  have m1 : min (e + 1) e = e := by omega
  rw [Mesh2D.rightDownPass_eq, List.nil_append, Mesh2D.rdRows_length e (e + 1) le_rfl,
    m1, Nat.add_sub_cancel]
  ring

/-- The value of `Mesh2D::get_connection_policies` on a `d × d` instance. -/
theorem Mesh2D_get_connection_policies_eq (t : Mesh2D) (d : Nat)
    (ht : t.base.HasCounts ((d : Int) * d) ((d : Int) * d)) :
    t.get_connection_policies = .ok (Mesh2D.rightDownPass (d : Int) [] ++
      (if t.bidirectional = true then Mesh2D.leftUpPass (d : Int) [] else [])) := by
  simp only [Mesh2D.get_connection_policies]
  rw [ht.1, isqrt_sq, assert_of_true rfl]
  simp only [ok_bind, pure_eq_ok]
  split_ifs
  · rw [Mesh2D.leftUpPass_eq d (Mesh2D.rightDownPass (d : Int) []), Mesh2D.leftUpPass_eq d []]
    rfl
  · rw [List.append_nil]

/-- C10: on a `d × d` Mesh2D, `get_connection_policies` with `bidirectional = false` returns
the right/down pass: exactly the `2 d (d - 1)` right-neighbour and down-neighbour pairs, each
once; with `bidirectional = true` it returns that pass followed by the left/up pass, `4 d (d
- 1)` pairs in all, where the left/up pass is a permutation of the right/down pass with `src`
and `dst` exchanged, so the result is symmetric and has no duplicate. -/
theorem Mesh2D_policies_two_passes (d : Nat) (bw lat : ℚ) (multi : Bool) (hd : 1 ≤ d)
    (hbw : 0 < bw) (hlat : 0 ≤ lat) :
    ∃ tu tb, Mesh2D.new ((d : Int) * d) bw lat false multi = .ok tu ∧
      Mesh2D.new ((d : Int) * d) bw lat true multi = .ok tb ∧
      tu.get_connection_policies = .ok (Mesh2D.rightDownPass (d : Int) []) ∧
      tb.get_connection_policies =
        .ok (Mesh2D.rightDownPass (d : Int) [] ++ Mesh2D.leftUpPass (d : Int) []) ∧
      (Mesh2D.rightDownPass (d : Int) []).length = 2 * d * (d - 1) ∧
      (Mesh2D.rightDownPass (d : Int) []).Nodup ∧
      (∀ p, p ∈ Mesh2D.rightDownPass (d : Int) [] ↔
        Mesh2D.IsRightPair d p ∨ Mesh2D.IsDownPair d p) ∧
      (Mesh2D.rightDownPass (d : Int) [] ++ Mesh2D.leftUpPass (d : Int) []).length =
        4 * d * (d - 1) ∧
      (Mesh2D.leftUpPass (d : Int) []).Perm
        ((Mesh2D.rightDownPass (d : Int) []).map ConnectionPolicy.reversed) ∧
      (Mesh2D.rightDownPass (d : Int) [] ++ Mesh2D.leftUpPass (d : Int) []).Nodup ∧
      (∀ p, p ∈ Mesh2D.rightDownPass (d : Int) [] ++ Mesh2D.leftUpPass (d : Int) [] →
        p.reversed ∈ Mesh2D.rightDownPass (d : Int) [] ++ Mesh2D.leftUpPass (d : Int) []) := by
  have hpos : (0 : Int) < (d : Int) * d := by positivity
  obtain ⟨tu, htu, hcu, hbu⟩ := Mesh2D_new_ok ((d : Int) * d) bw lat false multi hpos hbw hlat
    (Or.inr (by rw [isqrt_sq]))
  obtain ⟨tb, htb, hcb, hbb⟩ := Mesh2D_new_ok ((d : Int) * d) bw lat true multi hpos hbw hlat
    (Or.inr (by rw [isqrt_sq]))
  have hperm := Mesh2D.leftUpPass_perm d
  have hlen := Mesh2D.rightDownPass_length d hd
  refine ⟨tu, tb, htu, htb, ?_, ?_, hlen, Mesh2D.rightDownPass_nodup d,
    Mesh2D.mem_rightDownPass d, ?_, hperm, ?_, ?_⟩
  · rw [Mesh2D_get_connection_policies_eq tu d hcu, hbu]
    simp
  · rw [Mesh2D_get_connection_policies_eq tb d hcb, hbb]
    simp
  · rw [List.length_append, hperm.length_eq, List.length_map, hlen]
    ring
  · rw [List.nodup_append]
    refine ⟨Mesh2D.rightDownPass_nodup d, Mesh2D.leftUpPass_nodup d, ?_⟩
    rw [List.disjoint_left]
    intro p hp hp'
    have h1 := Mesh2D.rightDown_src_lt_dst d p hp
    obtain ⟨q, hq, rfl⟩ := List.mem_map.mp (hperm.mem_iff.mp hp')
    have h2 := Mesh2D.rightDown_src_lt_dst d q hq
    have h3 : q.dst < q.src := h1
    omega
  · intro p hp
    rcases List.mem_append.mp hp with h | h
    · exact List.mem_append_right _
        (hperm.mem_iff.mpr (List.mem_map.mpr ⟨p, h, rfl⟩))
    · obtain ⟨q, hq, rfl⟩ := List.mem_map.mp (hperm.mem_iff.mp h)
      exact List.mem_append_left _ hq

/-- Witness of C10 on the 3 × 3 grid. -/
theorem Mesh2D_policies_two_passes_witness :
    ∃ tu tb, Mesh2D.new (((3 : Nat) : Int) * (3 : Nat)) 10 1 false false = .ok tu ∧
      Mesh2D.new (((3 : Nat) : Int) * (3 : Nat)) 10 1 true false = .ok tb ∧
      tu.get_connection_policies = .ok (Mesh2D.rightDownPass ((3 : Nat) : Int) []) ∧
      tb.get_connection_policies =
        .ok (Mesh2D.rightDownPass ((3 : Nat) : Int) [] ++
          Mesh2D.leftUpPass ((3 : Nat) : Int) []) ∧
      (Mesh2D.rightDownPass ((3 : Nat) : Int) []).length = 2 * 3 * (3 - 1) ∧
      (Mesh2D.rightDownPass ((3 : Nat) : Int) []).Nodup ∧
      (∀ p, p ∈ Mesh2D.rightDownPass ((3 : Nat) : Int) [] ↔
        Mesh2D.IsRightPair (3 : Nat) p ∨ Mesh2D.IsDownPair (3 : Nat) p) ∧
      (Mesh2D.rightDownPass ((3 : Nat) : Int) [] ++
        Mesh2D.leftUpPass ((3 : Nat) : Int) []).length = 4 * 3 * (3 - 1) ∧
      (Mesh2D.leftUpPass ((3 : Nat) : Int) []).Perm
        ((Mesh2D.rightDownPass ((3 : Nat) : Int) []).map ConnectionPolicy.reversed) ∧
      (Mesh2D.rightDownPass ((3 : Nat) : Int) [] ++
        Mesh2D.leftUpPass ((3 : Nat) : Int) []).Nodup ∧
      (∀ p, p ∈ Mesh2D.rightDownPass ((3 : Nat) : Int) [] ++
          Mesh2D.leftUpPass ((3 : Nat) : Int) [] →
        p.reversed ∈ Mesh2D.rightDownPass ((3 : Nat) : Int) [] ++
          Mesh2D.leftUpPass ((3 : Nat) : Int) []) :=
  Mesh2D_policies_two_passes 3 10 1 false (by decide) (by decide) (by decide)

/-! ## The links recorded by the constructors -/

theorem BasicTopology.addLinks_nil (b : BasicTopology) : b.addLinks [] = b := by
  simp [BasicTopology.addLinks]

theorem BasicTopology.addLinks_addLinks (b : BasicTopology) (l1 l2 : List Link) :
    (b.addLinks l1).addLinks l2 = b.addLinks (l1 ++ l2) := by
  simp [BasicTopology.addLinks]

theorem BasicTopology.addLinks_hasCounts {N D : Int} (b : BasicTopology)
    (hb : b.HasCounts N D) (l : List Link) : (b.addLinks l).HasCounts N D := hb

/-- When its preconditions hold, `connect` adds `linksOf` to the registry. -/
theorem BasicTopology.connect_addLinks {N D : Int} (b : BasicTopology) (hb : b.HasCounts N D)
    (x y : Int) (bw lat : ℚ) (bidir : Bool)
    (hx : 0 ≤ x ∧ x < D) (hy : 0 ≤ y ∧ y < D) (hbw : 0 < bw) (hlat : 0 ≤ lat) :
    b.connect x y bw lat bidir = .ok (b.addLinks (linksOf x y bw lat bidir)) := by
  rw [b.connect_eq x y bw lat bidir (by rw [hb.2]; exact hx) (by rw [hb.2]; exact hy) hbw hlat]
  cases bidir <;> simp [BasicTopology.addLinks, linksOf]

/-- A counted loop whose iterations add links adds them in order. -/
theorem forLoopAux_addLinks {N D : Int} (body : Int → BasicTopology → Except Fault BasicTopology)
    (f : Int → List Link) :
    ∀ (n : Nat) (lo : Int) (b : BasicTopology), b.HasCounts N D →
      (∀ i b, lo ≤ i → i < lo + n → b.HasCounts N D → body i b = .ok (b.addLinks (f i))) →
      forLoopAux body n lo b =
        .ok (b.addLinks ((List.range n).flatMap (fun k : Nat => f (lo + (k : Int))))) := by
  intro n
  induction n with
  | zero => intro lo b _ _; simp [forLoopAux, BasicTopology.addLinks_nil]
  | succ n ih =>
    intro lo b hb hbody
    rw [forLoopAux, hbody lo b le_rfl (by push_cast; omega) hb]
    dsimp only
    rw [ih (lo + 1) _ (b.addLinks_hasCounts hb _) (fun i b h1 h2 hb' =>
      hbody i b (by omega) (by push_cast; omega) hb'), BasicTopology.addLinks_addLinks,
      List.range_succ_eq_map]
    simp [List.flatMap_cons, List.flatMap_map, Function.comp_def, add_assoc, add_comm (1 : Int)]

/-- The loop `for (i = 0; i < n; i++)` whose iterations add links. -/
theorem forLoop_addLinks {N D : Int} (body : Int → BasicTopology → Except Fault BasicTopology)
    (f : Int → List Link) (n : Nat) (b : BasicTopology) (hb : b.HasCounts N D)
    (hbody : ∀ i b, 0 ≤ i → i < (n : Int) → b.HasCounts N D →
      body i b = .ok (b.addLinks (f i))) :
    forLoop 0 (n : Int) body b =
      .ok (b.addLinks ((List.range n).flatMap (fun k : Nat => f (k : Int)))) := by
  unfold forLoop
  rw [forLoopAux_addLinks body f _ 0 b hb (fun i b h1 h2 hb' => hbody i b h1 (by omega) hb')]
  simp

theorem guarded_connect_addLinks {N D : Int} (c : Prop) [Decidable c] (b : BasicTopology)
    (hb : b.HasCounts N D) (x y : Int) (bw lat : ℚ) (bidir : Bool)
    (hx : c → 0 ≤ x ∧ x < D) (hy : c → 0 ≤ y ∧ y < D) (hbw : 0 < bw) (hlat : 0 ≤ lat) :
    (if c then b.connect x y bw lat bidir else pure b) =
      .ok (b.addLinks (if c then linksOf x y bw lat bidir else [])) := by
  by_cases h : c
  · rw [if_pos h, if_pos h]
    exact b.connect_addLinks hb x y bw lat bidir (hx h) (hy h) hbw hlat
  · rw [if_neg h, if_neg h, BasicTopology.addLinks_nil]; rfl

theorem connectChain_links (n : Nat) (bw lat : ℚ) (bidir : Bool) (hbw : 0 < bw)
    (hlat : 0 ≤ lat) (b : BasicTopology) (hb : b.HasCounts ((n : Int) + 1) ((n : Int) + 1)) :
    connectChain ((n : Int) + 1) bw lat bidir b =
      .ok (b.addLinks ((List.range n).flatMap (fun i : Nat =>
        linksOf (i : Int) ((i : Int) + 1) bw lat bidir))) := by
  unfold connectChain
  have : (n : Int) + 1 - 1 = (n : Int) := by ring
  rw [this]
  exact forLoop_addLinks _ (fun i => linksOf i (i + 1) bw lat bidir) n b hb
    (fun i b h1 h2 hb' => b.connect_addLinks hb' i (i + 1) bw lat bidir
      ⟨h1, by omega⟩ ⟨by omega, by omega⟩ hbw hlat)

theorem Mesh2D.connectCell_bind (dim : Int) (bw lat : ℚ) (bidir : Bool) (row col : Int)
    (b : BasicTopology) :
    Mesh2D.connectCell dim bw lat bidir row col b =
      ((if col + 1 < dim then
          b.connect (row * dim + col) (row * dim + (col + 1)) bw lat bidir
        else pure b) >>= fun b =>
      (if row + 1 < dim then
          b.connect (row * dim + col) ((row + 1) * dim + col) bw lat bidir
        else pure b)) := by
  simp only [Mesh2D.connectCell]
  by_cases c1 : col + 1 < dim <;> simp [c1]

theorem Mesh2D_connectCell_links (dim : Int) (bw lat : ℚ) (bidir : Bool) (hbw : 0 < bw)
    (hlat : 0 ≤ lat) (row col : Int) (hr : 0 ≤ row ∧ row < dim) (hc : 0 ≤ col ∧ col < dim)
    (b : BasicTopology) (hb : b.HasCounts (dim * dim) (dim * dim)) :
    Mesh2D.connectCell dim bw lat bidir row col b =
      .ok (b.addLinks (Mesh2D.cellLinks dim bw lat bidir row col)) := by
  have hcur := grid_index_bounds dim row col hr hc
  rw [Mesh2D.connectCell_bind,
    guarded_connect_addLinks (col + 1 < dim) b hb (row * dim + col)
      (row * dim + (col + 1)) bw lat bidir (fun _ => hcur)
      (fun h => grid_index_bounds dim row (col + 1) hr ⟨by omega, h⟩) hbw hlat, ok_bind,
    guarded_connect_addLinks (row + 1 < dim) _ (b.addLinks_hasCounts hb _) (row * dim + col)
      ((row + 1) * dim + col) bw lat bidir (fun _ => hcur)
      (fun h => grid_index_bounds dim (row + 1) col ⟨by omega, h⟩ hc) hbw hlat]
  simp only [BasicTopology.addLinks_addLinks, Mesh2D.cellLinks]

theorem KingMesh2D_connectCell_links (dim : Int) (bw lat : ℚ) (bidir : Bool) (hbw : 0 < bw)
    (hlat : 0 ≤ lat) (row col : Int) (hr : 0 ≤ row ∧ row < dim) (hc : 0 ≤ col ∧ col < dim)
    (b : BasicTopology) (hb : b.HasCounts (dim * dim) (dim * dim)) :
    KingMesh2D.connectCell dim bw lat bidir row col b =
      .ok (b.addLinks (KingMesh2D.cellLinks dim bw lat bidir row col)) := by
  have hcur := grid_index_bounds dim row col hr hc
  rw [KingMesh2D.connectCell_eq,
    guarded_connect_addLinks (col + 1 < dim) b hb (row * dim + col)
      (row * dim + (col + 1)) bw lat bidir (fun _ => hcur)
      (fun h => grid_index_bounds dim row (col + 1) hr ⟨by omega, h⟩) hbw hlat, ok_bind,
    guarded_connect_addLinks (row + 1 < dim) _ (b.addLinks_hasCounts hb _) (row * dim + col)
      ((row + 1) * dim + col) bw lat bidir (fun _ => hcur)
      (fun h => grid_index_bounds dim (row + 1) col ⟨by omega, h⟩ hc) hbw hlat, ok_bind,
    guarded_connect_addLinks (row + 1 < dim ∧ col + 1 < dim) _
      (BasicTopology.addLinks_hasCounts _ (b.addLinks_hasCounts hb _) _)
      (row * dim + col) ((row + 1) * dim + (col + 1)) bw lat bidir (fun _ => hcur)
      (fun h => grid_index_bounds dim (row + 1) (col + 1) ⟨by omega, h.1⟩ ⟨by omega, h.2⟩)
      hbw hlat, ok_bind,
    guarded_connect_addLinks (row + 1 < dim ∧ col > 0) _
      (BasicTopology.addLinks_hasCounts _ (BasicTopology.addLinks_hasCounts _
        (b.addLinks_hasCounts hb _) _) _)
      (row * dim + col) ((row + 1) * dim + (col - 1)) bw lat bidir (fun _ => hcur)
      (fun h => grid_index_bounds dim (row + 1) (col - 1) ⟨by omega, h.1⟩
        ⟨by omega, by omega⟩) hbw hlat]
  simp only [BasicTopology.addLinks_addLinks, KingMesh2D.cellLinks, List.append_assoc]

theorem HyperCube.linkBandwidth_pos (bw : ℚ) (fl : List FaultyLink) (hbw : 0 < bw)
    (hfl : ∀ l ∈ fl, 0 ≤ l.2.2) (u v : Int) : 0 < HyperCube.linkBandwidth bw fl u v := by
  unfold HyperCube.linkBandwidth
  split_ifs with h0
  · positivity
  · have hpos : 0 < fault_derate_scan fl u v :=
      lt_of_le_of_ne (fault_derate_scan_nonneg _ _ fl hfl) (Ne.symm h0)
    positivity

theorem HyperCube_connectBit_links (N : Int) (bw lat : ℚ) (bidir : Bool)
    (fl : List FaultyLink) (hbw : 0 < bw) (hlat : 0 ≤ lat) (hfl : ∀ l ∈ fl, 0 ≤ l.2.2)
    (u d : Int) (hu : 0 ≤ u ∧ u < N) (b : BasicTopology) (hb : b.HasCounts N N) :
    HyperCube.connectBit N bw lat bidir fl u d b =
      .ok (b.addLinks (HyperCube.bitLinks N bw lat bidir fl u d)) := by
  obtain ⟨un, rfl⟩ := Int.eq_ofNat_of_zero_le hu.1
  simp only [HyperCube.connectBit, HyperCube.bitLinks]
  by_cases hv : Int.xor (un : Int) (shl1 d) < N
  · rw [if_pos hv, if_pos hv]
    exact b.connect_addLinks hb _ _ _ lat bidir hu
      ⟨by rw [xor_shl1_natCast]; exact Int.natCast_nonneg _, hv⟩
      (HyperCube.linkBandwidth_pos bw fl hbw hfl _ _) hlat
  · rw [if_neg hv, if_neg hv, BasicTopology.addLinks_nil]; rfl

/-- The links of a standalone `d × d` mesh. -/
theorem Mesh2D_new_links (d : Nat) (hd : 1 ≤ d) (bw lat : ℚ) (bidir : Bool) (hbw : 0 < bw)
    (hlat : 0 ≤ lat) :
    Mesh2D.new ((d : Int) * d) bw lat bidir false = .ok
      { base := (BasicTopology.init ((d : Int) * d) ((d : Int) * d)).addLinks
          (gridFlatMap d (Mesh2D.cellLinks d bw lat bidir)),
        bidirectional := bidir } := by
  have hinit : (BasicTopology.init ((d : Int) * d) ((d : Int) * d)).HasCounts
      ((d : Int) * d) ((d : Int) * d) := ⟨rfl, rfl⟩
  have hpos : (0 : Int) < (d : Int) * d := by positivity
  have hloop := forLoop_addLinks (N := (d : Int) * d) (D := (d : Int) * d)
    (fun row b => forLoop 0 (d : Int) (fun col b =>
      Mesh2D.connectCell d bw lat bidir row col b) b)
    (fun row => (List.range d).flatMap (fun col : Nat =>
      Mesh2D.cellLinks d bw lat bidir row col)) d _ hinit
    (fun row b hr0 hr1 hb => forLoop_addLinks _ _ d b hb
      (fun col b hc0 hc1 hb' => Mesh2D_connectCell_links d bw lat bidir hbw hlat row col
        ⟨hr0, hr1⟩ ⟨hc0, hc1⟩ b hb'))
  simp only [Mesh2D.new]
  rw [assert_of_true (by exact hpos), assert_of_true (by exact hbw),
    assert_of_true (by exact hlat)]
  simp only [ok_bind, Bool.not_false, if_true, isqrt_sq, assert_of_true]
  rw [hloop]
  rfl

/-- The links of a standalone `d × d` king mesh. -/
theorem KingMesh2D_new_links (d : Nat) (hd : 1 ≤ d) (bw lat : ℚ) (bidir : Bool)
    (hbw : 0 < bw) (hlat : 0 ≤ lat) :
    KingMesh2D.new ((d : Int) * d) bw lat bidir false = .ok
      { base := (BasicTopology.init ((d : Int) * d) ((d : Int) * d)).addLinks
          (gridFlatMap d (KingMesh2D.cellLinks d bw lat bidir)),
        bidirectional := bidir } := by
  have hinit : (BasicTopology.init ((d : Int) * d) ((d : Int) * d)).HasCounts
      ((d : Int) * d) ((d : Int) * d) := ⟨rfl, rfl⟩
  have hpos : (0 : Int) < (d : Int) * d := by positivity
  have hloop := forLoop_addLinks (N := (d : Int) * d) (D := (d : Int) * d)
    (fun row b => forLoop 0 (d : Int) (fun col b =>
      KingMesh2D.connectCell d bw lat bidir row col b) b)
    (fun row => (List.range d).flatMap (fun col : Nat =>
      KingMesh2D.cellLinks d bw lat bidir row col)) d _ hinit
    (fun row b hr0 hr1 hb => forLoop_addLinks _ _ d b hb
      (fun col b hc0 hc1 hb' => KingMesh2D_connectCell_links d bw lat bidir hbw hlat row col
        ⟨hr0, hr1⟩ ⟨hc0, hc1⟩ b hb'))
  simp only [KingMesh2D.new]
  rw [assert_of_true (by exact hpos), assert_of_true (by exact hbw),
    assert_of_true (by exact hlat)]
  simp only [ok_bind, Bool.not_false, if_true, isqrt_sq, assert_of_true]
  rw [hloop]
  rfl

/-- The links of a standalone hypercube with `n` endpoints, where `m` is the number of bit
positions the constructor scans. -/
theorem HyperCube_new_links (n m : Nat) (hn : 1 ≤ n) (hm : ceilLog2 (n : Int) = (m : Int))
    (bw lat : ℚ) (bidir : Bool) (nr : Int) (fl : List FaultyLink) (hbw : 0 < bw)
    (hlat : 0 ≤ lat) (hfl : ∀ l ∈ fl, 0 ≤ l.2.2) :
    HyperCube.new (n : Int) bw lat bidir false nr fl = .ok
      { base := (BasicTopology.init (n : Int) (n : Int)).addLinks
          ((List.range n).flatMap (fun u : Nat => (List.range m).flatMap (fun d : Nat =>
            HyperCube.bitLinks (n : Int) bw lat bidir fl u d))),
        bidirectional := bidir, faulty_links := fl, non_recursive_topo := nr } := by
  have hinit : (BasicTopology.init (n : Int) (n : Int)).HasCounts (n : Int) (n : Int) :=
    ⟨rfl, rfl⟩
  have hpos : (0 : Int) < (n : Int) := by exact_mod_cast hn
  have hloop := forLoop_addLinks (N := (n : Int)) (D := (n : Int))
    (fun u b => forLoop 0 (m : Int) (fun d b =>
      HyperCube.connectBit (n : Int) bw lat bidir fl u d b) b)
    (fun u => (List.range m).flatMap (fun d : Nat =>
      HyperCube.bitLinks (n : Int) bw lat bidir fl u d)) n _ hinit
    (fun u b hu0 hu1 hb => forLoop_addLinks _ _ m b hb
      (fun d b _ _ hb' => HyperCube_connectBit_links (n : Int) bw lat bidir fl hbw hlat hfl
        u d ⟨hu0, hu1⟩ b hb'))
  simp only [HyperCube.new]
  rw [assert_of_true (by exact hpos), assert_of_true (by exact hbw),
    assert_of_true (by exact hlat)]
  simp only [ok_bind, Bool.not_false, if_true, hm]
  rw [hloop]
  rfl

theorem BasicTopology.init_addLinks_links (N D : Int) (links : List Link) :
    ((BasicTopology.init N D).addLinks links).links = links := by
  simp [BasicTopology.addLinks, BasicTopology.init]

/-- A standalone `d × d` mesh is constructed, and its links are those of its cells in
row-major order. -/
theorem Mesh2D_new_standalone (d : Nat) (hd : 1 ≤ d) (bw lat : ℚ) (bidir : Bool)
    (hbw : 0 < bw) (hlat : 0 ≤ lat) :
    ∃ t, Mesh2D.new ((d : Int) * d) bw lat bidir false = .ok t ∧
      t.base.HasCounts ((d : Int) * d) ((d : Int) * d) ∧ t.bidirectional = bidir ∧
      t.base.links = gridFlatMap d (Mesh2D.cellLinks d bw lat bidir) :=
  ⟨_, Mesh2D_new_links d hd bw lat bidir hbw hlat, ⟨rfl, rfl⟩, rfl,
    BasicTopology.init_addLinks_links _ _ _⟩

/-- A standalone `d × d` king mesh is constructed, and its links are those of its cells in
row-major order. -/
theorem KingMesh2D_new_standalone (d : Nat) (hd : 1 ≤ d) (bw lat : ℚ) (bidir : Bool)
    (hbw : 0 < bw) (hlat : 0 ≤ lat) :
    ∃ t, KingMesh2D.new ((d : Int) * d) bw lat bidir false = .ok t ∧
      t.base.HasCounts ((d : Int) * d) ((d : Int) * d) ∧ t.bidirectional = bidir ∧
      t.base.links = gridFlatMap d (KingMesh2D.cellLinks d bw lat bidir) :=
  ⟨_, KingMesh2D_new_links d hd bw lat bidir hbw hlat, ⟨rfl, rfl⟩, rfl,
    BasicTopology.init_addLinks_links _ _ _⟩

/-- A standalone hypercube with `n` endpoints is constructed, and its links are those of its
endpoints and bit positions in order. -/
theorem HyperCube_new_standalone (n m : Nat) (hn : 1 ≤ n)
    (hm : ceilLog2 (n : Int) = (m : Int)) (bw lat : ℚ) (bidir : Bool) (nr : Int)
    (fl : List FaultyLink) (hbw : 0 < bw) (hlat : 0 ≤ lat) (hfl : ∀ l ∈ fl, 0 ≤ l.2.2) :
    ∃ t, HyperCube.new (n : Int) bw lat bidir false nr fl = .ok t ∧
      t.base.HasCounts (n : Int) (n : Int) ∧ t.bidirectional = bidir ∧ t.faulty_links = fl ∧
      t.base.links = (List.range n).flatMap (fun u : Nat => (List.range m).flatMap
        (fun d : Nat => HyperCube.bitLinks (n : Int) bw lat bidir fl u d)) :=
  ⟨_, HyperCube_new_links n m hn hm bw lat bidir nr fl hbw hlat hfl, ⟨rfl, rfl⟩, rfl, rfl,
    BasicTopology.init_addLinks_links _ _ _⟩

/-! ## HyperCube: fault derating -/

theorem fault_derate_scan_eq_find (a b : Int) : ∀ (fl : List FaultyLink),
    fault_derate_scan fl a b =
      ((fl.find? (FaultyLink.joins a b)).map (fun link => link.2.2)).getD 1 := by
  intro fl
  induction fl with
  | nil => rfl
  | cons l fl ih =>
    simp only [fault_derate_scan, List.find?_cons, FaultyLink.joins]
    by_cases h : (l.1 = a ∧ l.2.1 = b) ∨ (l.1 = b ∧ l.2.1 = a)
    · simp [h]
    · rw [if_neg h]
      simp only [h, decide_False]
      exact ih

theorem fault_derate_scan_symm (a b : Int) : ∀ (fl : List FaultyLink),
    fault_derate_scan fl a b = fault_derate_scan fl b a := by
  intro fl
  induction fl with
  | nil => rfl
  | cons l fl ih =>
    simp only [fault_derate_scan]
    by_cases h : (l.1 = a ∧ l.2.1 = b) ∨ (l.1 = b ∧ l.2.1 = a)
    · rw [if_pos h, if_pos (Or.symm h)]
    · rw [if_neg h, if_neg (fun h' => h (Or.symm h'))]
      exact ih

/-- C13: for every faulty-link list and all `a`, `b`, `fault_derate(a, b)` is the health of
the first list entry whose endpoint pair is `{a, b}` in either order, and 1 when no entry
matches; consequently `fault_derate(a, b) = fault_derate(b, a)`. -/
theorem HyperCube_fault_derate_first_match (t : HyperCube) (a b : Int) :
    t.fault_derate a b =
      ((t.faulty_links.find? (FaultyLink.joins a b)).map (fun link => link.2.2)).getD 1 ∧
    t.fault_derate a b = t.fault_derate b a :=
  ⟨fault_derate_scan_eq_find a b t.faulty_links, fault_derate_scan_symm a b t.faulty_links⟩

/-! ## KingMesh2D and Mesh2D routes compared -/

/-- C15: on the same `d × d` grid and for the same valid `src`, `dest`, the route of
KingMesh2D is never longer than the route of Mesh2D; it is strictly shorter when both the X
delta and the Y delta are nonzero, and of equal length when at least one delta is zero. -/
theorem KingMesh2D_route_not_longer_than_Mesh2D (d : Nat) (bw lat : ℚ) (bidir multi : Bool)
    (hbw : 0 < bw) (hlat : 0 ≤ lat) (src dest : Int)
    (hsrc : 0 ≤ src ∧ src < (d : Int) * d) (hdest : 0 ≤ dest ∧ dest < (d : Int) * d)
    (fuel : Nat) (hfuel : d ≤ fuel) :
    ∃ tm tk rm rk, Mesh2D.new ((d : Int) * d) bw lat bidir multi = .ok tm ∧
      KingMesh2D.new ((d : Int) * d) bw lat bidir multi = .ok tk ∧
      tm.route fuel src dest = .ok rm ∧ tk.route fuel src dest = .ok rk ∧
      rk.length ≤ rm.length ∧
      (dest % (d : Int) ≠ src % (d : Int) ∧ dest / (d : Int) ≠ src / (d : Int) →
        rk.length < rm.length) ∧
      (dest % (d : Int) = src % (d : Int) ∨ dest / (d : Int) = src / (d : Int) →
        rk.length = rm.length) := by
  have hpos : (0 : Int) < (d : Int) * d := by omega
  obtain ⟨tm, htm, hcm, _⟩ := Mesh2D_new_ok ((d : Int) * d) bw lat bidir multi hpos hbw hlat
    (Or.inr (by rw [isqrt_sq]))
  obtain ⟨tk, htk, hck, _⟩ := KingMesh2D_new_ok ((d : Int) * d) bw lat bidir multi hpos hbw
    hlat (Or.inr (by rw [isqrt_sq]))
  obtain ⟨rk, hrk, _, _, hlen⟩ := KingMesh2D.route_spec tk d hck src dest hsrc hdest fuel hfuel
  have hm := xFirstPath_length (d : Int) src dest
  rw [Int.abs_eq_natAbs, Int.abs_eq_natAbs] at hm
  have hm' : (xFirstPath (d : Int) src dest).length =
      (dest % (d : Int) - src % (d : Int)).natAbs +
        (dest / (d : Int) - src / (d : Int)).natAbs + 1 := by exact_mod_cast hm
  refine ⟨tm, tk, _, rk, htm, htk, Mesh2D_route_eq tm d hcm src dest hsrc hdest fuel hfuel,
    hrk, ?_, ?_, ?_⟩
  · rw [hlen, hm']; omega
  · rintro ⟨h1, h2⟩
    rw [hlen, hm']; omega
  · intro h
    rw [hlen, hm']
    rcases h with h | h <;> omega

/-- Witness of C15 on the 3 × 3 grid, from cell 0 to cell 8. -/
theorem KingMesh2D_route_not_longer_than_Mesh2D_witness :
    ∃ tm tk rm rk, Mesh2D.new (((3 : Nat) : Int) * (3 : Nat)) 10 1 true false = .ok tm ∧
      KingMesh2D.new (((3 : Nat) : Int) * (3 : Nat)) 10 1 true false = .ok tk ∧
      tm.route 3 0 8 = .ok rm ∧ tk.route 3 0 8 = .ok rk ∧
      rk.length ≤ rm.length ∧
      ((8 : Int) % ((3 : Nat) : Int) ≠ 0 % ((3 : Nat) : Int) ∧
        (8 : Int) / ((3 : Nat) : Int) ≠ 0 / ((3 : Nat) : Int) → rk.length < rm.length) ∧
      ((8 : Int) % ((3 : Nat) : Int) = 0 % ((3 : Nat) : Int) ∨
        (8 : Int) / ((3 : Nat) : Int) = 0 / ((3 : Nat) : Int) → rk.length = rm.length) :=
  KingMesh2D_route_not_longer_than_Mesh2D 3 10 1 true false (by decide) (by decide) 0 8
    (by decide) (by decide) 3 (by decide)

/-! ## Endpoint range checks -/

/-- A call of `Bus::route` with an endpoint out of range ends at an assertion. -/
theorem Bus_route_out_of_range (t : Bus) (src dest : Int)
    (h : ¬ (0 ≤ src ∧ src < t.base.npus_count) ∨ ¬ (0 ≤ dest ∧ dest < t.base.npus_count)) :
    t.route src dest = .error Fault.assertion := by
  simp only [Bus.route]
  by_cases hs : 0 ≤ src ∧ src < t.base.npus_count
  · rcases h with h | h
    · exact absurd hs h
    · rw [assert_of_true hs, assert_of_false h]; rfl
  · rw [assert_of_false hs]; rfl

theorem HyperCube_route_out_of_range (t : HyperCube) (fuel : Nat) (src dest : Int)
    (h : ¬ (0 ≤ src ∧ src < t.base.npus_count) ∨ ¬ (0 ≤ dest ∧ dest < t.base.npus_count)) :
    t.route fuel src dest = .error Fault.assertion := by
  simp only [HyperCube.route]
  by_cases hs : 0 ≤ src ∧ src < t.base.npus_count
  · rcases h with h | h
    · exact absurd hs h
    · rw [assert_of_true hs, assert_of_false h]; rfl
  · rw [assert_of_false hs]; rfl

theorem Mesh2D_route_out_of_range (t : Mesh2D) (fuel : Nat) (src dest : Int)
    (h : ¬ (0 ≤ src ∧ src < t.base.npus_count) ∨ ¬ (0 ≤ dest ∧ dest < t.base.npus_count)) :
    t.route fuel src dest = .error Fault.assertion := by
  simp only [Mesh2D.route]
  by_cases hs : 0 ≤ src ∧ src < t.base.npus_count
  · rcases h with h | h
    · exact absurd hs h
    · rw [assert_of_true hs, assert_of_false h]; rfl
  · rw [assert_of_false hs]; rfl

theorem KingMesh2D_route_out_of_range (t : KingMesh2D) (fuel : Nat) (src dest : Int)
    (h : ¬ (0 ≤ src ∧ src < t.base.npus_count) ∨ ¬ (0 ≤ dest ∧ dest < t.base.npus_count)) :
    t.route fuel src dest = .error Fault.assertion := by
  simp only [KingMesh2D.route]
  by_cases hs : 0 ≤ src ∧ src < t.base.npus_count
  · rcases h with h | h
    · exact absurd hs h
    · rw [assert_of_true hs, assert_of_false h]; rfl
  · rw [assert_of_false hs]; rfl

/-- On a constructed bus every call with both endpoints in range returns a route. -/
theorem Bus_route_in_range (t : Bus) (N : Int) (ht : t.base.HasCounts N (N + 1))
    (hid : t.bus_id = N) (src dest : Int) (hsrc : 0 ≤ src ∧ src < N)
    (hdest : 0 ≤ dest ∧ dest < N) : t.route src dest = .ok [src, N, dest] := by
  simp only [Bus.route]
  rw [assert_of_true (by rw [ht.1]; exact hsrc), assert_of_true (by rw [ht.1]; exact hdest),
    t.base.devices_at_ok src (by rw [ht.2]; omega),
    t.base.devices_at_ok t.bus_id (by rw [ht.2, hid]; omega),
    t.base.devices_at_ok dest (by rw [ht.2]; omega), hid]
  rfl

/-- C16: for each of Bus, HyperCube, Mesh2D and KingMesh2D, `route(src, dest)` ends at a
violated precondition assertion, and returns no route, whenever `src` or `dest` lies outside
`[0, npus_count)`; for a constructed Bus (`1 ≤ npus_count < INT_MAX`, so that the device
count `npus_count + 1` is a C `int`) this is the only way `route` can fail: a route is
returned exactly when both endpoints are in range. -/
theorem route_out_of_range_fails :
    (∀ (t : Bus) (src dest : Int),
      ¬ (0 ≤ src ∧ src < t.base.npus_count) ∨ ¬ (0 ≤ dest ∧ dest < t.base.npus_count) →
      t.route src dest = .error Fault.assertion) ∧
    (∀ (t : HyperCube) (fuel : Nat) (src dest : Int),
      ¬ (0 ≤ src ∧ src < t.base.npus_count) ∨ ¬ (0 ≤ dest ∧ dest < t.base.npus_count) →
      t.route fuel src dest = .error Fault.assertion) ∧
    (∀ (t : Mesh2D) (fuel : Nat) (src dest : Int),
      ¬ (0 ≤ src ∧ src < t.base.npus_count) ∨ ¬ (0 ≤ dest ∧ dest < t.base.npus_count) →
      t.route fuel src dest = .error Fault.assertion) ∧
    (∀ (t : KingMesh2D) (fuel : Nat) (src dest : Int),
      ¬ (0 ≤ src ∧ src < t.base.npus_count) ∨ ¬ (0 ≤ dest ∧ dest < t.base.npus_count) →
      t.route fuel src dest = .error Fault.assertion) ∧
    (∀ (N : Int) (bw lat : ℚ), 1 ≤ N → N < INT_MAX → 0 < bw → 0 ≤ lat →
      ∃ t, Bus.new N bw lat = .ok t ∧ t.base.npus_count = N ∧
        ∀ src dest : Int, (∃ r, t.route src dest = .ok r) ↔
          (0 ≤ src ∧ src < N) ∧ (0 ≤ dest ∧ dest < N)) := by
  refine ⟨Bus_route_out_of_range, HyperCube_route_out_of_range, Mesh2D_route_out_of_range,
    KingMesh2D_route_out_of_range, ?_⟩
  intro N bw lat hN hmax hbw hlat
  obtain ⟨t, ht, hc, hid⟩ := Bus_new_ok N bw lat (by omega) hmax hbw hlat
  refine ⟨t, ht, hc.1, fun src dest => ⟨?_, ?_⟩⟩
  · rintro ⟨r, hr⟩
    by_contra hcon
    have hcon' : ¬ (0 ≤ src ∧ src < t.base.npus_count) ∨
        ¬ (0 ≤ dest ∧ dest < t.base.npus_count) := by
      rw [hc.1]
      by_cases h1 : 0 ≤ src ∧ src < N
      · exact Or.inr (fun h2 => hcon ⟨h1, h2⟩)
      · exact Or.inl h1
    rw [Bus_route_out_of_range t src dest hcon'] at hr
    exact Except.noConfusion hr
  · rintro ⟨h1, h2⟩
    exact ⟨_, Bus_route_in_range t N hc hid src dest h1 h2⟩

/-- Witness of C16: routing from endpoint 7 on topologies with four endpoints. -/
theorem route_out_of_range_fails_witness :
    (Bus.mk (BasicTopology.init 4 5) 4).route 7 1 = .error Fault.assertion ∧
    (Mesh2D.mk (BasicTopology.init 4 4) true).route 2 7 1 = .error Fault.assertion ∧
    (∃ t, Bus.new 4 5 2 = .ok t ∧ t.base.npus_count = 4 ∧
      ∀ src dest : Int, (∃ r, t.route src dest = .ok r) ↔
        (0 ≤ src ∧ src < 4) ∧ (0 ≤ dest ∧ dest < 4)) :=
  ⟨route_out_of_range_fails.1 _ 7 1 (Or.inl (by decide)),
   route_out_of_range_fails.2.2.1 _ 2 7 1 (Or.inl (by decide)),
   route_out_of_range_fails.2.2.2.2 4 5 2 (by decide) (by decide) (by decide) (by decide)⟩

/-! ## Grid size checks -/

/-- The check `dim * dim == npus_count` holds exactly for perfect squares. -/
theorem isqrt_mul_self_iff (N : Int) :
    isqrt N * isqrt N = N ↔ ∃ d : Nat, N = (d : Int) * d := by
  constructor
  · intro h
    exact ⟨isqrtAux N.toNat N.toNat, h.symm⟩
  · rintro ⟨d, rfl⟩
    rw [isqrt_sq]

theorem Mesh2D_new_not_square (N : Int) (bw lat : ℚ) (bidir : Bool) (hN : 0 < N)
    (hbw : 0 < bw) (hlat : 0 ≤ lat) (hsq : isqrt N * isqrt N ≠ N) :
    Mesh2D.new N bw lat bidir false = .error Fault.assertion := by
  simp only [Mesh2D.new]
  rw [assert_of_true (by exact hN), assert_of_true (by exact hbw),
    assert_of_true (by exact hlat)]
  simp only [ok_bind, Bool.not_false, if_true]
  rw [assert_of_false hsq]
  rfl

theorem KingMesh2D_new_not_square (N : Int) (bw lat : ℚ) (bidir : Bool) (hN : 0 < N)
    (hbw : 0 < bw) (hlat : 0 ≤ lat) (hsq : isqrt N * isqrt N ≠ N) :
    KingMesh2D.new N bw lat bidir false = .error Fault.assertion := by
  simp only [KingMesh2D.new]
  rw [assert_of_true (by exact hN), assert_of_true (by exact hbw),
    assert_of_true (by exact hlat)]
  simp only [ok_bind, Bool.not_false, if_true]
  rw [assert_of_false hsq]
  rfl

/-- C17: for positive `npus_count`, positive bandwidth and non-negative latency, the
construction of a standalone (`is_multi_dim = false`) Mesh2D or KingMesh2D succeeds for every
perfect square and ends at the violated assertion `dim * dim == npus_count` for every other
`npus_count`. -/
theorem mesh_construction_iff_perfect_square (N : Int) (bw lat : ℚ) (bidir : Bool)
    (hN : 0 < N) (hbw : 0 < bw) (hlat : 0 ≤ lat) :
    ((∃ d : Nat, N = (d : Int) * d) →
      (∃ t, Mesh2D.new N bw lat bidir false = .ok t) ∧
      (∃ t, KingMesh2D.new N bw lat bidir false = .ok t)) ∧
    ((¬ ∃ d : Nat, N = (d : Int) * d) →
      Mesh2D.new N bw lat bidir false = .error Fault.assertion ∧
      KingMesh2D.new N bw lat bidir false = .error Fault.assertion) := by
  constructor
  · intro h
    have hsq := (isqrt_mul_self_iff N).mpr h
    obtain ⟨t, ht, _⟩ := Mesh2D_new_ok N bw lat bidir false hN hbw hlat (Or.inr hsq)
    obtain ⟨t', ht', _⟩ := KingMesh2D_new_ok N bw lat bidir false hN hbw hlat (Or.inr hsq)
    exact ⟨⟨t, ht⟩, ⟨t', ht'⟩⟩
  · intro h
    have hsq : isqrt N * isqrt N ≠ N := fun h' => h ((isqrt_mul_self_iff N).mp h')
    exact ⟨Mesh2D_new_not_square N bw lat bidir hN hbw hlat hsq,
      KingMesh2D_new_not_square N bw lat bidir hN hbw hlat hsq⟩

/-- Witness of C17 at `npus_count = 9` and at `npus_count = 8` (bandwidth 10, latency 1). -/
theorem mesh_construction_iff_perfect_square_witness :
    ((∃ t, Mesh2D.new 9 10 1 true false = .ok t) ∧
      (∃ t, KingMesh2D.new 9 10 1 true false = .ok t)) ∧
    (Mesh2D.new 8 10 1 true false = .error Fault.assertion ∧
      KingMesh2D.new 8 10 1 true false = .error Fault.assertion) :=
  ⟨(mesh_construction_iff_perfect_square 9 10 1 true (by decide) (by decide) (by decide)).1
      ⟨3, by decide⟩,
   (mesh_construction_iff_perfect_square 8 10 1 true (by decide) (by decide) (by decide)).2
      (fun h => absurd ((isqrt_mul_self_iff 8).mpr h) (by decide))⟩

/-- What a successful construction of a mesh implies about its parameters and state. -/
theorem Mesh2D_new_inv (N : Int) (bw lat : ℚ) (bidir multi : Bool) (t : Mesh2D)
    (h : Mesh2D.new N bw lat bidir multi = .ok t) :
    0 < N ∧ (multi = true ∨ isqrt N * isqrt N = N) ∧ t.base.HasCounts N N := by
  have hN : 0 < N := by
    by_contra hc
    simp only [Mesh2D.new] at h
    rw [assert_of_false (by exact hc)] at h
    exact Except.noConfusion h
  have hbw : 0 < bw := by
    by_contra hc
    simp only [Mesh2D.new] at h
    rw [assert_of_true (by exact hN), assert_of_false (by exact hc)] at h
    exact Except.noConfusion h
  have hlat : 0 ≤ lat := by
    by_contra hc
    simp only [Mesh2D.new] at h
    rw [assert_of_true (by exact hN), assert_of_true (by exact hbw),
      assert_of_false (by exact hc)] at h
    exact Except.noConfusion h
  have hsq : multi = true ∨ isqrt N * isqrt N = N := by
    cases multi with
    | true => exact Or.inl rfl
    | false =>
      right
      by_contra hc
      rw [Mesh2D_new_not_square N bw lat bidir hN hbw hlat hc] at h
      exact Except.noConfusion h
  obtain ⟨t', ht', hc', _⟩ := Mesh2D_new_ok N bw lat bidir multi hN hbw hlat hsq
  rw [h] at ht'
  have : t = t' := by injection ht'
  subst this
  exact ⟨hN, hsq, hc'⟩

/-- What a successful construction of a king mesh implies about its parameters and state. -/
theorem KingMesh2D_new_inv (N : Int) (bw lat : ℚ) (bidir multi : Bool) (t : KingMesh2D)
    (h : KingMesh2D.new N bw lat bidir multi = .ok t) :
    0 < N ∧ (multi = true ∨ isqrt N * isqrt N = N) ∧ t.base.HasCounts N N := by
  have hN : 0 < N := by
    by_contra hc
    simp only [KingMesh2D.new] at h
    rw [assert_of_false (by exact hc)] at h
    exact Except.noConfusion h
  have hbw : 0 < bw := by
    by_contra hc
    simp only [KingMesh2D.new] at h
    rw [assert_of_true (by exact hN), assert_of_false (by exact hc)] at h
    exact Except.noConfusion h
  have hlat : 0 ≤ lat := by
    by_contra hc
    simp only [KingMesh2D.new] at h
    rw [assert_of_true (by exact hN), assert_of_true (by exact hbw),
      assert_of_false (by exact hc)] at h
    exact Except.noConfusion h
  have hsq : multi = true ∨ isqrt N * isqrt N = N := by
    cases multi with
    | true => exact Or.inl rfl
    | false =>
      right
      by_contra hc
      rw [KingMesh2D_new_not_square N bw lat bidir hN hbw hlat hc] at h
      exact Except.noConfusion h
  obtain ⟨t', ht', hc', _⟩ := KingMesh2D_new_ok N bw lat bidir multi hN hbw hlat hsq
  rw [h] at ht'
  have : t = t' := by injection ht'
  subst this
  exact ⟨hN, hsq, hc'⟩

/-- On an instance whose `npus_count` is not a perfect square, `Mesh2D::route` ends at the
assertion `dim * dim == npus_count`. -/
theorem Mesh2D_route_not_square (t : Mesh2D) (fuel : Nat) (src dest : Int)
    (hsq : isqrt t.base.npus_count * isqrt t.base.npus_count ≠ t.base.npus_count) :
    t.route fuel src dest = .error Fault.assertion := by
  by_cases h : (0 ≤ src ∧ src < t.base.npus_count) ∧ (0 ≤ dest ∧ dest < t.base.npus_count)
  · simp only [Mesh2D.route]
    rw [assert_of_true h.1, assert_of_true h.2]
    simp only [ok_bind]
    rw [assert_of_false hsq]
    rfl
  · exact Mesh2D_route_out_of_range t fuel src dest (by
      by_cases h1 : 0 ≤ src ∧ src < t.base.npus_count
      · exact Or.inr (fun h2 => h ⟨h1, h2⟩)
      · exact Or.inl h1)

theorem KingMesh2D_route_not_square (t : KingMesh2D) (fuel : Nat) (src dest : Int)
    (hsq : isqrt t.base.npus_count * isqrt t.base.npus_count ≠ t.base.npus_count) :
    t.route fuel src dest = .error Fault.assertion := by
  by_cases h : (0 ≤ src ∧ src < t.base.npus_count) ∧ (0 ≤ dest ∧ dest < t.base.npus_count)
  · simp only [KingMesh2D.route]
    rw [assert_of_true h.1, assert_of_true h.2]
    simp only [ok_bind]
    rw [assert_of_false hsq]
    rfl
  · exact KingMesh2D_route_out_of_range t fuel src dest (by
      by_cases h1 : 0 ≤ src ∧ src < t.base.npus_count
      · exact Or.inr (fun h2 => h ⟨h1, h2⟩)
      · exact Or.inl h1)

theorem Mesh2D_policies_not_square (t : Mesh2D)
    (hsq : isqrt t.base.npus_count * isqrt t.base.npus_count ≠ t.base.npus_count) :
    t.get_connection_policies = .error Fault.assertion := by
  simp only [Mesh2D.get_connection_policies]
  rw [assert_of_false hsq]
  rfl

theorem KingMesh2D_policies_not_square (t : KingMesh2D)
    (hsq : isqrt t.base.npus_count * isqrt t.base.npus_count ≠ t.base.npus_count) :
    t.get_connection_policies = .error Fault.assertion := by
  simp only [KingMesh2D.get_connection_policies]
  rw [assert_of_false hsq]
  rfl

theorem Mesh2D_policies_square (t : Mesh2D)
    (hsq : isqrt t.base.npus_count * isqrt t.base.npus_count = t.base.npus_count) :
    ∃ ps, t.get_connection_policies = .ok ps := by
  simp only [Mesh2D.get_connection_policies]
  rw [assert_of_true hsq]
  exact ⟨_, rfl⟩

theorem KingMesh2D_policies_square (t : KingMesh2D)
    (hsq : isqrt t.base.npus_count * isqrt t.base.npus_count = t.base.npus_count) :
    ∃ ps, t.get_connection_policies = .ok ps := by
  simp only [KingMesh2D.get_connection_policies]
  rw [assert_of_true hsq]
  exact ⟨_, rfl⟩

/-- C18 (as stated, refuted): the mesh built with `is_multi_dim = true` for `npus_count = 2`
is constructed, yet `get_connection_policies` and `route(0, 1)` end at the assertion
`dim * dim == npus_count`; the same holds for the king mesh. -/
theorem mesh_multi_dim_defers_rejection :
    (∃ t, Mesh2D.new 2 1 0 true true = .ok t ∧
      t.get_connection_policies = .error Fault.assertion ∧
      ∀ fuel, t.route fuel 0 1 = .error Fault.assertion) ∧
    (∃ t, KingMesh2D.new 2 1 0 true true = .ok t ∧
      t.get_connection_policies = .error Fault.assertion ∧
      ∀ fuel, t.route fuel 0 1 = .error Fault.assertion) := by
  obtain ⟨t, ht, hc, _⟩ := Mesh2D_new_ok 2 1 0 true true (by decide) (by decide) (by decide)
    (Or.inl rfl)
  obtain ⟨t', ht', hc', _⟩ := KingMesh2D_new_ok 2 1 0 true true (by decide) (by decide)
    (by decide) (Or.inl rfl)
  have h2 : isqrt 2 * isqrt 2 ≠ 2 := by decide
  exact ⟨⟨t, ht, Mesh2D_policies_not_square t (by rw [hc.1]; exact h2),
      fun fuel => Mesh2D_route_not_square t fuel 0 1 (by rw [hc.1]; exact h2)⟩,
    ⟨t', ht', KingMesh2D_policies_not_square t' (by rw [hc'.1]; exact h2),
      fun fuel => KingMesh2D_route_not_square t' fuel 0 1 (by rw [hc'.1]; exact h2)⟩⟩

/-- C18 (amended): every standalone Mesh2D or KingMesh2D instance whose construction
succeeded has a perfect-square `npus_count`; and for every instance whose construction
succeeded (standalone or built with `is_multi_dim = true`) and whose `npus_count` is a perfect
square `d * d`, `get_connection_policies` returns a list and `route(src, dest)` with `src`,
`dest` in `[0, npus_count)` returns a route. -/
theorem mesh_calls_succeed_on_perfect_square :
    (∀ (N : Int) (bw lat : ℚ) (bidir multi : Bool) (t : Mesh2D),
      Mesh2D.new N bw lat bidir multi = .ok t →
      (multi = false → ∃ d : Nat, N = (d : Int) * d) ∧
      (∀ d : Nat, N = (d : Int) * d →
        (∃ ps, t.get_connection_policies = .ok ps) ∧
        ∀ (src dest : Int) (fuel : Nat), (0 ≤ src ∧ src < N) → (0 ≤ dest ∧ dest < N) →
          d ≤ fuel → ∃ r, t.route fuel src dest = .ok r)) ∧
    (∀ (N : Int) (bw lat : ℚ) (bidir multi : Bool) (t : KingMesh2D),
      KingMesh2D.new N bw lat bidir multi = .ok t →
      (multi = false → ∃ d : Nat, N = (d : Int) * d) ∧
      (∀ d : Nat, N = (d : Int) * d →
        (∃ ps, t.get_connection_policies = .ok ps) ∧
        ∀ (src dest : Int) (fuel : Nat), (0 ≤ src ∧ src < N) → (0 ≤ dest ∧ dest < N) →
          d ≤ fuel → ∃ r, t.route fuel src dest = .ok r)) := by
  constructor
  · intro N bw lat bidir multi t ht
    obtain ⟨_, hsq, hc⟩ := Mesh2D_new_inv N bw lat bidir multi t ht
    constructor
    · intro hm
      rcases hsq with h | h
      · rw [hm] at h; exact absurd h (by decide)
      · exact (isqrt_mul_self_iff N).mp h
    · rintro d rfl
      refine ⟨Mesh2D_policies_square t (by rw [hc.1, isqrt_sq]), ?_⟩
      intro src dest fuel hsrc hdest hfuel
      exact ⟨_, Mesh2D_route_eq t d hc src dest hsrc hdest fuel hfuel⟩
  · intro N bw lat bidir multi t ht
    obtain ⟨_, hsq, hc⟩ := KingMesh2D_new_inv N bw lat bidir multi t ht
    constructor
    · intro hm
      rcases hsq with h | h
      · rw [hm] at h; exact absurd h (by decide)
      · exact (isqrt_mul_self_iff N).mp h
    · rintro d rfl
      refine ⟨KingMesh2D_policies_square t (by rw [hc.1, isqrt_sq]), ?_⟩
      intro src dest fuel hsrc hdest hfuel
      obtain ⟨r, hr, _⟩ := KingMesh2D.route_spec t d hc src dest hsrc hdest fuel hfuel
      exact ⟨r, hr⟩

/-- Witness of the amended C18: the multi-dim mesh with 4 endpoints and the standalone king
mesh with 4 endpoints answer both calls. -/
theorem mesh_calls_succeed_on_perfect_square_witness :
    (∃ t, Mesh2D.new 4 1 0 true true = .ok t ∧
      (∃ ps, t.get_connection_policies = .ok ps) ∧ ∃ r, t.route 2 3 0 = .ok r) ∧
    (∃ t, KingMesh2D.new 4 1 0 false false = .ok t ∧
      (∃ ps, t.get_connection_policies = .ok ps) ∧ ∃ r, t.route 2 3 0 = .ok r) := by
  obtain ⟨t, ht, _⟩ := Mesh2D_new_ok 4 1 0 true true (by decide) (by decide) (by decide)
    (Or.inl rfl)
  obtain ⟨t', ht', _⟩ := KingMesh2D_new_ok 4 1 0 false false (by decide) (by decide)
    (by decide) (Or.inr (by decide))
  have h1 := (mesh_calls_succeed_on_perfect_square.1 4 1 0 true true t ht).2 2 (by decide)
  have h2 := (mesh_calls_succeed_on_perfect_square.2 4 1 0 false false t' ht').2 2
    (by decide)
  exact ⟨⟨t, ht, h1.1, h1.2 3 0 2 (by decide) (by decide) (by decide)⟩,
    ⟨t', ht', h2.1, h2.2 3 0 2 (by decide) (by decide) (by decide)⟩⟩

/-! ## HyperCube: policies and links -/

/-- The number of bit positions the constructor scans on a cube with `2 ^ k` endpoints. -/
theorem ceilLog2_two_pow (k : Nat) : ceilLog2 ((2 : Int) ^ k) = (k : Int) := by
  unfold ceilLog2
  cases k with
  | zero => simp
  | succ k =>
    have h1 : ¬ (2 : Int) ^ (k + 1) ≤ 1 := by
      have : (1 : Int) ≤ 2 ^ k := one_le_pow₀ (by decide)
      rw [pow_succ]; omega
    rw [if_neg h1]
    unfold floorLog2
    have h2 : ((2 : Int) ^ (k + 1) - 1).toNat = 2 ^ (k + 1) - 1 := by
      have : (2 : Int) ^ (k + 1) - 1 = ((2 ^ (k + 1) - 1 : Nat) : Int) := by
        have := Nat.one_le_two_pow (n := k + 1)
        push_cast [Nat.cast_sub this]; rfl
      rw [this]; exact Int.toNat_natCast _
    rw [h2, floorLog2Aux_eq_log _ _ le_rfl,
      Nat.log_eq_of_pow_le_of_lt_pow (m := k) (by
        have := Nat.one_le_two_pow (n := k)
        rw [pow_succ]; omega) (by
        have := Nat.one_le_two_pow (n := k + 1)
        omega)]
    push_cast; rfl

theorem linksOf_toPolicy (a b : Int) (bw lat : ℚ) (bidir : Bool) :
    (linksOf a b bw lat bidir).map Link.toPolicy =
      ConnectionPolicy.mk a b :: (if bidir = true then [ConnectionPolicy.mk b a] else []) := by
  cases bidir <;> rfl

/-- Every link recorded by the hypercube constructor joins two endpoints. -/
theorem HyperCube.bitLinks_range (n : Nat) (bw lat : ℚ) (bidir : Bool) (fl : List FaultyLink)
    (u : Nat) (d : Int) (hu : u < n) (l : Link)
    (hl : l ∈ HyperCube.bitLinks (n : Int) bw lat bidir fl u d) :
    (0 ≤ l.src ∧ l.src < (n : Int)) ∧ (0 ≤ l.dst ∧ l.dst < (n : Int)) := by
  unfold HyperCube.bitLinks at hl
  split_ifs at hl with hv
  · have h0 : 0 ≤ Int.xor (u : Int) (shl1 d) := by
      rw [xor_shl1_natCast]; exact Int.natCast_nonneg _
    have hu' : (0 : Int) ≤ u ∧ (u : Int) < n := ⟨Int.natCast_nonneg _, by exact_mod_cast hu⟩
    unfold linksOf at hl
    split_ifs at hl
    · simp only [List.mem_cons, List.mem_singleton, List.not_mem_nil, or_false] at hl
      rcases hl with rfl | rfl
      · exact ⟨hu', h0, hv⟩
      · exact ⟨⟨h0, hv⟩, hu'⟩
    · simp only [List.mem_singleton] at hl
      subst hl
      exact ⟨hu', h0, hv⟩
  · simp at hl

theorem mem_map_toPolicy (links : List Link) (u v : Int) :
    ConnectionPolicy.mk u v ∈ links.map Link.toPolicy ↔
      ∃ l ∈ links, l.src = u ∧ l.dst = v := by
  simp only [List.mem_map, Link.toPolicy, ConnectionPolicy.mk.injEq]

theorem mem_linksOf (a b : Int) (bw lat : ℚ) (bidir : Bool) (l : Link) :
    l ∈ linksOf a b bw lat bidir ↔
      l = Link.mk a b bw lat ∨ (bidir = true ∧ l = Link.mk b a bw lat) := by
  cases bidir <;> simp [linksOf]

/-! ## Routes follow recorded links -/

theorem mem_gridFlatMap_of {α : Type} (d : Nat) (cell : Int → Int → List α) (row col : Int)
    (hrow : 0 ≤ row ∧ row < d) (hcol : 0 ≤ col ∧ col < d) (x : α) (hx : x ∈ cell row col) :
    x ∈ gridFlatMap d cell := by
  obtain ⟨r, rfl⟩ := Int.eq_ofNat_of_zero_le hrow.1
  obtain ⟨c, rfl⟩ := Int.eq_ofNat_of_zero_le hcol.1
  simp only [gridFlatMap, List.mem_flatMap, List.mem_range]
  exact ⟨r, by omega, c, by omega, hx⟩

theorem mem_gridFlatMap {α : Type} (d : Nat) (cell : Int → Int → List α) (x : α)
    (hx : x ∈ gridFlatMap d cell) :
    ∃ row col : Int, (0 ≤ row ∧ row < d) ∧ (0 ≤ col ∧ col < d) ∧ x ∈ cell row col := by
  simp only [gridFlatMap, List.mem_flatMap, List.mem_range] at hx
  obtain ⟨r, hr, c, hc, hx⟩ := hx
  exact ⟨r, c, ⟨by omega, by omega⟩, ⟨by omega, by omega⟩, hx⟩

/-- The links a mesh cell records toward its right or down neighbour. -/
theorem Mesh2D_cellLinks_step (d : Int) (bw lat : ℚ) (bidir : Bool) (row col sy sx : Int)
    (hdir : (sy = 0 ∧ sx = 1) ∨ (sy = 1 ∧ sx = 0))
    (hr : row + sy < d) (hc : col + sx < d) :
    Link.mk (row * d + col) ((row + sy) * d + (col + sx)) bw lat ∈
        Mesh2D.cellLinks d bw lat bidir row col ∧
      (bidir = true → Link.mk ((row + sy) * d + (col + sx)) (row * d + col) bw lat ∈
        Mesh2D.cellLinks d bw lat bidir row col) := by
  rcases hdir with ⟨rfl, rfl⟩ | ⟨rfl, rfl⟩
  · simp only [add_zero] at hr ⊢
    cases bidir <;> simp [Mesh2D.cellLinks, mem_linksOf, hc]
  · simp only [add_zero] at hc ⊢
    cases bidir <;> simp [Mesh2D.cellLinks, mem_linksOf, hr]

/-- The links a king-mesh cell records toward its right, down, down-right or down-left
neighbour. -/
theorem KingMesh2D_cellLinks_step (d : Int) (bw lat : ℚ) (bidir : Bool) (row col sy sx : Int)
    (hdir : (sy = 0 ∧ sx = 1) ∨ (sy = 1 ∧ (sx = 0 ∨ sx = 1 ∨ sx = -1)))
    (hr : row + sy < d) (hc : 0 ≤ col + sx ∧ col + sx < d) :
    Link.mk (row * d + col) ((row + sy) * d + (col + sx)) bw lat ∈
        KingMesh2D.cellLinks d bw lat bidir row col ∧
      (bidir = true → Link.mk ((row + sy) * d + (col + sx)) (row * d + col) bw lat ∈
        KingMesh2D.cellLinks d bw lat bidir row col) := by
  rcases hdir with ⟨rfl, rfl⟩ | ⟨rfl, rfl | rfl | rfl⟩
  · simp only [add_zero] at hr ⊢
    cases bidir <;> simp [KingMesh2D.cellLinks, mem_linksOf, hc.2]
  · simp only [add_zero] at hc ⊢
    cases bidir <;> simp [KingMesh2D.cellLinks, mem_linksOf, hr]
  · cases bidir <;> simp [KingMesh2D.cellLinks, mem_linksOf, hr, hc.2]
  · have h0 : 0 < col := by omega
    have e : col + -1 = col - 1 := by ring
    rw [e]
    cases bidir <;> simp [KingMesh2D.cellLinks, mem_linksOf, hr, h0]

/-- On a standalone mesh, a hop to the right or down neighbour follows a recorded link, and
so does a hop to the left or up neighbour when the mesh is bidirectional. -/
theorem Mesh2D_step_link (d : Nat) (bw lat : ℚ) (bidir : Bool) (links : List Link)
    (hl : links = gridFlatMap d (Mesh2D.cellLinks d bw lat bidir))
    (row col sy sx : Int) (hrow : 0 ≤ row ∧ row < d) (hcol : 0 ≤ col ∧ col < d)
    (hrow2 : 0 ≤ row + sy ∧ row + sy < d) (hcol2 : 0 ≤ col + sx ∧ col + sx < d)
    (hs : (sy = 0 ∧ (sx = 1 ∨ sx = -1)) ∨ (sx = 0 ∧ (sy = 1 ∨ sy = -1)))
    (hdir : bidir = true ∨ (0 ≤ sy ∧ 0 ≤ sx)) :
    ∃ l ∈ links, l.src = row * d + col ∧ l.dst = (row + sy) * d + (col + sx) := by
  subst hl
  by_cases hf : (sy = 0 ∧ sx = 1) ∨ (sy = 1 ∧ sx = 0)
  · exact ⟨_, mem_gridFlatMap_of d _ row col hrow hcol _
      (Mesh2D_cellLinks_step d bw lat bidir row col sy sx hf hrow2.2 hcol2.2).1, rfl, rfl⟩
  · have hb : (-sy = 0 ∧ -sx = 1) ∨ (-sy = 1 ∧ -sx = 0) := by omega
    have hbi : bidir = true := by
      rcases hdir with h | h
      · exact h
      · omega
    have h := (Mesh2D_cellLinks_step d bw lat bidir (row + sy) (col + sx) (-sy) (-sx) hb
      (by omega) (by omega)).2 hbi
    have e1 : row + sy + -sy = row := by ring
    have e2 : col + sx + -sx = col := by ring
    rw [e1, e2] at h
    exact ⟨_, mem_gridFlatMap_of d _ _ _ hrow2 hcol2 _ h, rfl, rfl⟩

theorem chain_map_range {α : Type} (R : α → α → Prop) (f : Nat → α) (n : Nat)
    (h : ∀ i, i + 1 < n → R (f i) (f (i + 1))) : ((List.range n).map f).Chain' R := by
  cases n with
  | zero => simp
  | succ n =>
    rw [List.chain'_map, List.chain'_range_succ]
    intro m hm
    exact h m (by omega)

/-- Walking from `a` toward `b` one unit at a time stays between the two. -/
theorem sign_walk (lo hi a b : Int) (m : Nat) (ha : lo ≤ a ∧ a < hi) (hb : lo ≤ b ∧ b < hi)
    (hm : m ≤ (b - a).natAbs) :
    lo ≤ a + Int.sign (b - a) * (m : Int) ∧ a + Int.sign (b - a) * (m : Int) < hi := by
  rcases lt_trichotomy (b - a) 0 with h | h | h
  · rw [Int.sign_eq_neg_one_of_neg h]; omega
  · rw [h]; simp; exact ha
  · rw [Int.sign_eq_one_of_pos h]; omega

theorem sign_bounds (a : Int) : -1 ≤ Int.sign a ∧ Int.sign a ≤ 1 ∧ (0 ≤ a → 0 ≤ Int.sign a) ∧
    (a ≠ 0 → Int.sign a = 1 ∨ Int.sign a = -1) := by
  rcases lt_trichotomy a 0 with h | h | h
  · rw [Int.sign_eq_neg_one_of_neg h]; omega
  · subst h; simp
  · rw [Int.sign_eq_one_of_pos h]; omega

theorem max_pred (a b n : Nat) (h : max a b = n + 1) : max (a - 1) (b - 1) = n := by
  omega

theorem sign_step_le (a t : Int) (h : a ≤ t) : a + Int.sign (t - a) ≤ t := by
  rcases eq_or_lt_of_le h with h0 | h0
  · subst h0; simp
  · rw [Int.sign_eq_one_of_pos (by omega)]; omega

/-- Consecutive cells of the dimension-order path are one step apart along one axis, in the
direction of the destination. -/
theorem xFirstPath_chain (d : Nat) (R : Int → Int → Prop) (P : Prop) (src dest : Int)
    (hsrc : 0 ≤ src ∧ src < (d : Int) * d) (hdest : 0 ≤ dest ∧ dest < (d : Int) * d)
    (hdir : P ∨ (src % (d : Int) ≤ dest % (d : Int) ∧ src / (d : Int) ≤ dest / (d : Int)))
    (hR : ∀ row col sy sx : Int, (0 ≤ row ∧ row < d) → (0 ≤ col ∧ col < d) →
      (0 ≤ row + sy ∧ row + sy < d) → (0 ≤ col + sx ∧ col + sx < d) →
      ((sy = 0 ∧ (sx = 1 ∨ sx = -1)) ∨ (sx = 0 ∧ (sy = 1 ∨ sy = -1))) →
      (P ∨ (0 ≤ sy ∧ 0 ≤ sx)) → R (row * d + col) ((row + sy) * d + (col + sx))) :
    (xFirstPath d src dest).Chain' R := by
  obtain ⟨_, _, hsx, hsy, _⟩ := grid_coords d src hsrc
  obtain ⟨_, _, htx, hty, _⟩ := grid_coords d dest hdest
  obtain ⟨bx1, bx2, bx3, bx4⟩ := sign_bounds (dest % (d : Int) - src % (d : Int))
  obtain ⟨by1, by2, by3, by4⟩ := sign_bounds (dest / (d : Int) - src / (d : Int))
  have hx : src % (d : Int) + (dest % (d : Int) - src % (d : Int)).sign *
      ((dest % (d : Int) - src % (d : Int)).natAbs : Int) = dest % (d : Int) := by
    rw [Int.sign_mul_natAbs]; ring
  simp only [xFirstPath]
  apply List.Chain'.append
  · apply chain_map_range
    intro i hi
    have h1 := sign_walk 0 d _ _ i hsx htx (by omega)
    have h2 := sign_walk 0 d _ _ (i + 1) hsx htx (by omega)
    have hne : dest % (d : Int) - src % (d : Int) ≠ 0 := by
      intro h; rw [h] at hi; simp at hi
    have e : src / (d : Int) * d + (src % (d : Int) +
        (dest % (d : Int) - src % (d : Int)).sign * ((i + 1 : Nat) : Int)) =
        (src / (d : Int) + 0) * d + ((src % (d : Int) +
        (dest % (d : Int) - src % (d : Int)).sign * (i : Int)) +
        (dest % (d : Int) - src % (d : Int)).sign) := by
      push_cast; ring
    rw [e]
    refine hR _ _ 0 _ hsy h1 (by simpa using hsy) ?_ (Or.inl ⟨rfl, bx4 hne⟩) ?_
    · have e2 : src % (d : Int) + (dest % (d : Int) - src % (d : Int)).sign * (i : Int) +
          (dest % (d : Int) - src % (d : Int)).sign = src % (d : Int) +
          (dest % (d : Int) - src % (d : Int)).sign * ((i + 1 : Nat) : Int) := by
        push_cast; ring
      rw [e2]; exact h2
    · rcases hdir with h | h
      · exact Or.inl h
      · exact Or.inr ⟨le_refl _, bx3 (by omega)⟩
  · apply chain_map_range
    intro i hi
    have h1 := sign_walk 0 d _ _ (i + 1) hsy hty (by omega)
    have h2 := sign_walk 0 d _ _ (i + 1 + 1) hsy hty (by omega)
    have hne : dest / (d : Int) - src / (d : Int) ≠ 0 := by
      intro h; rw [h] at hi; simp at hi
    have e : (src / (d : Int) + (dest / (d : Int) - src / (d : Int)).sign *
        (((i + 1 : Nat) : Int) + 1)) * d + dest % (d : Int) =
        ((src / (d : Int) + (dest / (d : Int) - src / (d : Int)).sign * ((i : Int) + 1)) +
        (dest / (d : Int) - src / (d : Int)).sign) * d + (dest % (d : Int) + 0) := by
      push_cast; ring
    rw [e]
    have h1' : 0 ≤ src / (d : Int) + (dest / (d : Int) - src / (d : Int)).sign *
        ((i : Int) + 1) ∧ src / (d : Int) + (dest / (d : Int) - src / (d : Int)).sign *
        ((i : Int) + 1) < d := by
      have := h1; push_cast at this; exact this
    refine hR _ _ _ 0 h1' htx ?_ (by simpa using htx) (Or.inr ⟨rfl, by4 hne⟩) ?_
    · have e2 : src / (d : Int) + (dest / (d : Int) - src / (d : Int)).sign *
          ((i : Int) + 1) + (dest / (d : Int) - src / (d : Int)).sign = src / (d : Int) +
          (dest / (d : Int) - src / (d : Int)).sign * ((i + 1 + 1 : Nat) : Int) := by
        push_cast; ring
      rw [e2]; exact h2
    · rcases hdir with h | h
      · exact Or.inl h
      · exact Or.inr ⟨by3 (by omega), le_refl _⟩
  · intro x hxm y hym
    rw [List.range_succ, List.map_append, List.map_singleton, List.getLast?_concat, hx] at hxm
    rcases Nat.eq_zero_or_pos (dest / (d : Int) - src / (d : Int)).natAbs with h0 | hpos
    · rw [h0] at hym; simp at hym
    · have hne : dest / (d : Int) - src / (d : Int) ≠ 0 := by
        intro h; rw [h] at hpos; simp at hpos
      rw [List.head?_map, List.head?_range, if_neg (by omega)] at hym
      simp only [Option.map_some', Option.mem_def, Option.some.injEq] at hxm hym
      subst hxm hym
      have h2 := sign_walk 0 d _ _ 1 hsy hty (by omega)
      have e : (src / (d : Int) + (dest / (d : Int) - src / (d : Int)).sign *
          (((0 : Nat) : Int) + 1)) * (d : Int) + dest % (d : Int) =
          (src / (d : Int) + (dest / (d : Int) - src / (d : Int)).sign) * d +
          (dest % (d : Int) + 0) := by
        push_cast; ring
      rw [e]
      refine hR _ _ _ 0 hsy htx ?_ (by simpa using htx) (Or.inr ⟨rfl, by4 hne⟩) ?_
      · simpa using h2
      · rcases hdir with h | h
        · exact Or.inl h
        · exact Or.inr ⟨by3 (by omega), le_refl _⟩

theorem list_eq_pair {α : Type} (r : List α) (a b : α) (hlen : r.length = 2)
    (hh : r.head? = some a) (hl : r.getLast? = some b) : r = [a, b] := by
  match r, hlen, hh, hl with
  | [x, y], _, hh, hl =>
    simp only [List.head?_cons, Option.some.injEq] at hh
    simp only [List.getLast?_cons_cons, List.getLast?_singleton, Option.some.injEq] at hl
    rw [hh, hl]

/-- C14 (as stated, refuted): on the standalone unidirectional 2 × 2 Mesh2D and KingMesh2D,
`route(1, 0)` is `[1, 0]`, and the constructor recorded no link from 1 to 0 (it recorded the
link from 0 to 1). -/
theorem mesh_unidirectional_route_without_link :
    (∃ t, Mesh2D.new 4 1 0 false false = .ok t ∧ t.route 2 1 0 = .ok [1, 0] ∧
      (¬ ∃ l ∈ t.base.links, l.src = 1 ∧ l.dst = 0) ∧
      ∃ l ∈ t.base.links, l.src = 0 ∧ l.dst = 1) ∧
    (∃ t, KingMesh2D.new 4 1 0 false false = .ok t ∧ t.route 2 1 0 = .ok [1, 0] ∧
      (¬ ∃ l ∈ t.base.links, l.src = 1 ∧ l.dst = 0) ∧
      ∃ l ∈ t.base.links, l.src = 0 ∧ l.dst = 1) := by
  have e : ((2 : Nat) : Int) * ((2 : Nat) : Int) = 4 := by decide
  constructor
  · obtain ⟨t, ht, hc, _, hl⟩ := Mesh2D_new_standalone 2 (by decide) 1 0 false (by decide)
      (by decide)
    rw [e] at ht
    refine ⟨t, ht, ?_, ?_, ?_⟩
    · rw [Mesh2D_route_eq t 2 hc 1 0 (by decide) (by decide) 2 (by decide)]
      decide
    · rw [hl]; decide
    · rw [hl]; decide
  · obtain ⟨t, ht, hc, _, hl⟩ := KingMesh2D_new_standalone 2 (by decide) 1 0 false (by decide)
      (by decide)
    rw [e] at ht
    refine ⟨t, ht, ?_, ?_, ?_⟩
    · obtain ⟨r, hr, hhead, hlast, hlen⟩ := KingMesh2D.route_spec t 2 hc 1 0 (by decide)
        (by decide) 2 (by decide)
      rw [hr, list_eq_pair r 1 0 (by rw [hlen]; decide) hhead hlast]
    · rw [hl]; decide
    · rw [hl]; decide

/-! ## KingMesh2D: connection policies -/

/-- The loop `for (i = lo; i < hi; i++) acc += f i` with `n` iterations. -/
theorem forEach_append_from {α : Type} (body : Int → List α → List α) (f : Int → List α)
    (hbody : ∀ i acc, body i acc = acc ++ f i) (lo hi : Int) (n : Nat)
    (hn : (hi - lo).toNat = n) (acc : List α) :
    forEach lo hi body acc = acc ++ (List.range n).flatMap (fun k : Nat => f (lo + (k : Int))) := by
  unfold forEach
  rw [hn, forEachAux_append body f hbody]

/-- The 8-neighbourhood enumeration in closed form: cells in row-major order, each
contributing its neighbours row by row. -/
theorem KingMesh2D.neighbourPass_eq (d : Nat) (acc : List ConnectionPolicy) :
    KingMesh2D.neighbourPass (d : Int) acc = acc ++ (List.range d).flatMap (fun row : Nat =>
      (List.range d).flatMap (fun col : Nat => KingMesh2D.kingCell d row col)) := by
  unfold KingMesh2D.neighbourPass
  have h3 : ((2 : Int) - (-1)).toNat = 3 := by decide
  have hdx : ∀ (row col dy : Int) (acc : List ConnectionPolicy),
      forEach (-1) 2 (fun dx policies =>
        if dx = 0 ∧ dy = 0 then policies
        else
          if row + dy ≥ 0 ∧ row + dy < (d : Int) ∧ col + dx ≥ 0 ∧ col + dx < (d : Int) then
            policies ++ [ConnectionPolicy.mk (row * d + col) ((row + dy) * d + (col + dx))]
          else policies) acc =
      acc ++ (List.range 3).flatMap (fun i : Nat =>
        KingMesh2D.nbrPair d row col dy (-1 + (i : Int))) := by
    intro row col dy acc
    rw [forEach_append_from _ (fun dx => KingMesh2D.nbrPair d row col dy dx)
      (by
        intro dx acc
        by_cases h1 : dx = 0 ∧ dy = 0 <;>
        by_cases h2 : row + dy ≥ 0 ∧ row + dy < (d : Int) ∧ col + dx ≥ 0 ∧ col + dx < (d : Int) <;>
          simp [KingMesh2D.nbrPair, h1, h2])
      (-1) 2 3 h3]
  have hdy : ∀ (row col : Int) (acc : List ConnectionPolicy),
      forEach (-1) 2 (fun dy policies =>
        forEach (-1) 2 (fun dx policies =>
          if dx = 0 ∧ dy = 0 then policies
          else
            if row + dy ≥ 0 ∧ row + dy < (d : Int) ∧ col + dx ≥ 0 ∧ col + dx < (d : Int) then
              policies ++ [ConnectionPolicy.mk (row * d + col) ((row + dy) * d + (col + dx))]
            else policies) policies) acc =
      acc ++ KingMesh2D.kingCell d row col := by
    intro row col acc
    rw [forEach_append_from _ (fun dy => (List.range 3).flatMap (fun i : Nat =>
        KingMesh2D.nbrPair d row col dy (-1 + (i : Int))))
      (fun dy acc => hdx row col dy acc) (-1) 2 3 h3]
    rfl
  have hcol : ∀ (row : Int) (acc : List ConnectionPolicy),
      forEach 0 (d : Int) (fun col policies =>
        forEach (-1) 2 (fun dy policies =>
          forEach (-1) 2 (fun dx policies =>
            if dx = 0 ∧ dy = 0 then policies
            else
              if row + dy ≥ 0 ∧ row + dy < (d : Int) ∧ col + dx ≥ 0 ∧ col + dx < (d : Int) then
                policies ++ [ConnectionPolicy.mk (row * d + col) ((row + dy) * d + (col + dx))]
              else policies) policies) policies) acc =
      acc ++ (List.range d).flatMap (fun col : Nat => KingMesh2D.kingCell d row col) := by
    intro row acc
    rw [forEach_append _ (fun col => KingMesh2D.kingCell d row col)
      (fun col acc => hdy row col acc)]
  rw [forEach_append _ (fun row => (List.range d).flatMap (fun col : Nat =>
    KingMesh2D.kingCell d row col)) (fun row acc => hcol row acc)]

theorem KingMesh2D.mem_nbrPair (d row col dy dx : Int) (p : ConnectionPolicy) :
    p ∈ KingMesh2D.nbrPair d row col dy dx ↔
      ¬ (dx = 0 ∧ dy = 0) ∧ (row + dy ≥ 0 ∧ row + dy < d ∧ col + dx ≥ 0 ∧ col + dx < d) ∧
        p = ConnectionPolicy.mk (row * d + col) ((row + dy) * d + (col + dx)) := by
  by_cases h1 : dx = 0 ∧ dy = 0 <;>
  by_cases h2 : row + dy ≥ 0 ∧ row + dy < d ∧ col + dx ≥ 0 ∧ col + dx < d <;>
    simp [KingMesh2D.nbrPair, h1, h2]

theorem KingMesh2D.mem_kingCell (d row col : Int) (p : ConnectionPolicy) :
    p ∈ KingMesh2D.kingCell d row col ↔
      ∃ dy dx : Int, (-1 ≤ dy ∧ dy ≤ 1) ∧ (-1 ≤ dx ∧ dx ≤ 1) ∧ ¬ (dx = 0 ∧ dy = 0) ∧
        (0 ≤ row + dy ∧ row + dy < d) ∧ (0 ≤ col + dx ∧ col + dx < d) ∧
        p = ConnectionPolicy.mk (row * d + col) ((row + dy) * d + (col + dx)) := by
  simp only [KingMesh2D.kingCell, List.mem_flatMap, List.mem_range, KingMesh2D.mem_nbrPair]
  constructor
  · rintro ⟨j, hj, i, hi, h1, h2, h3⟩
    exact ⟨-1 + (j : Int), -1 + (i : Int), by omega, by omega, h1, ⟨h2.1, h2.2.1⟩,
      ⟨h2.2.2.1, h2.2.2.2⟩, h3⟩
  · rintro ⟨dy, dx, hdy, hdx, h1, h2, h3, h4⟩
    refine ⟨(dy + 1).toNat, by omega, (dx + 1).toNat, by omega, ?_⟩
    have ey : -1 + (((dy + 1).toNat : Nat) : Int) = dy := by omega
    have ex : -1 + (((dx + 1).toNat : Nat) : Int) = dx := by omega
    rw [ey, ex]
    exact ⟨h1, ⟨h2.1, h2.2, h3.1, h3.2⟩, h4⟩

theorem KingMesh2D.kingCell_src (d row col : Int) (p : ConnectionPolicy)
    (h : p ∈ KingMesh2D.kingCell d row col) : p.src = row * d + col := by
  obtain ⟨dy, dx, _, _, _, _, _, rfl⟩ := (KingMesh2D.mem_kingCell d row col p).mp h
  rfl

theorem KingMesh2D.nbrPair_nodup (d row col dy dx : Int) :
    (KingMesh2D.nbrPair d row col dy dx).Nodup := by
  unfold KingMesh2D.nbrPair
  split_ifs <;> simp

theorem KingMesh2D.kingCell_nodup (d row col : Int) :
    (KingMesh2D.kingCell d row col).Nodup := by
  unfold KingMesh2D.kingCell
  apply nodup_flatMap_of_disjoint _ _ (List.nodup_range 3)
  · intro j _
    apply nodup_flatMap_of_disjoint _ _ (List.nodup_range 3)
    · intro i _
      exact KingMesh2D.nbrPair_nodup _ _ _ _ _
    · intro i1 _ i2 _ hne x hx1 hx2
      obtain ⟨_, hb1, rfl⟩ := (KingMesh2D.mem_nbrPair _ _ _ _ _ _).mp hx1
      obtain ⟨_, hb2, e⟩ := (KingMesh2D.mem_nbrPair _ _ _ _ _ _).mp hx2
      have e2 := (ConnectionPolicy.mk.injEq _ _ _ _).mp e
      have := (row_major_inj d _ _ _ _ ⟨hb1.2.2.1, hb1.2.2.2⟩ ⟨hb2.2.2.1, hb2.2.2.2⟩ e2.2).2
      exact hne (by omega)
  · intro j1 _ j2 _ hne x hx1 hx2
    obtain ⟨i1, _, hx1⟩ := List.mem_flatMap.mp hx1
    obtain ⟨i2, _, hx2⟩ := List.mem_flatMap.mp hx2
    obtain ⟨_, hb1, rfl⟩ := (KingMesh2D.mem_nbrPair _ _ _ _ _ _).mp hx1
    obtain ⟨_, hb2, e⟩ := (KingMesh2D.mem_nbrPair _ _ _ _ _ _).mp hx2
    have e2 := (ConnectionPolicy.mk.injEq _ _ _ _).mp e
    have := (row_major_inj d _ _ _ _ ⟨hb1.2.2.1, hb1.2.2.2⟩ ⟨hb2.2.2.1, hb2.2.2.2⟩ e2.2).1
    exact hne (by omega)

theorem KingMesh2D.neighbourPass_nodup (d : Nat) :
    (KingMesh2D.neighbourPass (d : Int) []).Nodup := by
  rw [KingMesh2D.neighbourPass_eq, List.nil_append]
  exact grid_flatMap_nodup d (KingMesh2D.kingCell d) (KingMesh2D.kingCell_src d)
    (fun row col _ _ => KingMesh2D.kingCell_nodup d row col)

theorem max_abs_eq_one_iff (a b : Int) :
    max |a| |b| = 1 ↔ (-1 ≤ a ∧ a ≤ 1) ∧ (-1 ≤ b ∧ b ≤ 1) ∧ ¬ (b = 0 ∧ a = 0) := by
  rw [Int.abs_eq_natAbs, Int.abs_eq_natAbs]
  omega

/-- The enumeration consists of the ordered pairs of grid cells at Chebyshev distance 1. -/
theorem KingMesh2D.mem_neighbourPass (d : Nat) (p : ConnectionPolicy) :
    p ∈ KingMesh2D.neighbourPass (d : Int) [] ↔ KingMesh2D.IsKingPair d p := by
  rw [KingMesh2D.neighbourPass_eq, List.nil_append]
  simp only [List.mem_flatMap, List.mem_range, KingMesh2D.mem_kingCell, KingMesh2D.IsKingPair]
  constructor
  · rintro ⟨row, hrow, col, hcol, dy, dx, hdy, hdx, hne, h1, h2, rfl⟩
    refine ⟨row, col, row + dy, col + dx, by omega, by omega, h1, h2, ?_, rfl⟩
    rw [max_abs_eq_one_iff]
    exact ⟨by omega, by omega, by omega⟩
  · rintro ⟨r1, c1, r2, c2, h1, h2, h3, h4, hm, rfl⟩
    obtain ⟨r, rfl⟩ := Int.eq_ofNat_of_zero_le h1.1
    obtain ⟨c, rfl⟩ := Int.eq_ofNat_of_zero_le h2.1
    rw [max_abs_eq_one_iff] at hm
    refine ⟨r, by omega, c, by omega, r2 - r, c2 - c, hm.1, hm.2.1, hm.2.2, by omega, by omega,
      ?_⟩
    simp

theorem KingMesh2D.isKingPair_reversed (d : Int) (p : ConnectionPolicy)
    (h : KingMesh2D.IsKingPair d p) : KingMesh2D.IsKingPair d p.reversed := by
  obtain ⟨r1, c1, r2, c2, h1, h2, h3, h4, hm, rfl⟩ := h
  refine ⟨r2, c2, r1, c1, h3, h4, h1, h2, ?_, rfl⟩
  rw [abs_sub_comm r1 r2, abs_sub_comm c1 c2]
  exact hm

/-! ### Number of pairs -/

theorem KingMesh2D.nbrPair_length (d row col dy dx : Int) (h : ¬ (dx = 0 ∧ dy = 0)) :
    (KingMesh2D.nbrPair d row col dy dx).length =
      KingMesh2D.inGrid d (row + dy) * KingMesh2D.inGrid d (col + dx) := by
  unfold KingMesh2D.nbrPair KingMesh2D.inGrid
  rw [if_neg h]
  by_cases h1 : 0 ≤ row + dy ∧ row + dy < d <;> by_cases h2 : 0 ≤ col + dx ∧ col + dx < d
  · rw [if_pos ⟨h1.1, h1.2, h2.1, h2.2⟩, if_pos h1, if_pos h2]; rfl
  · rw [if_neg (fun h => h2 ⟨h.2.2.1, h.2.2.2⟩), if_pos h1, if_neg h2]; rfl
  · rw [if_neg (fun h => h1 ⟨h.1, h.2.1⟩), if_neg h1, if_pos h2]; rfl
  · rw [if_neg (fun h => h1 ⟨h.1, h.2.1⟩), if_neg h1, if_neg h2]; rfl

/-- A cell of the grid and its neighbours fill a block of `span row * span col` cells. -/
theorem KingMesh2D.kingCell_length (d row col : Int) (hrow : 0 ≤ row ∧ row < d)
    (hcol : 0 ≤ col ∧ col < d) :
    (KingMesh2D.kingCell d row col).length + 1 =
      KingMesh2D.span d row * KingMesh2D.span d col := by
  have hr3 : List.range 3 = [0, 1, 2] := rfl
  have e0 : (-1 : Int) + ((0 : Nat) : Int) = -1 := rfl
  have e1 : (-1 : Int) + ((1 : Nat) : Int) = 0 := rfl
  have e2 : (-1 : Int) + ((2 : Nat) : Int) = 1 := rfl
  have a0 : KingMesh2D.inGrid d (row + 0) = 1 := by
    rw [KingMesh2D.inGrid, if_pos (by omega)]
  have b0 : KingMesh2D.inGrid d (col + 0) = 1 := by
    rw [KingMesh2D.inGrid, if_pos (by omega)]
  have z : KingMesh2D.nbrPair d row col 0 0 = [] := by
    rw [KingMesh2D.nbrPair, if_pos ⟨rfl, rfl⟩]
  simp only [KingMesh2D.kingCell, hr3, List.flatMap_cons, List.flatMap_nil, List.append_nil,
    List.length_append, e0, e1, e2, z, List.length_nil]
  rw [KingMesh2D.nbrPair_length d row col (-1) (-1) (by decide),
    KingMesh2D.nbrPair_length d row col (-1) 0 (by decide),
    KingMesh2D.nbrPair_length d row col (-1) 1 (by decide),
    KingMesh2D.nbrPair_length d row col 0 (-1) (by decide),
    KingMesh2D.nbrPair_length d row col 0 1 (by decide),
    KingMesh2D.nbrPair_length d row col 1 (-1) (by decide),
    KingMesh2D.nbrPair_length d row col 1 0 (by decide),
    KingMesh2D.nbrPair_length d row col 1 1 (by decide)]
  simp only [KingMesh2D.span, a0, b0]
  ring

/-- The spans of the first `n` coordinates of a side of length `d`. -/
theorem KingMesh2D.span_sum (d : Nat) (hd : 1 ≤ d) : ∀ n, n ≤ d →
    ((List.range n).map (fun x : Nat => KingMesh2D.span d x)).sum +
      (if 1 ≤ n then 1 else 0) + (if d ≤ n then 1 else 0) = 3 * n := by
  intro n
  induction n with
  | zero =>
    intro h
    simp
    omega
  | succ n ih =>
    intro hn
    have ih2 := ih (by omega)
    rw [List.sum_range_succ]
    have hs : KingMesh2D.span d (n : Int) =
        (if 1 ≤ n then 1 else 0) + 1 + (if n + 1 < d then 1 else 0) := by
      unfold KingMesh2D.span KingMesh2D.inGrid
      split_ifs <;> omega
    rw [hs]
    rw [if_neg (by omega : ¬ d ≤ n)] at ih2
    split_ifs at ih2 ⊢ <;> omega

/-- Pairs contributed by the first `n` cells of a row. -/
theorem KingMesh2D.kingRow_length (d : Nat) (row : Nat) (hrow : row < d) : ∀ n, n ≤ d →
    ((List.range n).flatMap (fun col : Nat => KingMesh2D.kingCell d row col)).length + n =
      KingMesh2D.span d row * ((List.range n).map (fun x : Nat => KingMesh2D.span d x)).sum := by
  intro n
  induction n with
  | zero => intro _; simp
  | succ n ih =>
    intro hn
    have hc := KingMesh2D.kingCell_length d row n ⟨by omega, by omega⟩ ⟨by omega, by omega⟩
    rw [List.range_succ, List.flatMap_append, List.length_append, ← List.range_succ,
      List.sum_range_succ, mul_add, ← ih (by omega), ← hc]
    simp only [List.flatMap_cons, List.flatMap_nil, List.append_nil]
    ring

/-- Pairs contributed by the first `n` rows. -/
theorem KingMesh2D.kingRows_length (d : Nat) : ∀ n, n ≤ d →
    ((List.range n).flatMap (fun row : Nat => (List.range d).flatMap (fun col : Nat =>
      KingMesh2D.kingCell d row col))).length + n * d =
      ((List.range n).map (fun x : Nat => KingMesh2D.span d x)).sum *
        ((List.range d).map (fun x : Nat => KingMesh2D.span d x)).sum := by
  intro n
  induction n with
  | zero => intro _; simp
  | succ n ih =>
    intro hn
    have hr := KingMesh2D.kingRow_length d n (by omega) d le_rfl
    rw [List.range_succ, List.flatMap_append, List.length_append, ← List.range_succ,
      List.sum_range_succ, add_mul (List.sum _) _ _, ← ih (by omega), ← hr]
    simp only [List.flatMap_cons, List.flatMap_nil, List.append_nil]
    ring

/-- The enumeration has `4 (d - 1) (2 d - 1)` pairs. -/
theorem KingMesh2D.neighbourPass_length (d : Nat) (hd : 1 ≤ d) :
    (KingMesh2D.neighbourPass (d : Int) []).length = 4 * (d - 1) * (2 * d - 1) := by
  obtain ⟨e, rfl⟩ : ∃ e, d = e + 1 := ⟨d - 1, by omega⟩
  have hs := KingMesh2D.span_sum (e + 1) (by omega) (e + 1) le_rfl
  rw [if_pos (by omega), if_pos le_rfl] at hs
  have hs2 : ((List.range (e + 1)).map (fun x : Nat =>
      KingMesh2D.span ((e + 1 : Nat) : Int) x)).sum = 3 * e + 1 := by omega
  have hl := KingMesh2D.kingRows_length (e + 1) (e + 1) le_rfl
  rw [hs2] at hl
  rw [KingMesh2D.neighbourPass_eq, List.nil_append]
  have e1 : e + 1 - 1 = e := by omega
  have e2 : 2 * (e + 1) - 1 = 2 * e + 1 := by omega
  rw [e1, e2]
  have h3 : 4 * e * (2 * e + 1) + (e + 1) * (e + 1) = (3 * e + 1) * (3 * e + 1) := by ring
  exact Nat.add_right_cancel (hl.trans h3.symm)

/-! ### The returned list -/

theorem foldl_reversed_eq (l : List ConnectionPolicy) : ∀ acc : List ConnectionPolicy,
    l.foldl (fun reverse_policies p => reverse_policies ++ [ConnectionPolicy.mk p.dst p.src])
      acc = acc ++ l.map ConnectionPolicy.reversed := by
  induction l with
  | nil => intro acc; simp
  | cons a l ih =>
    intro acc
    rw [List.foldl_cons, ih, List.map_cons, List.append_assoc]
    rfl

/-- The value of `KingMesh2D::get_connection_policies` on a `d × d` instance. -/
theorem KingMesh2D_get_connection_policies_eq (t : KingMesh2D) (d : Nat)
    (ht : t.base.HasCounts ((d : Int) * d) ((d : Int) * d)) :
    t.get_connection_policies = .ok (KingMesh2D.neighbourPass (d : Int) [] ++
      (if t.bidirectional = true then
        (KingMesh2D.neighbourPass (d : Int) []).map ConnectionPolicy.reversed else [])) := by
  simp only [KingMesh2D.get_connection_policies]
  rw [ht.1, isqrt_sq, assert_of_true rfl]
  simp only [ok_bind, pure_eq_ok]
  split_ifs
  · rw [foldl_reversed_eq, List.nil_append]
  · rw [List.append_nil]

/-- C11: on a `d × d` KingMesh2D, `get_connection_policies` with `bidirectional = false`
returns the ordered pairs of grid cells at Chebyshev distance 1, each exactly once,
`4 (d - 1) (2 d - 1)` entries; with `bidirectional = true` it returns that same list followed
by a copy of it with `src` and `dst` exchanged, so the length doubles and every such ordered
pair occurs exactly twice. -/
theorem KingMesh2D_policies_eight_neighbours (d : Nat) (bw lat : ℚ) (multi : Bool)
    (hd : 1 ≤ d) (hbw : 0 < bw) (hlat : 0 ≤ lat) :
    ∃ tu tb, KingMesh2D.new ((d : Int) * d) bw lat false multi = .ok tu ∧
      KingMesh2D.new ((d : Int) * d) bw lat true multi = .ok tb ∧
      tu.get_connection_policies = .ok (KingMesh2D.neighbourPass (d : Int) []) ∧
      tb.get_connection_policies = .ok (KingMesh2D.neighbourPass (d : Int) [] ++
        (KingMesh2D.neighbourPass (d : Int) []).map ConnectionPolicy.reversed) ∧
      (∀ p, p ∈ KingMesh2D.neighbourPass (d : Int) [] ↔ KingMesh2D.IsKingPair d p) ∧
      (∀ p, KingMesh2D.IsKingPair d p →
        (KingMesh2D.neighbourPass (d : Int) []).count p = 1) ∧
      (KingMesh2D.neighbourPass (d : Int) []).length = 4 * (d - 1) * (2 * d - 1) ∧
      (KingMesh2D.neighbourPass (d : Int) [] ++
        (KingMesh2D.neighbourPass (d : Int) []).map ConnectionPolicy.reversed).length =
        2 * (4 * (d - 1) * (2 * d - 1)) ∧
      (∀ p, KingMesh2D.IsKingPair d p →
        (KingMesh2D.neighbourPass (d : Int) [] ++
          (KingMesh2D.neighbourPass (d : Int) []).map ConnectionPolicy.reversed).count p = 2) ∧
      (∀ p, p ∈ KingMesh2D.neighbourPass (d : Int) [] ++
          (KingMesh2D.neighbourPass (d : Int) []).map ConnectionPolicy.reversed →
        KingMesh2D.IsKingPair d p) := by
  have hpos : (0 : Int) < (d : Int) * d := by positivity
  obtain ⟨tu, htu, hcu, hbu⟩ := KingMesh2D_new_ok ((d : Int) * d) bw lat false multi hpos hbw
    hlat (Or.inr (by rw [isqrt_sq]))
  obtain ⟨tb, htb, hcb, hbb⟩ := KingMesh2D_new_ok ((d : Int) * d) bw lat true multi hpos hbw
    hlat (Or.inr (by rw [isqrt_sq]))
  have hlen := KingMesh2D.neighbourPass_length d hd
  have hnd := KingMesh2D.neighbourPass_nodup d
  have hone : ∀ p, KingMesh2D.IsKingPair d p →
      (KingMesh2D.neighbourPass (d : Int) []).count p = 1 := fun p hp =>
    List.count_eq_one_of_mem hnd ((KingMesh2D.mem_neighbourPass d p).mpr hp)
  refine ⟨tu, tb, htu, htb, ?_, ?_, KingMesh2D.mem_neighbourPass d, hone, hlen, ?_, ?_, ?_⟩
  · rw [KingMesh2D_get_connection_policies_eq tu d hcu, hbu]
    simp
  · rw [KingMesh2D_get_connection_policies_eq tb d hcb, hbb]
    simp
  · rw [List.length_append, List.length_map, hlen]
    ring
  · intro p hp
    have h2 : p = p.reversed.reversed := rfl
    rw [List.count_append, hone p hp]
    nth_rewrite 1 [h2]
    rw [List.count_map_of_injective _ _ ConnectionPolicy.reversed_injective,
      hone _ (KingMesh2D.isKingPair_reversed d p hp)]
  · intro p hp
    rcases List.mem_append.mp hp with h | h
    · exact (KingMesh2D.mem_neighbourPass d p).mp h
    · obtain ⟨q, hq, rfl⟩ := List.mem_map.mp h
      exact KingMesh2D.isKingPair_reversed d q ((KingMesh2D.mem_neighbourPass d q).mp hq)

/-- Witness of C11 on the 3 × 3 grid. -/
theorem KingMesh2D_policies_eight_neighbours_witness :
    ∃ tu tb, KingMesh2D.new (((3 : Nat) : Int) * (3 : Nat)) 10 1 false false = .ok tu ∧
      KingMesh2D.new (((3 : Nat) : Int) * (3 : Nat)) 10 1 true false = .ok tb ∧
      tu.get_connection_policies = .ok (KingMesh2D.neighbourPass ((3 : Nat) : Int) []) ∧
      tb.get_connection_policies = .ok (KingMesh2D.neighbourPass ((3 : Nat) : Int) [] ++
        (KingMesh2D.neighbourPass ((3 : Nat) : Int) []).map ConnectionPolicy.reversed) ∧
      (∀ p, p ∈ KingMesh2D.neighbourPass ((3 : Nat) : Int) [] ↔
        KingMesh2D.IsKingPair (3 : Nat) p) ∧
      (∀ p, KingMesh2D.IsKingPair (3 : Nat) p →
        (KingMesh2D.neighbourPass ((3 : Nat) : Int) []).count p = 1) ∧
      (KingMesh2D.neighbourPass ((3 : Nat) : Int) []).length = 4 * (3 - 1) * (2 * 3 - 1) ∧
      (KingMesh2D.neighbourPass ((3 : Nat) : Int) [] ++
        (KingMesh2D.neighbourPass ((3 : Nat) : Int) []).map
          ConnectionPolicy.reversed).length = 2 * (4 * (3 - 1) * (2 * 3 - 1)) ∧
      (∀ p, KingMesh2D.IsKingPair (3 : Nat) p →
        (KingMesh2D.neighbourPass ((3 : Nat) : Int) [] ++
          (KingMesh2D.neighbourPass ((3 : Nat) : Int) []).map
            ConnectionPolicy.reversed).count p = 2) ∧
      (∀ p, p ∈ KingMesh2D.neighbourPass ((3 : Nat) : Int) [] ++
          (KingMesh2D.neighbourPass ((3 : Nat) : Int) []).map ConnectionPolicy.reversed →
        KingMesh2D.IsKingPair (3 : Nat) p) :=
  KingMesh2D_policies_eight_neighbours 3 10 1 false (by decide) (by decide) (by decide)

/-! ## KingMesh2D: policies and links -/

/-- C20 (behaviour of the code at the failing input): on the standalone unidirectional 2 × 2
KingMesh2D the constructor records 6 directed links, `get_connection_policies` returns 12
pairs, every recorded link is among the pairs, and the pair `(1, 0)` is returned although no
link from 1 to 0 is recorded; wiring the topology from the policies would add it.  On the
standalone bidirectional 2 × 2 KingMesh2D, and on the standalone unidirectional 2 × 2 Mesh2D,
the recorded links and the returned pairs join the same ordered pairs. -/
theorem KingMesh2D_unidirectional_policies_exceed_links :
    (∃ t ps, KingMesh2D.new 4 1 0 false false = .ok t ∧ t.get_connection_policies = .ok ps ∧
      ConnectionPolicy.mk 1 0 ∈ ps ∧ (¬ ∃ l ∈ t.base.links, l.src = 1 ∧ l.dst = 0) ∧
      (∀ l ∈ t.base.links, ConnectionPolicy.mk l.src l.dst ∈ ps) ∧
      ps.length = 12 ∧ t.base.links.length = 6) ∧
    (∃ t ps, KingMesh2D.new 4 1 0 true false = .ok t ∧ t.get_connection_policies = .ok ps ∧
      (∀ p ∈ ps, ∃ l ∈ t.base.links, l.src = p.src ∧ l.dst = p.dst) ∧
      (∀ l ∈ t.base.links, ConnectionPolicy.mk l.src l.dst ∈ ps)) ∧
    (∃ t ps, Mesh2D.new 4 1 0 false false = .ok t ∧ t.get_connection_policies = .ok ps ∧
      (∀ p ∈ ps, ∃ l ∈ t.base.links, l.src = p.src ∧ l.dst = p.dst) ∧
      (∀ l ∈ t.base.links, ConnectionPolicy.mk l.src l.dst ∈ ps)) := by
  have e : ((2 : Nat) : Int) * ((2 : Nat) : Int) = 4 := by decide
  refine ⟨?_, ?_, ?_⟩
  · obtain ⟨t, ht, hc, hb, hl⟩ := KingMesh2D_new_standalone 2 (by decide) 1 0 false (by decide)
      (by decide)
    have hp := KingMesh2D_get_connection_policies_eq t 2 hc
    rw [hb] at hp
    rw [e] at ht
    refine ⟨t, _, ht, hp, ?_, ?_, ?_, ?_, ?_⟩
    · decide
    · rw [hl]; decide
    · rw [hl]; decide
    · decide
    · rw [hl]; decide
  · obtain ⟨t, ht, hc, hb, hl⟩ := KingMesh2D_new_standalone 2 (by decide) 1 0 true (by decide)
      (by decide)
    have hp := KingMesh2D_get_connection_policies_eq t 2 hc
    rw [hb] at hp
    rw [e] at ht
    refine ⟨t, _, ht, hp, ?_, ?_⟩
    · rw [hl]; decide
    · rw [hl]; decide
  · obtain ⟨t, ht, hc, hb, hl⟩ := Mesh2D_new_standalone 2 (by decide) 1 0 false (by decide)
      (by decide)
    have hp := Mesh2D_get_connection_policies_eq t 2 hc
    rw [hb] at hp
    rw [e] at ht
    refine ⟨t, _, ht, hp, ?_, ?_⟩
    · rw [hl]; decide
    · rw [hl]; decide

/-! ## Mesh2D: policies and links -/

/-- Wiring from a list of in-range pairs records one link per pair, in order. -/
theorem connectPolicies_links {N D : Int} (bw lat : ℚ) (hbw : 0 < bw) (hlat : 0 ≤ lat) :
    ∀ (ps : List ConnectionPolicy) (b : BasicTopology), b.HasCounts N D →
      (∀ p ∈ ps, (0 ≤ p.src ∧ p.src < D) ∧ (0 ≤ p.dst ∧ p.dst < D)) →
      connectPolicies bw lat ps b = .ok (b.addLinks (ps.map (ConnectionPolicy.toLink bw lat))) := by
  intro ps
  induction ps with
  | nil => intro b _ _; simp [connectPolicies, BasicTopology.addLinks_nil]
  | cons p ps ih =>
    intro b hb hr
    have hp := hr p (List.mem_cons_self _ _)
    rw [connectPolicies, b.connect_addLinks hb p.src p.dst bw lat false hp.1 hp.2 hbw hlat]
    dsimp only
    rw [ih _ (b.addLinks_hasCounts hb _) (fun q hq => hr q (List.mem_cons_of_mem _ hq)),
      BasicTopology.addLinks_addLinks]
    rfl

/-- The pairs of the links of a unidirectional mesh cell are its right and down pairs. -/
theorem Mesh2D.cellLinks_toPolicy_unidirectional (d : Int) (bw lat : ℚ) (row col : Int) :
    (Mesh2D.cellLinks d bw lat false row col).map Link.toPolicy = Mesh2D.rdCell d row col := by
  by_cases h1 : col + 1 < d <;> by_cases h2 : row + 1 < d <;>
    simp [Mesh2D.cellLinks, Mesh2D.rdCell, h1, h2, linksOf, Link.toPolicy]

/-- The pairs of the links of a bidirectional mesh cell are its right and down pairs and
their reverses. -/
theorem Mesh2D.cellLinks_toPolicy_bidirectional (d : Int) (bw lat : ℚ) (row col : Int) :
    ((Mesh2D.cellLinks d bw lat true row col).map Link.toPolicy).Perm
      (Mesh2D.rdCell d row col ++ (Mesh2D.rdCell d row col).map ConnectionPolicy.reversed) := by
  by_cases h1 : col + 1 < d <;> by_cases h2 : row + 1 < d <;>
    simp only [Mesh2D.cellLinks, Mesh2D.rdCell, h1, h2, if_true, if_false, linksOf,
      Link.toPolicy, ConnectionPolicy.reversed, List.map_cons, List.map_nil, List.map_append,
      List.append_nil, List.nil_append, List.cons_append, List.Perm.refl]
  exact List.Perm.cons _ (List.Perm.swap _ _ _)

/-- Every link of a mesh cell carries the configured bandwidth and latency. -/
theorem Mesh2D.cellLinks_params (d : Int) (bw lat : ℚ) (bidir : Bool) (row col : Int)
    (l : Link) (h : l ∈ Mesh2D.cellLinks d bw lat bidir row col) :
    l.bandwidth = bw ∧ l.latency = lat := by
  unfold Mesh2D.cellLinks at h
  rcases List.mem_append.mp h with h | h <;> split_ifs at h
  · rcases (mem_linksOf _ _ _ _ _ _).mp h with rfl | ⟨_, rfl⟩ <;> exact ⟨rfl, rfl⟩
  · simp at h
  · rcases (mem_linksOf _ _ _ _ _ _).mp h with rfl | ⟨_, rfl⟩ <;> exact ⟨rfl, rfl⟩
  · simp at h

/-- Links that carry the configured parameters are recovered from their pairs. -/
theorem map_toLink_toPolicy (bw lat : ℚ) : ∀ (links : List Link),
    (∀ l ∈ links, l.bandwidth = bw ∧ l.latency = lat) →
    (links.map Link.toPolicy).map (ConnectionPolicy.toLink bw lat) = links := by
  intro links
  induction links with
  | nil => intro _; rfl
  | cons l links ih =>
    intro h
    obtain ⟨e1, e2⟩ := h l (List.mem_cons_self _ _)
    rw [List.map_cons, List.map_cons, ih (fun x hx => h x (List.mem_cons_of_mem _ hx))]
    simp only [ConnectionPolicy.toLink, Link.toPolicy, ← e1, ← e2]

/-- A grid enumeration of sums of two cell lists is a rearrangement of the two grid
enumerations. -/
theorem gridFlatMap_append_perm {α : Type} (d : Nat) (f g : Int → Int → List α) :
    (gridFlatMap d (fun row col => f row col ++ g row col)).Perm
      (gridFlatMap d f ++ gridFlatMap d g) := by
  unfold gridFlatMap
  refine List.Perm.trans (List.Perm.flatMap_left _ (fun row _ =>
    (List.flatMap_append_perm (List.range d) (fun col : Nat => f row col)
      (fun col : Nat => g row col)).symm)) ?_
  exact (List.flatMap_append_perm (List.range d)
    (fun row : Nat => (List.range d).flatMap (fun col : Nat => f row col))
    (fun row : Nat => (List.range d).flatMap (fun col : Nat => g row col))).symm

theorem gridFlatMap_perm {α : Type} (d : Nat) (f g : Int → Int → List α)
    (h : ∀ row col, (f row col).Perm (g row col)) :
    (gridFlatMap d f).Perm (gridFlatMap d g) := by
  unfold gridFlatMap
  exact List.Perm.flatMap_left _ (fun row _ => List.Perm.flatMap_left _ (fun col _ => h _ _))

theorem gridFlatMap_map {α β : Type} (d : Nat) (f : Int → Int → List α) (g : α → β) :
    (gridFlatMap d f).map g = gridFlatMap d (fun row col => (f row col).map g) := by
  unfold gridFlatMap
  rw [List.map_flatMap]
  simp only [List.map_flatMap]

theorem Mesh2D.rightDownPass_eq_grid (d : Nat) :
    Mesh2D.rightDownPass (d : Int) [] = gridFlatMap d (Mesh2D.rdCell d) := by
  rw [Mesh2D.rightDownPass_eq, List.nil_append]
  rfl

/-- The pairs of the links of a standalone mesh, up to order: the right/down pass, followed
by its reverse when the mesh is bidirectional. -/
theorem Mesh2D.links_toPolicy_perm (d : Nat) (bw lat : ℚ) (bidir : Bool) :
    ((gridFlatMap d (Mesh2D.cellLinks d bw lat bidir)).map Link.toPolicy).Perm
      (Mesh2D.rightDownPass (d : Int) [] ++
        (if bidir = true then Mesh2D.leftUpPass (d : Int) [] else [])) := by
  rw [gridFlatMap_map]
  cases bidir
  · simp only [Mesh2D.cellLinks_toPolicy_unidirectional, Bool.false_eq_true, if_false,
      List.append_nil, Mesh2D.rightDownPass_eq_grid]
    exact List.Perm.refl _
  · rw [if_pos rfl]
    refine (gridFlatMap_perm d _ _
      (fun row col => Mesh2D.cellLinks_toPolicy_bidirectional d bw lat row col)).trans ?_
    refine (gridFlatMap_append_perm d _ _).trans ?_
    rw [← gridFlatMap_map, ← Mesh2D.rightDownPass_eq_grid]
    exact List.Perm.append_left _ (Mesh2D.leftUpPass_perm d).symm

/-- Every pair returned for a `d × d` mesh joins two cells of the grid. -/
theorem Mesh2D.policies_in_range (d : Nat) (bidir : Bool) (p : ConnectionPolicy)
    (hp : p ∈ Mesh2D.rightDownPass (d : Int) [] ++
      (if bidir = true then Mesh2D.leftUpPass (d : Int) [] else [])) :
    (0 ≤ p.src ∧ p.src < (d : Int) * d) ∧ (0 ≤ p.dst ∧ p.dst < (d : Int) * d) := by
  have key : ∀ q : ConnectionPolicy, Mesh2D.IsRightPair d q ∨ Mesh2D.IsDownPair d q →
      (0 ≤ q.src ∧ q.src < (d : Int) * d) ∧ (0 ≤ q.dst ∧ q.dst < (d : Int) * d) := by
    rintro q (⟨row, col, h1, h2, h3, h4, rfl⟩ | ⟨row, col, h1, h2, h3, h4, rfl⟩)
    · exact ⟨grid_index_bounds d row col ⟨h1, h2⟩ ⟨h3, by omega⟩,
        grid_index_bounds d row (col + 1) ⟨h1, h2⟩ ⟨by omega, h4⟩⟩
    · exact ⟨grid_index_bounds d row col ⟨h1, by omega⟩ ⟨h3, h4⟩,
        grid_index_bounds d (row + 1) col ⟨by omega, h2⟩ ⟨h3, h4⟩⟩
  rcases List.mem_append.mp hp with h | h
  · exact key p ((Mesh2D.mem_rightDownPass d p).mp h)
  · cases bidir
    · simp at h
    · rw [if_pos rfl] at h
      have := key p.reversed ((Mesh2D.mem_leftUpPass d p).mp h)
      exact ⟨this.2, this.1⟩

/-- C21: for every standalone `d × d` Mesh2D and either value of the bidirectional flag, the
directed pairs of the links recorded by the constructor are a rearrangement of the pairs
returned by `get_connection_policies` (same pairs, same multiplicities); with
`bidirectional = false` the two lists are even equal; and wiring a fresh registry from the
policies with unidirectional connects, as the commented alternative in the constructor
does, succeeds and records a rearrangement of the links of the constructor. -/
theorem Mesh2D_links_match_policies (d : Nat) (hd : 1 ≤ d) (bw lat : ℚ) (bidir : Bool)
    (hbw : 0 < bw) (hlat : 0 ≤ lat) :
    ∃ t ps b, Mesh2D.new ((d : Int) * d) bw lat bidir false = .ok t ∧
      t.get_connection_policies = .ok ps ∧
      (t.base.links.map Link.toPolicy).Perm ps ∧
      (bidir = false → t.base.links.map Link.toPolicy = ps) ∧
      connectPolicies bw lat ps (BasicTopology.init ((d : Int) * d) ((d : Int) * d)) = .ok b ∧
      b.links.Perm t.base.links := by
  obtain ⟨t, ht, hc, hb, hl⟩ := Mesh2D_new_standalone d hd bw lat bidir hbw hlat
  have hp := Mesh2D_get_connection_policies_eq t d hc
  rw [hb] at hp
  have hperm := Mesh2D.links_toPolicy_perm d bw lat bidir
  rw [← hl] at hperm
  have hwire := connectPolicies_links bw lat hbw hlat
    (Mesh2D.rightDownPass (d : Int) [] ++
      (if bidir = true then Mesh2D.leftUpPass (d : Int) [] else []))
    (BasicTopology.init ((d : Int) * d) ((d : Int) * d)) ⟨rfl, rfl⟩
    (fun p hp => Mesh2D.policies_in_range d bidir p hp)
  refine ⟨t, _, _, ht, hp, hperm, ?_, hwire, ?_⟩
  · intro hf
    subst hf
    rw [hl, gridFlatMap_map]
    simp only [Mesh2D.cellLinks_toPolicy_unidirectional, Bool.false_eq_true, if_false,
      List.append_nil, Mesh2D.rightDownPass_eq_grid]
  · rw [BasicTopology.init_addLinks_links]
    have hid := map_toLink_toPolicy bw lat t.base.links (fun l hmem => by
      rw [hl] at hmem
      obtain ⟨row, col, _, _, hcell⟩ := mem_gridFlatMap d _ l hmem
      exact Mesh2D.cellLinks_params d bw lat bidir row col l hcell)
    have h2 := hperm.map (ConnectionPolicy.toLink bw lat)
    rw [hid] at h2
    exact h2.symm

/-- Witness of C21 on the bidirectional 3 × 3 mesh. -/
theorem Mesh2D_links_match_policies_witness :
    ∃ t ps b, Mesh2D.new (((3 : Nat) : Int) * (3 : Nat)) 10 1 true false = .ok t ∧
      t.get_connection_policies = .ok ps ∧
      (t.base.links.map Link.toPolicy).Perm ps ∧
      (true = false → t.base.links.map Link.toPolicy = ps) ∧
      connectPolicies 10 1 ps
        (BasicTopology.init (((3 : Nat) : Int) * (3 : Nat)) (((3 : Nat) : Int) * (3 : Nat))) =
          .ok b ∧
      b.links.Perm t.base.links :=
  Mesh2D_links_match_policies 3 (by decide) 10 1 true (by decide) (by decide)

/-! ## KingMesh2D: the clamp is idle -/

/-- One iteration of the loop is the unclamped step followed by the clamp. -/
theorem KingMesh2D.routeStep_eq_clamp (d tx ty cx cy : Int) :
    KingMesh2D.routeStep d tx ty cx cy =
      (KingMesh2D.clamp d (KingMesh2D.rawStep tx ty cx cy).1,
        KingMesh2D.clamp d (KingMesh2D.rawStep tx ty cx cy).2) := rfl

theorem KingMesh2D.rawStep_eq (tx ty cx cy : Int) :
    KingMesh2D.rawStep tx ty cx cy = (cx + Int.sign (tx - cx), cy + Int.sign (ty - cy)) := by
  have sx : (if cx < tx then (1 : Int) else (if cx > tx then -1 else 0)) = Int.sign (tx - cx) := by
    rcases lt_trichotomy cx tx with h | h | h
    · rw [if_pos h, Int.sign_eq_one_of_pos (by omega)]
    · subst h; simp
    · rw [if_neg (by omega), if_pos h, Int.sign_eq_neg_one_of_neg (by omega)]
  have sy : (if cy < ty then (1 : Int) else (if cy > ty then -1 else 0)) = Int.sign (ty - cy) := by
    rcases lt_trichotomy cy ty with h | h | h
    · rw [if_pos h, Int.sign_eq_one_of_pos (by omega)]
    · subst h; simp
    · rw [if_neg (by omega), if_pos h, Int.sign_eq_neg_one_of_neg (by omega)]
  simp only [KingMesh2D.rawStep, sx, sy]

theorem max_natAbs_sign (a b : Int) (h : a ≠ 0 ∨ b ≠ 0) :
    max (Int.sign a).natAbs (Int.sign b).natAbs = 1 := by
  obtain ⟨a1, a2, _, a4⟩ := sign_bounds a
  obtain ⟨b1, b2, _, b4⟩ := sign_bounds b
  rcases h with h | h
  · rcases a4 h with e | e <;> omega
  · rcases b4 h with e | e <;> omega

theorem max_pred_succ (a b : Nat) (h : max a b ≠ 0) : max (a - 1) (b - 1) + 1 = max a b := by
  omega

/-- What one iteration of the loop does from a cell of the grid other than the destination:
the clamp changes nothing, the new cell is in the grid, one king move away, and one unit
closer to the destination. -/
theorem KingMesh2D.routeStep_idle (d tx ty cx cy : Int) (htx : 0 ≤ tx ∧ tx < d)
    (hty : 0 ≤ ty ∧ ty < d) (hcx : 0 ≤ cx ∧ cx < d) (hcy : 0 ≤ cy ∧ cy < d)
    (hne : cx ≠ tx ∨ cy ≠ ty) :
    KingMesh2D.routeStep d tx ty cx cy = KingMesh2D.rawStep tx ty cx cy ∧
    (0 ≤ (KingMesh2D.routeStep d tx ty cx cy).1 ∧ (KingMesh2D.routeStep d tx ty cx cy).1 < d) ∧
    (0 ≤ (KingMesh2D.routeStep d tx ty cx cy).2 ∧ (KingMesh2D.routeStep d tx ty cx cy).2 < d) ∧
    chebyshev (cx, cy) (KingMesh2D.routeStep d tx ty cx cy) = 1 ∧
    chebyshev (KingMesh2D.routeStep d tx ty cx cy) (tx, ty) + 1 = chebyshev (cx, cy) (tx, ty) := by
  obtain ⟨e1, e2, hx2, hy2, ax, ay⟩ := KingMesh2D.routeStep_spec d tx ty cx cy htx hty hcx hcy
  have hstep : KingMesh2D.routeStep d tx ty cx cy =
      (cx + Int.sign (tx - cx), cy + Int.sign (ty - cy)) := Prod.ext e1 e2
  rw [hstep, KingMesh2D.rawStep_eq]
  refine ⟨rfl, hx2, hy2, ?_, ?_⟩
  · simp only [chebyshev]
    have k1 : cx + Int.sign (tx - cx) - cx = Int.sign (tx - cx) := by ring
    have k2 : cy + Int.sign (ty - cy) - cy = Int.sign (ty - cy) := by ring
    rw [k1, k2]
    apply max_natAbs_sign
    rcases hne with h | h
    · exact Or.inl (sub_ne_zero.mpr (Ne.symm h))
    · exact Or.inr (sub_ne_zero.mpr (Ne.symm h))
  · simp only [chebyshev]
    rw [ax, ay]
    apply max_pred_succ
    intro h0
    have h1 : (tx - cx).natAbs = 0 := by omega
    have h2 : (ty - cy).natAbs = 0 := by omega
    rcases hne with h | h
    · exact h (by omega)
    · exact h (by omega)

/-- The relation between the cell before and the cell after an iteration of the loop. -/
theorem KingMesh2D.routeLoop_trace (t : KingMesh2D) (d tx ty : Int)
    (hdc : t.base.devices_count = d * d) (htx : 0 ≤ tx ∧ tx < d) (hty : 0 ≤ ty ∧ ty < d) :
    ∀ (n fuel : Nat) (cx cy : Int) (route : Route), n ≤ fuel →
      (0 ≤ cx ∧ cx < d) → (0 ≤ cy ∧ cy < d) →
      chebyshev (cx, cy) (tx, ty) = n →
      KingMesh2D.routeLoop t d tx ty fuel cx cy route =
        .ok (route ++ (KingMesh2D.routeTrace d tx ty fuel cx cy).map
          (fun c : Int × Int => c.2 * d + c.1)) ∧
      (KingMesh2D.routeTrace d tx ty fuel cx cy).length = n ∧
      (∀ c ∈ KingMesh2D.routeTrace d tx ty fuel cx cy,
        (0 ≤ c.1 ∧ c.1 < d) ∧ (0 ≤ c.2 ∧ c.2 < d)) ∧
      List.Chain (fun a b : Int × Int =>
          b = KingMesh2D.rawStep tx ty a.1 a.2 ∧
          KingMesh2D.routeStep d tx ty a.1 a.2 = KingMesh2D.rawStep tx ty a.1 a.2 ∧
          chebyshev a b = 1 ∧ chebyshev b (tx, ty) + 1 = chebyshev a (tx, ty))
        (cx, cy) (KingMesh2D.routeTrace d tx ty fuel cx cy) := by
  intro n
  induction n with
  | zero =>
    intro fuel cx cy route _ _ _ hmax
    have h1 : cx = tx := by simp only [chebyshev] at hmax; omega
    have h2 : cy = ty := by simp only [chebyshev] at hmax; omega
    subst h1 h2
    cases fuel <;> simp [KingMesh2D.routeLoop, KingMesh2D.routeTrace]
  | succ n ih =>
    intro fuel cx cy route hfuel hcx hcy hmax
    obtain ⟨f, rfl⟩ := Nat.exists_eq_add_one_of_ne_zero (fun h : fuel = 0 => by
      rw [h] at hfuel; exact absurd hfuel (Nat.not_succ_le_zero n))
    have hne : cx ≠ tx ∨ cy ≠ ty := by
      by_contra h
      push_neg at h
      rw [h.1, h.2] at hmax
      simp [chebyshev] at hmax
    obtain ⟨hidle, hx2, hy2, hking, hdist⟩ :=
      KingMesh2D.routeStep_idle d tx ty cx cy htx hty hcx hcy hne
    have hidx := grid_index_bounds d _ _ hy2 hx2
    have hn : chebyshev (KingMesh2D.routeStep d tx ty cx cy) (tx, ty) = n := by
      rw [hmax] at hdist
      exact Nat.succ_injective hdist
    obtain ⟨hr, hlen, hgrid, hchain⟩ := ih f (KingMesh2D.routeStep d tx ty cx cy).1
      (KingMesh2D.routeStep d tx ty cx cy).2
      (route ++ [(KingMesh2D.routeStep d tx ty cx cy).2 * d +
        (KingMesh2D.routeStep d tx ty cx cy).1])
      (Nat.le_of_succ_le_succ hfuel) hx2 hy2 hn
    refine ⟨?_, ?_, ?_, ?_⟩
    · rw [KingMesh2D.routeLoop, if_pos hne]
      dsimp only
      rw [t.base.devices_at_ok _ (by rw [hdc]; exact hidx), ok_bind, hr,
        KingMesh2D.routeTrace, if_pos hne, List.map_cons, List.append_assoc]
      rfl
    · rw [KingMesh2D.routeTrace, if_pos hne, List.length_cons, hlen]
    · intro c hc
      rw [KingMesh2D.routeTrace, if_pos hne, List.mem_cons] at hc
      rcases hc with rfl | hc
      · exact ⟨hx2, hy2⟩
      · exact hgrid c hc
    · rw [KingMesh2D.routeTrace, if_pos hne]
      exact List.Chain.cons ⟨hidle, hidle, hking, hdist⟩ hchain

/-- C22: in `KingMesh2D::route` on a `d × d` grid with valid `src`, `dest`, the route is
`src` followed by the cells visited by the loop; at every iteration the clamp changes no
coordinate (the clamped step equals the unclamped one), the new `cur_x`, `cur_y` lie in
`[0, d)`, the new cell is at Chebyshev distance exactly 1 from the previous one and exactly
one unit closer to `dest`; the loop ends after as many iterations as the Chebyshev distance
from `src` to `dest`; and every index passed to the device lookup is in `[0, d * d)`. -/
theorem KingMesh2D_route_clamp_idle (d : Nat) (bw lat : ℚ) (bidir multi : Bool)
    (hbw : 0 < bw) (hlat : 0 ≤ lat) (src dest : Int)
    (hsrc : 0 ≤ src ∧ src < (d : Int) * d) (hdest : 0 ≤ dest ∧ dest < (d : Int) * d)
    (fuel : Nat) (hfuel : d ≤ fuel) :
    ∃ t r, KingMesh2D.new ((d : Int) * d) bw lat bidir multi = .ok t ∧
      t.route fuel src dest = .ok r ∧
      r = src :: (KingMesh2D.routeTrace d (dest % d) (dest / d) fuel (src % d) (src / d)).map
        (fun c : Int × Int => c.2 * d + c.1) ∧
      (KingMesh2D.routeTrace d (dest % d) (dest / d) fuel (src % d) (src / d)).length =
        chebyshev (src % d, src / d) (dest % d, dest / d) ∧
      (∀ c ∈ KingMesh2D.routeTrace d (dest % d) (dest / d) fuel (src % d) (src / d),
        (0 ≤ c.1 ∧ c.1 < d) ∧ (0 ≤ c.2 ∧ c.2 < d)) ∧
      List.Chain (fun a b : Int × Int =>
          b = KingMesh2D.rawStep (dest % d) (dest / d) a.1 a.2 ∧
          KingMesh2D.routeStep d (dest % d) (dest / d) a.1 a.2 =
            KingMesh2D.rawStep (dest % d) (dest / d) a.1 a.2 ∧
          chebyshev a b = 1 ∧
          chebyshev b (dest % d, dest / d) + 1 = chebyshev a (dest % d, dest / d))
        (src % d, src / d)
        (KingMesh2D.routeTrace d (dest % d) (dest / d) fuel (src % d) (src / d)) ∧
      (∀ i ∈ r, 0 ≤ i ∧ i < (d : Int) * d) := by
  have hd : 1 ≤ d := by
    rcases Nat.eq_zero_or_pos d with h | h
    · subst h; simp at hsrc; omega
    · exact h
  obtain ⟨t, ht, hc, _⟩ := KingMesh2D_new_ok ((d : Int) * d) bw lat bidir multi
    (by positivity) hbw hlat (Or.inr (by rw [isqrt_sq]))
  obtain ⟨hn, hdc⟩ := hc
  obtain ⟨e1, e2, hsx, hsy, hs⟩ := grid_coords d src hsrc
  obtain ⟨e3, e4, htx, hty, _⟩ := grid_coords d dest hdest
  have hcheb : chebyshev (src % (d : Int), src / (d : Int))
      (dest % (d : Int), dest / (d : Int)) ≤ fuel := by
    simp only [chebyshev]
    omega
  obtain ⟨hr, hlen, hgrid, hchain⟩ := KingMesh2D.routeLoop_trace t d (dest % d) (dest / d) hdc
    htx hty _ fuel (src % d) (src / d) [src] hcheb hsx hsy rfl
  refine ⟨t, _, ht, ?_, rfl, hlen, hgrid, hchain, ?_⟩
  · simp only [KingMesh2D.route]
    rw [hn, assert_of_true hsrc, assert_of_true hdest, isqrt_sq, assert_of_true rfl,
      t.base.devices_at_ok src (by rw [hdc]; exact hsrc)]
    simp only [ok_bind, e1, e2, e3, e4, List.nil_append]
    exact hr
  · intro i hi
    rcases List.mem_cons.mp hi with rfl | hi
    · exact hsrc
    · obtain ⟨c, hc, rfl⟩ := List.mem_map.mp hi
      exact grid_index_bounds d _ _ (hgrid c hc).2 (hgrid c hc).1

/-- Witness of C22 on the 3 × 3 grid, from cell 2 to cell 6. -/
theorem KingMesh2D_route_clamp_idle_witness :
    ∃ t r, KingMesh2D.new (((3 : Nat) : Int) * (3 : Nat)) 10 1 true false = .ok t ∧
      t.route 3 2 6 = .ok r ∧
      r = 2 :: (KingMesh2D.routeTrace ((3 : Nat) : Int) (6 % ((3 : Nat) : Int))
        (6 / ((3 : Nat) : Int)) 3 (2 % ((3 : Nat) : Int)) (2 / ((3 : Nat) : Int))).map
        (fun c : Int × Int => c.2 * ((3 : Nat) : Int) + c.1) ∧
      (KingMesh2D.routeTrace ((3 : Nat) : Int) (6 % ((3 : Nat) : Int))
        (6 / ((3 : Nat) : Int)) 3 (2 % ((3 : Nat) : Int)) (2 / ((3 : Nat) : Int))).length =
        chebyshev (2 % ((3 : Nat) : Int), 2 / ((3 : Nat) : Int))
          (6 % ((3 : Nat) : Int), 6 / ((3 : Nat) : Int)) ∧
      (∀ c ∈ KingMesh2D.routeTrace ((3 : Nat) : Int) (6 % ((3 : Nat) : Int))
          (6 / ((3 : Nat) : Int)) 3 (2 % ((3 : Nat) : Int)) (2 / ((3 : Nat) : Int)),
        (0 ≤ c.1 ∧ c.1 < ((3 : Nat) : Int)) ∧ (0 ≤ c.2 ∧ c.2 < ((3 : Nat) : Int))) ∧
      List.Chain (fun a b : Int × Int =>
          b = KingMesh2D.rawStep (6 % ((3 : Nat) : Int)) (6 / ((3 : Nat) : Int)) a.1 a.2 ∧
          KingMesh2D.routeStep ((3 : Nat) : Int) (6 % ((3 : Nat) : Int))
            (6 / ((3 : Nat) : Int)) a.1 a.2 =
            KingMesh2D.rawStep (6 % ((3 : Nat) : Int)) (6 / ((3 : Nat) : Int)) a.1 a.2 ∧
          chebyshev a b = 1 ∧
          chebyshev b (6 % ((3 : Nat) : Int), 6 / ((3 : Nat) : Int)) + 1 =
            chebyshev a (6 % ((3 : Nat) : Int), 6 / ((3 : Nat) : Int)))
        (2 % ((3 : Nat) : Int), 2 / ((3 : Nat) : Int))
        (KingMesh2D.routeTrace ((3 : Nat) : Int) (6 % ((3 : Nat) : Int))
          (6 / ((3 : Nat) : Int)) 3 (2 % ((3 : Nat) : Int)) (2 / ((3 : Nat) : Int))) ∧
      (∀ i ∈ r, 0 ≤ i ∧ i < ((3 : Nat) : Int) * (3 : Nat)) :=
  KingMesh2D_route_clamp_idle 3 10 1 true false (by decide) (by decide) 2 6
    (by decide) (by decide) 3 (by decide)

/-! ## Routes and recorded links: the exact condition -/

/-- Every link of a unidirectional mesh points to a larger identifier. -/
theorem Mesh2D_unidirectional_link_lt (d : Nat) (bw lat : ℚ) (l : Link)
    (h : l ∈ gridFlatMap d (Mesh2D.cellLinks d bw lat false)) : l.src < l.dst := by
  obtain ⟨row, col, hr, hc, hcell⟩ := mem_gridFlatMap d _ l h
  have e : (row + 1) * (d : Int) = row * d + d := by ring
  unfold Mesh2D.cellLinks at hcell
  rcases List.mem_append.mp hcell with h1 | h1 <;> split_ifs at h1
  · rcases (mem_linksOf _ _ _ _ _ _).mp h1 with rfl | ⟨hb, _⟩
    · show row * (d : Int) + col < row * d + (col + 1)
      omega
    · exact absurd hb (by decide)
  · simp at h1
  · rcases (mem_linksOf _ _ _ _ _ _).mp h1 with rfl | ⟨hb, _⟩
    · show row * (d : Int) + col < (row + 1) * d + col
      omega
    · exact absurd hb (by decide)
  · simp at h1

/-- Every link of a unidirectional king mesh points to a larger identifier. -/
theorem KingMesh2D_unidirectional_link_lt (d : Nat) (bw lat : ℚ) (l : Link)
    (h : l ∈ gridFlatMap d (KingMesh2D.cellLinks d bw lat false)) : l.src < l.dst := by
  obtain ⟨row, col, hr, hc, hcell⟩ := mem_gridFlatMap d _ l h
  have e : (row + 1) * (d : Int) = row * d + d := by ring
  unfold KingMesh2D.cellLinks at hcell
  simp only [List.mem_append] at hcell
  rcases hcell with h1 | h1 | h1 | h1 <;> split_ifs at h1
  · rcases (mem_linksOf _ _ _ _ _ _).mp h1 with rfl | ⟨hb, _⟩
    · show row * (d : Int) + col < row * d + (col + 1)
      omega
    · exact absurd hb (by decide)
  · simp at h1
  · rcases (mem_linksOf _ _ _ _ _ _).mp h1 with rfl | ⟨hb, _⟩
    · show row * (d : Int) + col < (row + 1) * d + col
      omega
    · exact absurd hb (by decide)
  · simp at h1
  · rcases (mem_linksOf _ _ _ _ _ _).mp h1 with rfl | ⟨hb, _⟩
    · show row * (d : Int) + col < (row + 1) * d + (col + 1)
      omega
    · exact absurd hb (by decide)
  · simp at h1
  · rcases (mem_linksOf _ _ _ _ _ _).mp h1 with rfl | ⟨hb, _⟩
    · show row * (d : Int) + col < (row + 1) * d + (col - 1)
      omega
    · exact absurd hb (by decide)
  · simp at h1

/-- A step between two cells of the grid that goes up, or left in the same row, leads to a
smaller identifier. -/
theorem backward_step_lt (d row col sy sx : Int) (hcol : 0 ≤ col ∧ col < d)
    (hcol2 : 0 ≤ col + sx ∧ col + sx < d) (hb : sy = -1 ∨ (sy = 0 ∧ sx = -1)) :
    (row + sy) * d + (col + sx) < row * d + col := by
  rcases hb with rfl | ⟨rfl, rfl⟩
  · have e : (row + -1) * d = row * d - d := by ring
    omega
  · have e : (row + 0) * d = row * d := by ring
    omega

/-- On a standalone mesh a hop along one axis follows a recorded link exactly when the mesh
is bidirectional or the hop goes right or down. -/
theorem Mesh2D_step_link_iff (d : Nat) (bw lat : ℚ) (bidir : Bool) (links : List Link)
    (hl : links = gridFlatMap d (Mesh2D.cellLinks d bw lat bidir))
    (row col sy sx : Int) (hrow : 0 ≤ row ∧ row < d) (hcol : 0 ≤ col ∧ col < d)
    (hrow2 : 0 ≤ row + sy ∧ row + sy < d) (hcol2 : 0 ≤ col + sx ∧ col + sx < d)
    (hs : (sy = 0 ∧ (sx = 1 ∨ sx = -1)) ∨ (sx = 0 ∧ (sy = 1 ∨ sy = -1))) :
    (∃ l ∈ links, l.src = row * d + col ∧ l.dst = (row + sy) * d + (col + sx)) ↔
      (bidir = true ∨ (0 ≤ sy ∧ 0 ≤ sx)) := by
  constructor
  · rintro ⟨l, hmem, e1, e2⟩
    by_contra hcon
    push_neg at hcon
    have hb : bidir = false := by
      cases bidir
      · rfl
      · exact absurd rfl hcon.1
    subst hb
    rw [hl] at hmem
    have h1 := Mesh2D_unidirectional_link_lt d bw lat l hmem
    have h2 := backward_step_lt d row col sy sx hcol hcol2 (by
      have := hcon.2
      omega)
    rw [e1, e2] at h1
    have h3 : row * (d : Int) + col < (row + sy) * d + (col + sx) := h1
    omega
  · intro hdir
    exact Mesh2D_step_link d bw lat bidir links hl row col sy sx hrow hcol hrow2 hcol2 hs hdir

/-- On a standalone king mesh a hop to one of the eight neighbours follows a recorded link
exactly when the mesh is bidirectional or the hop goes right, down, down-right or
down-left. -/
theorem KingMesh2D_step_link_iff (d : Nat) (bw lat : ℚ) (bidir : Bool) (links : List Link)
    (hl : links = gridFlatMap d (KingMesh2D.cellLinks d bw lat bidir))
    (row col sy sx : Int) (hrow : 0 ≤ row ∧ row < d) (hcol : 0 ≤ col ∧ col < d)
    (hrow2 : 0 ≤ row + sy ∧ row + sy < d) (hcol2 : 0 ≤ col + sx ∧ col + sx < d)
    (hsy : -1 ≤ sy ∧ sy ≤ 1) (hsx : -1 ≤ sx ∧ sx ≤ 1) (hs : sy ≠ 0 ∨ sx ≠ 0) :
    (∃ l ∈ links, l.src = row * d + col ∧ l.dst = (row + sy) * d + (col + sx)) ↔
      (bidir = true ∨ sy = 1 ∨ (sy = 0 ∧ sx = 1)) := by
  constructor
  · rintro ⟨l, hmem, e1, e2⟩
    by_contra hcon
    push_neg at hcon
    have hb : bidir = false := by
      cases bidir
      · rfl
      · exact absurd rfl hcon.1
    subst hb
    rw [hl] at hmem
    have h1 := KingMesh2D_unidirectional_link_lt d bw lat l hmem
    have h2 := backward_step_lt d row col sy sx hcol hcol2 (by
      have := hcon.2
      omega)
    rw [e1, e2] at h1
    have h3 : row * (d : Int) + col < (row + sy) * d + (col + sx) := h1
    omega
  · intro hdir
    subst hl
    by_cases hf : (sy = 0 ∧ sx = 1) ∨ (sy = 1 ∧ (sx = 0 ∨ sx = 1 ∨ sx = -1))
    · exact ⟨_, mem_gridFlatMap_of d _ row col hrow hcol _
        (KingMesh2D_cellLinks_step d bw lat bidir row col sy sx hf hrow2.2 hcol2).1, rfl, rfl⟩
    · have hb : (-sy = 0 ∧ -sx = 1) ∨ (-sy = 1 ∧ (-sx = 0 ∨ -sx = 1 ∨ -sx = -1)) := by omega
      have hbi : bidir = true := by
        rcases hdir with h | h
        · exact h
        · omega
      have h := (KingMesh2D_cellLinks_step d bw lat bidir (row + sy) (col + sx) (-sy) (-sx) hb
        (by omega) (by omega)).2 hbi
      have e1 : row + sy + -sy = row := by ring
      have e2 : col + sx + -sx = col := by ring
      rw [e1, e2] at h
      exact ⟨_, mem_gridFlatMap_of d _ _ _ hrow2 hcol2 _ h, rfl, rfl⟩

/-- The hops of the dimension-order path all satisfy a relation that holds of the hops to
the right and down (and of every hop when `P` holds) exactly when `P` holds or the
destination is neither to the left of nor above the source. -/
theorem xFirstPath_chain_iff (d : Nat) (R : Int → Int → Prop) (P : Prop) (src dest : Int)
    (hsrc : 0 ≤ src ∧ src < (d : Int) * d) (hdest : 0 ≤ dest ∧ dest < (d : Int) * d)
    (hR : ∀ row col sy sx : Int, (0 ≤ row ∧ row < d) → (0 ≤ col ∧ col < d) →
      (0 ≤ row + sy ∧ row + sy < d) → (0 ≤ col + sx ∧ col + sx < d) →
      ((sy = 0 ∧ (sx = 1 ∨ sx = -1)) ∨ (sx = 0 ∧ (sy = 1 ∨ sy = -1))) →
      (R (row * d + col) ((row + sy) * d + (col + sx)) ↔ (P ∨ (0 ≤ sy ∧ 0 ≤ sx)))) :
    (xFirstPath d src dest).Chain' R ↔
      (P ∨ (src % (d : Int) ≤ dest % (d : Int) ∧ src / (d : Int) ≤ dest / (d : Int))) := by
  constructor
  · intro hch
    by_contra hcon
    push_neg at hcon
    obtain ⟨hP, hcond⟩ := hcon
    obtain ⟨_, _, hsx, hsy, _⟩ := grid_coords d src hsrc
    obtain ⟨_, _, htx, hty, _⟩ := grid_coords d dest hdest
    simp only [xFirstPath] at hch
    obtain ⟨hA, hB, hJ⟩ := List.chain'_append.mp hch
    by_cases hx : src % (d : Int) ≤ dest % (d : Int)
    · -- the first hop along the column goes up
      have hy : dest / (d : Int) < src / (d : Int) := by
        have := hcond hx
        omega
      have hsg : (dest / (d : Int) - src / (d : Int)).sign = -1 :=
        Int.sign_eq_neg_one_of_neg (by omega)
      have hxe : src % (d : Int) + (dest % (d : Int) - src % (d : Int)).sign *
          ((dest % (d : Int) - src % (d : Int)).natAbs : Int) = dest % (d : Int) := by
        rw [Int.sign_mul_natAbs]; ring
      have hky : (dest / (d : Int) - src / (d : Int)).natAbs ≠ 0 := by omega
      have hJ2 := hJ (src / (d : Int) * d + dest % (d : Int))
        (by
          rw [List.range_succ, List.map_append, List.map_singleton, List.getLast?_concat, hxe]
          rfl)
        ((src / (d : Int) + -1) * d + (dest % (d : Int) + 0))
        (by
          rw [List.head?_map, List.head?_range, if_neg hky, hsg]
          simp)
      have := (hR (src / d) (dest % d) (-1) 0 hsy htx (by omega) (by simpa using htx)
        (Or.inr ⟨rfl, Or.inr rfl⟩)).mp hJ2
      rcases this with h | h
      · exact hP h
      · omega
    · -- the first hop along the row goes left
      have hx2 : dest % (d : Int) < src % (d : Int) := by omega
      have hsg : (dest % (d : Int) - src % (d : Int)).sign = -1 :=
        Int.sign_eq_neg_one_of_neg (by omega)
      obtain ⟨k, hk⟩ : ∃ k, (dest % (d : Int) - src % (d : Int)).natAbs = k + 1 :=
        Nat.exists_eq_add_one_of_ne_zero (by omega)
      rw [hk, List.chain'_map, List.chain'_range_succ] at hA
      have h0 := hA 0 (by omega)
      rw [hsg] at h0
      have e1 : src / (d : Int) * d + (src % (d : Int) + -1 * ((0 : Nat) : Int)) =
          src / (d : Int) * d + src % (d : Int) := by simp
      have e2 : src / (d : Int) * d + (src % (d : Int) + -1 * ((Nat.succ 0 : Nat) : Int)) =
          (src / (d : Int) + 0) * d + (src % (d : Int) + -1) := by simp
      rw [e1, e2] at h0
      have := (hR (src / d) (src % d) 0 (-1) hsy hsx (by simpa using hsy) (by omega)
        (Or.inl ⟨rfl, Or.inr rfl⟩)).mp h0
      rcases this with h | h
      · exact hP h
      · omega
  · intro hdir
    exact xFirstPath_chain d R P src dest hsrc hdest hdir
      (fun row col sy sx h1 h2 h3 h4 h5 h6 => (hR row col sy sx h1 h2 h3 h4 h5).mpr h6)

/-- From a cell other than the destination, the king step is recorded by a unidirectional
constructor and leaves a cell from which every later step is recorded, exactly when the
destination is not above the cell and is to its left by no more than it is below. -/
theorem king_forward_step (tx ty cx cy : Int) (hne : cx ≠ tx ∨ cy ≠ ty) :
    ((Int.sign (ty - cy) = 1 ∨ (Int.sign (ty - cy) = 0 ∧ Int.sign (tx - cx) = 1)) ∧
      (cy + Int.sign (ty - cy) ≤ ty ∧ (cx + Int.sign (tx - cx) ≤ tx ∨
        cx + Int.sign (tx - cx) - tx ≤ ty - (cy + Int.sign (ty - cy))))) ↔
      (cy ≤ ty ∧ (cx ≤ tx ∨ cx - tx ≤ ty - cy)) := by
  rcases lt_trichotomy (ty - cy) 0 with hy | hy | hy
  · rw [Int.sign_eq_neg_one_of_neg hy]
    omega
  · rw [hy]
    rcases lt_trichotomy (tx - cx) 0 with hx | hx | hx
    · rw [Int.sign_eq_neg_one_of_neg hx]
      rw [Int.sign_zero]
      omega
    · omega
    · rw [Int.sign_eq_one_of_pos hx]
      rw [Int.sign_zero]
      omega
  · rw [Int.sign_eq_one_of_pos hy]
    rcases lt_trichotomy (tx - cx) 0 with hx | hx | hx
    · rw [Int.sign_eq_neg_one_of_neg hx]
      omega
    · rw [hx]
      rw [Int.sign_zero]
      omega
    · rw [Int.sign_eq_one_of_pos hx]
      omega

theorem chain_concat_iff {α : Type} (R : α → α → Prop) (l : List α) (a b : α)
    (h : l.getLast? = some a) : (l ++ [b]).Chain' R ↔ l.Chain' R ∧ R a b := by
  rw [List.chain'_append, h]
  simp

/-- The hops of the route built by the loop of `KingMesh2D::route` all satisfy a relation
that holds of the hops right, down, down-right and down-left (and of every hop when `P`
holds) exactly when `P` holds or the destination is not above the current cell and is to
its left by no more than it is below. -/
theorem KingMesh2D.routeLoop_chain_iff (t : KingMesh2D) (d tx ty : Int)
    (hdc : t.base.devices_count = d * d) (htx : 0 ≤ tx ∧ tx < d) (hty : 0 ≤ ty ∧ ty < d)
    (R : Int → Int → Prop) (P : Prop)
    (hR : ∀ row col sy sx : Int, (0 ≤ row ∧ row < d) → (0 ≤ col ∧ col < d) →
      (0 ≤ row + sy ∧ row + sy < d) → (0 ≤ col + sx ∧ col + sx < d) →
      (-1 ≤ sy ∧ sy ≤ 1) → (-1 ≤ sx ∧ sx ≤ 1) → (sy ≠ 0 ∨ sx ≠ 0) →
      (R (row * d + col) ((row + sy) * d + (col + sx)) ↔
        (P ∨ sy = 1 ∨ (sy = 0 ∧ sx = 1)))) :
    ∀ (n fuel : Nat) (cx cy : Int) (route : Route), n ≤ fuel →
      (0 ≤ cx ∧ cx < d) → (0 ≤ cy ∧ cy < d) →
      max (tx - cx).natAbs (ty - cy).natAbs = n →
      route.getLast? = some (cy * d + cx) →
      ∃ r, KingMesh2D.routeLoop t d tx ty fuel cx cy route = .ok r ∧
        (r.Chain' R ↔ route.Chain' R ∧ (P ∨ (cy ≤ ty ∧ (cx ≤ tx ∨ cx - tx ≤ ty - cy)))) := by
  intro n
  induction n with
  | zero =>
    intro fuel cx cy route _ _ _ hmax _
    have h1 : cx = tx := by omega
    have h2 : cy = ty := by omega
    subst h1 h2
    refine ⟨route, ?_, ?_⟩
    · cases fuel <;> simp [KingMesh2D.routeLoop]
    · constructor
      · intro h
        exact ⟨h, Or.inr ⟨le_refl _, Or.inl (le_refl _)⟩⟩
      · intro h
        exact h.1
  | succ n ih =>
    intro fuel cx cy route hfuel hcx hcy hmax hlast
    obtain ⟨f, rfl⟩ := Nat.exists_eq_add_one_of_ne_zero (fun h : fuel = 0 => by
      rw [h] at hfuel; exact absurd hfuel (Nat.not_succ_le_zero n))
    have hne : cx ≠ tx ∨ cy ≠ ty := by
      by_contra h
      push_neg at h
      rw [h.1, h.2] at hmax
      simp at hmax
    obtain ⟨e1, e2, hx2, hy2, ax, ay⟩ := KingMesh2D.routeStep_spec d tx ty cx cy htx hty hcx hcy
    have hmax2 : max (tx - (cx + Int.sign (tx - cx))).natAbs
        (ty - (cy + Int.sign (ty - cy))).natAbs = n := by
      rw [ax, ay]; exact max_pred _ _ _ hmax
    have hidx := grid_index_bounds d _ _ hy2 hx2
    obtain ⟨bx1, bx2, _, bx4⟩ := sign_bounds (tx - cx)
    obtain ⟨by1, by2, _, by4⟩ := sign_bounds (ty - cy)
    have hnz : Int.sign (ty - cy) ≠ 0 ∨ Int.sign (tx - cx) ≠ 0 := by
      rcases hne with h | h
      · right
        intro h0
        rcases bx4 (sub_ne_zero.mpr (Ne.symm h)) with h1 | h1 <;> rw [h1] at h0 <;>
          exact absurd h0 (by decide)
      · left
        intro h0
        rcases by4 (sub_ne_zero.mpr (Ne.symm h)) with h1 | h1 <;> rw [h1] at h0 <;>
          exact absurd h0 (by decide)
    have hstep := hR cy cx _ _ hcy hcx hy2 hx2 ⟨by1, by2⟩ ⟨bx1, bx2⟩ hnz
    have hgood := king_forward_step tx ty cx cy hne
    obtain ⟨r, hr, hiff⟩ := ih f (cx + Int.sign (tx - cx)) (cy + Int.sign (ty - cy))
      (route ++ [(cy + Int.sign (ty - cy)) * d + (cx + Int.sign (tx - cx))])
      (Nat.le_of_succ_le_succ hfuel) hx2 hy2 hmax2 (List.getLast?_concat _)
    refine ⟨r, ?_, ?_⟩
    · rw [KingMesh2D.routeLoop, if_pos hne]
      have hstep2 : KingMesh2D.routeStep d tx ty cx cy =
          (cx + Int.sign (tx - cx), cy + Int.sign (ty - cy)) := Prod.ext e1 e2
      rw [hstep2]
      dsimp only
      rw [t.base.devices_at_ok _ (by rw [hdc]; exact hidx), ok_bind, hr]
    · rw [hiff, chain_concat_iff R route _ _ hlast, hstep, ← hgood]
      constructor
      · rintro ⟨⟨h1, h2⟩, h3⟩
        refine ⟨h1, ?_⟩
        rcases h2 with h | h
        · exact Or.inl h
        · rcases h3 with h' | h'
          · exact Or.inl h'
          · exact Or.inr ⟨h, h'⟩
      · rintro ⟨h1, h2⟩
        rcases h2 with h | ⟨h, h'⟩
        · exact ⟨⟨h1, Or.inl h⟩, Or.inl h⟩
        · exact ⟨⟨h1, Or.inr h⟩, Or.inr h'⟩

/-- The route-level form of the previous statement. -/
theorem KingMesh2D.route_chain_iff (t : KingMesh2D) (d : Nat)
    (ht : t.base.HasCounts ((d : Int) * d) ((d : Int) * d)) (src dest : Int)
    (hsrc : 0 ≤ src ∧ src < (d : Int) * d) (hdest : 0 ≤ dest ∧ dest < (d : Int) * d)
    (fuel : Nat) (hfuel : d ≤ fuel) (R : Int → Int → Prop) (P : Prop)
    (hR : ∀ row col sy sx : Int, (0 ≤ row ∧ row < d) → (0 ≤ col ∧ col < d) →
      (0 ≤ row + sy ∧ row + sy < d) → (0 ≤ col + sx ∧ col + sx < d) →
      (-1 ≤ sy ∧ sy ≤ 1) → (-1 ≤ sx ∧ sx ≤ 1) → (sy ≠ 0 ∨ sx ≠ 0) →
      (R (row * d + col) ((row + sy) * d + (col + sx)) ↔
        (P ∨ sy = 1 ∨ (sy = 0 ∧ sx = 1)))) :
    ∃ r, t.route fuel src dest = .ok r ∧
      (r.Chain' R ↔ (P ∨ (src / (d : Int) ≤ dest / (d : Int) ∧
        (src % (d : Int) ≤ dest % (d : Int) ∨
          src % (d : Int) - dest % (d : Int) ≤ dest / (d : Int) - src / (d : Int))))) := by
  obtain ⟨hn, hdc⟩ := ht
  obtain ⟨e1, e2, hsx, hsy, hs⟩ := grid_coords d src hsrc
  obtain ⟨e3, e4, htx, hty, hd⟩ := grid_coords d dest hdest
  have hfu : max (dest % (d : Int) - src % (d : Int)).natAbs
      (dest / (d : Int) - src / (d : Int)).natAbs ≤ fuel := by omega
  obtain ⟨r, hr, hiff⟩ := KingMesh2D.routeLoop_chain_iff t d (dest % d) (dest / d) hdc htx hty
    R P hR _ fuel (src % d) (src / d) [src] hfu hsx hsy rfl (by rw [← hs]; rfl)
  refine ⟨r, ?_, ?_⟩
  · simp only [KingMesh2D.route]
    rw [hn, assert_of_true hsrc, assert_of_true hdest, isqrt_sq, assert_of_true rfl,
      t.base.devices_at_ok src (by rw [hdc]; exact hsrc)]
    simp only [ok_bind, e1, e2, e3, e4, List.nil_append]
    exact hr
  · rw [hiff]
    constructor
    · intro h; exact h.2
    · intro h; exact ⟨List.chain'_singleton _, h⟩

/-- C14 (amended): for every standalone `d × d` Mesh2D and every standalone `d × d`
KingMesh2D and all valid `src`, `dest`, `route(src, dest)` is returned, and the constructor
recorded a link from `a` to `b` for each two consecutive devices `(a, b)` of it exactly in
these cases (`x = id mod d`, `y = id div d`): for Mesh2D, when `bidirectional` is true or
`dest_x ≥ src_x` and `dest_y ≥ src_y`; for KingMesh2D, when `bidirectional` is true or
`dest_y ≥ src_y` and (`dest_x ≥ src_x` or `src_x - dest_x ≤ dest_y - src_y`). -/
theorem mesh_route_hops_are_links (d : Nat) (bw lat : ℚ) (bidir : Bool)
    (hbw : 0 < bw) (hlat : 0 ≤ lat) (src dest : Int)
    (hsrc : 0 ≤ src ∧ src < (d : Int) * d) (hdest : 0 ≤ dest ∧ dest < (d : Int) * d)
    (fuel : Nat) (hfuel : d ≤ fuel) :
    (∃ t r, Mesh2D.new ((d : Int) * d) bw lat bidir false = .ok t ∧
      t.route fuel src dest = .ok r ∧
      (r.Chain' (fun a b => ∃ l ∈ t.base.links, l.src = a ∧ l.dst = b) ↔
        (bidir = true ∨
          (src % (d : Int) ≤ dest % (d : Int) ∧ src / (d : Int) ≤ dest / (d : Int))))) ∧
    (∃ t r, KingMesh2D.new ((d : Int) * d) bw lat bidir false = .ok t ∧
      t.route fuel src dest = .ok r ∧
      (r.Chain' (fun a b => ∃ l ∈ t.base.links, l.src = a ∧ l.dst = b) ↔
        (bidir = true ∨ (src / (d : Int) ≤ dest / (d : Int) ∧
          (src % (d : Int) ≤ dest % (d : Int) ∨
            src % (d : Int) - dest % (d : Int) ≤ dest / (d : Int) - src / (d : Int)))))) := by
  have hd : 1 ≤ d := by
    rcases Nat.eq_zero_or_pos d with h | h
    · subst h; simp at hsrc; omega
    · exact h
  constructor
  · obtain ⟨t, ht, hc, _, hl⟩ := Mesh2D_new_standalone d hd bw lat bidir hbw hlat
    refine ⟨t, _, ht, Mesh2D_route_eq t d hc src dest hsrc hdest fuel hfuel, ?_⟩
    exact xFirstPath_chain_iff d _ (bidir = true) src dest hsrc hdest
      (fun row col sy sx h1 h2 h3 h4 h5 =>
        Mesh2D_step_link_iff d bw lat bidir _ hl row col sy sx h1 h2 h3 h4 h5)
  · obtain ⟨t, ht, hc, _, hl⟩ := KingMesh2D_new_standalone d hd bw lat bidir hbw hlat
    obtain ⟨r, hr, hiff⟩ := KingMesh2D.route_chain_iff t d hc src dest hsrc hdest fuel hfuel
      (fun a b => ∃ l ∈ t.base.links, l.src = a ∧ l.dst = b) (bidir = true)
      (fun row col sy sx h1 h2 h3 h4 h5 h6 h7 =>
        KingMesh2D_step_link_iff d bw lat bidir _ hl row col sy sx h1 h2 h3 h4 h5 h6 h7)
    exact ⟨t, r, ht, hr, hiff⟩

/-- Witness of the amended C14: the unidirectional 3 × 3 grids, from cell 1 to cell 3 (one
step down-left). -/
theorem mesh_route_hops_are_links_witness :
    (∃ t r, Mesh2D.new (((3 : Nat) : Int) * (3 : Nat)) 10 1 false false = .ok t ∧
      t.route 3 1 3 = .ok r ∧
      (r.Chain' (fun a b => ∃ l ∈ t.base.links, l.src = a ∧ l.dst = b) ↔
        (false = true ∨
          ((1 : Int) % ((3 : Nat) : Int) ≤ 3 % ((3 : Nat) : Int) ∧
            (1 : Int) / ((3 : Nat) : Int) ≤ 3 / ((3 : Nat) : Int))))) ∧
    (∃ t r, KingMesh2D.new (((3 : Nat) : Int) * (3 : Nat)) 10 1 false false = .ok t ∧
      t.route 3 1 3 = .ok r ∧
      (r.Chain' (fun a b => ∃ l ∈ t.base.links, l.src = a ∧ l.dst = b) ↔
        (false = true ∨ ((1 : Int) / ((3 : Nat) : Int) ≤ 3 / ((3 : Nat) : Int) ∧
          ((1 : Int) % ((3 : Nat) : Int) ≤ 3 % ((3 : Nat) : Int) ∨
            (1 : Int) % ((3 : Nat) : Int) - 3 % ((3 : Nat) : Int) ≤
              3 / ((3 : Nat) : Int) - 1 / ((3 : Nat) : Int)))))) :=
  mesh_route_hops_are_links 3 10 1 false (by decide) (by decide) 1 3 (by decide) (by decide)
    3 (by decide)

end NetworkAnalyticalCongestionAware
